import Mathlib

/-!
Verification of the Prime Tower Clocks core against its specification.

The definitions below are a shallow embedding of the Python sources
(prime_tower_clocks.py, tower_dict.py, ptc_model.py, ptc_jsonl.py, ptc_bin.py):

* Python unbounded non-negative integers are modelled as Nat, general
  integers as Int.  Python's floor `%` and `//` agree with Int.emod and
  Int.ediv whenever the divisor is positive, which is the case at every
  call site in the embedded code, so Int.emod / Int.ediv are used.
* Python's builtin three-argument pow(a, b, m) is modelled by powMod,
  a structurally recursive square-and-multiply definition.
* Code that raises an exception is modelled as returning Option.none.
* Python dicts that carry factorizations are modelled as insertion-ordered
  association lists (Lean List (Nat x Nat)); Python dict iteration order is
  insertion order, which the association list preserves.
* Python generators consumed lazily are modelled as functions producing
  lists, with their consumers folding over those lists.
-/

namespace PTC

set_option maxRecDepth 40000

-- ===================================================================
-- DEFINITIONS
-- ===================================================================

/-
All recursion below is structural (on a list or on an explicit Nat fuel
argument) so that every definition evaluates inside the Lean kernel.  A
fuel argument is always initialised with a value provably larger than the
recursion depth of the Python loop it models, so on the inputs where the
Python code terminates the two agree; this is proved where needed.
-/

/-- Fuel-driven loop of Python int.bit_length(). -/
def bitLenGo : ℕ → ℕ → ℕ
  | 0, _ => 0
  | fuel + 1, n => if n = 0 then 0 else bitLenGo fuel (n / 2) + 1

/-- Python int.bit_length(): number of bits needed to represent n, 0 for 0. -/
def bit_length (n : ℕ) : ℕ := bitLenGo (n + 1) n

/-- Fuel-driven square-and-multiply loop modelling Python pow(a, b, m). -/
def powModGo (m : ℕ) : ℕ → ℕ → ℕ → ℕ
  | 0, _, _ => 1 % m
  | fuel + 1, a, b =>
    if b = 0 then 1 % m
    else
      let r := powModGo m fuel (a * a % m) (b / 2)
      if b % 2 = 1 then r * (a % m) % m else r

/-- Python builtin pow(a, b, m) (modular exponentiation).  At every call
site in the sources m >= 1. -/
def powMod (a b m : ℕ) : ℕ := powModGo m (b + 1) a b

/-- Fuel-driven recursion of egcd. -/
def egcdGo : ℕ → ℤ → ℤ → ℤ × ℤ × ℤ
  | 0, _, _ => (0, 0, 0)
  | fuel + 1, a, b =>
    if b = 0 then ((a.natAbs : ℤ), if 0 ≤ a then 1 else -1, 0)
    else
      let t := egcdGo fuel b (a % b)
      (t.1, t.2.2, t.2.1 - (a / b) * t.2.2)

/-- egcd from prime_tower_clocks.py: extended GCD returning (g, x, y) with
a*x + b*y = g = gcd(a, b).  Python floor mod/div coincide with emod/ediv
for the arguments this code is called with (the divisor is non-negative at
every call site). -/
def egcd (a b : ℤ) : ℤ × ℤ × ℤ := egcdGo (b.natAbs + 1) a b

/-- modinv from prime_tower_clocks.py: modular inverse of a mod m.
Python raises ZeroDivisionError when m = 0 and ValueError when
gcd(a, m) != 1; both are modelled as none. -/
def modinv (a m : ℕ) : Option ℕ :=
  if m = 0 then none
  else if (egcd ((a % m : ℕ) : ℤ) (m : ℤ)).1 ≠ 1 then none
  else some (((egcd ((a % m : ℕ) : ℤ) (m : ℤ)).2.1 % (m : ℤ)).toNat)

/-- crt_pair from prime_tower_clocks.py.  Raises (none) when a modulus is
non-positive (in Nat: zero) or the moduli are not coprime. -/
def crt_pair (a1 m1 a2 m2 : ℕ) : Option (ℕ × ℕ) :=
  if m1 = 0 ∨ m2 = 0 then none
  else if Nat.gcd m1 m2 ≠ 1 then none
  else
    match modinv (m1 % m2) m2 with
    | none => none
    | some inv =>
      some ((a1 + m1 * (((((a2 : ℤ) - (a1 : ℤ)) % (m2 : ℤ)).toNat * inv) % m2)) % (m1 * m2),
        m1 * m2)

/-- Fold step of crt_many over the zipped tail (residue, modulus) pairs. -/
def crtFold (x m : ℕ) : List (ℕ × ℕ) → Option (ℕ × ℕ)
  | [] => some (x, m)
  | (a, mod) :: rest =>
    match crt_pair x m (a % mod) mod with
    | none => none
    | some (x', m') => crtFold x' m' rest

/-- crt_many from prime_tower_clocks.py: iterated CRT over coprime moduli.
Empty input raises IndexError (none); a zero first modulus raises
ZeroDivisionError (none). -/
def crt_many (residues moduli : List ℕ) : Option (ℕ × ℕ) :=
  if residues.length ≠ moduli.length then none
  else
    match residues, moduli with
    | r :: rs, m :: ms =>
      if m = 0 then none else crtFold (r % m) m (rs.zip ms)
    | _, _ => none

/-- Fuel-driven loop of _mr_decompose: repeatedly halve d while it is even,
counting s.  Every call site has d >= 1, where the fuel suffices. -/
def mrDecGo : ℕ → ℕ → ℕ → ℕ × ℕ
  | 0, d, s => (d, s)
  | fuel + 1, d, s => if d % 2 = 0 then mrDecGo fuel (d / 2) (s + 1) else (d, s)

/-- _mr_decompose from prime_tower_clocks.py: n-1 = d * 2^s with d odd. -/
def _mr_decompose (n : ℕ) : ℕ × ℕ := mrDecGo n (n - 1) 0

/-- Inner squaring loop of one Miller-Rabin round; returns the final value
of the Python `composite` flag after up to k squarings. -/
def mrLoop (n : ℕ) : ℕ → ℕ → Bool
  | _, 0 => true
  | x, k + 1 =>
    let x' := x * x % n
    if x' = n - 1 then false else mrLoop n x' k

/-- One Miller-Rabin base test from is_probable_prime: true iff base a does
not witness compositeness of n (with n - 1 = d * 2^s). -/
def mrBaseOk (n d s a : ℕ) : Bool :=
  let a' := a % n
  if a' = 0 then true
  else
    let x := powMod a' d n
    if x = 1 ∨ x = n - 1 then true
    else !(mrLoop n x (s - 1))

/-- Trial-division prefix of is_probable_prime over the fixed small primes:
some true / some false short-circuit, none means fall through to Miller-Rabin. -/
def trialSmall (n : ℕ) : List ℕ → Option Bool
  | [] => none
  | p :: ps =>
    if n = p then some true
    else if n % p = 0 then some false
    else trialSmall n ps

/-- The fixed small primes used by trial division in is_probable_prime. -/
def mrSmallPrimes : List ℕ := [2, 3, 5, 7, 11, 13, 17, 19, 23, 29, 31, 37]

/-- The fixed deterministic Miller-Rabin bases of is_probable_prime. -/
def mrBases : List ℕ := [2, 325, 9375, 28178, 450775, 9780504, 1795265022]

/-- is_probable_prime from prime_tower_clocks.py (deterministic Miller-Rabin
for the 64-bit range). -/
def is_probable_prime (n : ℕ) : Bool :=
  if n < 2 then false
  else
    match trialSmall n mrSmallPrimes with
    | some b => b
    | none => mrBases.all (fun a => mrBaseOk n (_mr_decompose n).1 (_mr_decompose n).2 a)

/-- Fuel-driven inner while-loop of factor_smooth: divide out p from n,
counting the exponent.  Every call site has n >= 1 and p >= 2, where the
fuel suffices. -/
def divOutGo (p : ℕ) : ℕ → ℕ → ℕ → ℕ × ℕ
  | 0, n, e => (n, e)
  | fuel + 1, n, e => if n % p = 0 then divOutGo p fuel (n / p) (e + 1) else (n, e)

/-- Inner while-loop of factor_smooth with its fuel initialised. -/
def divOut (p : ℕ) (n e : ℕ) : ℕ × ℕ := divOutGo p n n e

/-- Loop of factor_smooth over the allowed prime list, with the insertion
ordered factor association list as accumulator. -/
def factorSmoothGo (n : ℕ) : List ℕ → List (ℕ × ℕ) → List (ℕ × ℕ) × ℕ
  | [], f => (f, n)
  | p :: ps, f =>
    if n = 1 then (f, n)
    else if n % p = 0 then
      let t := divOut p n 0
      factorSmoothGo t.1 ps (f ++ [(p, t.2)])
    else factorSmoothGo n ps f

/-- factor_smooth from prime_tower_clocks.py: factorize n over the given
primes only, returning (factor list, remainder); remainder 1 means smooth. -/
def factor_smooth (n : ℕ) (primes : List ℕ) : List (ℕ × ℕ) × ℕ :=
  factorSmoothGo n primes []

/-- is_primitive_root_2 from prime_tower_clocks.py: true iff 2 has order
p-1 modulo p, given the distinct prime factors of p-1 as keys of factors. -/
def is_primitive_root_2 (p : ℕ) (factors : List (ℕ × ℕ)) : Bool :=
  if p ≤ 2 then false
  else factors.all (fun qe => powMod 2 ((p - 1) / qe.1) p != 1)

/-- nice_prime_info from prime_tower_clocks.py: the smooth factorization of
p-1 when p is a "nice" prime, none otherwise. -/
def nice_prime_info (p : ℕ) (smooth_primes : List ℕ) : Option (List (ℕ × ℕ)) :=
  if ¬ is_probable_prime p then none
  else
    if (factor_smooth (p - 1) smooth_primes).2 ≠ 1 then none
    else if ¬ is_primitive_root_2 p (factor_smooth (p - 1) smooth_primes).1 then none
    else some (factor_smooth (p - 1) smooth_primes).1

/-
Python sorted(...) is modelled by List.insertionSort: for the element
types sorted here (numbers, or pairs with pairwise-distinct keys) the
sorted list is unique, so any correct sort coincides with Python's.
-/

/-- TowerDict from tower_dict.py (dataclass fields only; the __post_init__
validation is modelled by mkTowerDict). -/
structure TowerDict where
  dict_id : ℕ
  primes : List ℕ
deriving DecidableEq, Repr

/-- Construction of a TowerDict, modelling __post_init__: any raise is
none.  dict_id is a Nat, so only dict_id = 0 can violate dict_id > 0. -/
def mkTowerDict (dict_id : ℕ) (primes : List ℕ) : Option TowerDict :=
  if dict_id = 0 then none
  else if primes = [] then none
  else if List.insertionSort (fun a b => a ≤ b) primes ≠ primes then none
  else if primes.any (fun p => decide (p < 3)) then none
  else some ⟨dict_id, primes⟩

/-- delta_encode_primes from tower_dict.py: [p0, p1-p0, p2-p1, ...]; the
differences are integers (negative when the input is not ascending).
An empty input raises (none). -/
def delta_encode_primes : List ℕ → Option (List ℤ)
  | [] => none
  | p :: ps => some ((p : ℤ) :: (ps.zip (p :: ps)).map (fun ab => (ab.1 : ℤ) - (ab.2 : ℤ)))

/-- Accumulating loop of delta_decode_primes. -/
def deltaDecGo (cur : ℕ) : List ℕ → List ℕ
  | [] => []
  | d :: ds => (cur + d) :: deltaDecGo (cur + d) ds

/-- delta_decode_primes from tower_dict.py, on the non-negative varint
values produced by the decoder.  An empty input raises (none). -/
def delta_decode_primes : List ℕ → Option (List ℕ)
  | [] => none
  | d :: ds => some (d :: deltaDecGo d ds)

/-- Python dict.pop(p, None) on a factorization association list: remove
the entry with key p if present. -/
def dictPop (fac : List (ℕ × ℕ)) (p : ℕ) : List (ℕ × ℕ) :=
  fac.eraseP (fun qe => qe.1 == p)

/-- Candidates produced by the per-prime power loop (while v <= max_m) of
_gen_smooth_ms_in_range: the pairs (cur * p^e, updated factorization) for
e = 0, 1, ... while in range.  In Python the dict is mutated in place; for
distinct primes p is absent from fac on entry, so each iteration's dict is
the entry dict with the (p, e) entry appended (or popped for e = 0).  The
fuel max_m + 2 exceeds the loop's iteration count whenever p >= 2. -/
def eCandidates (maxM p cur : ℕ) (fac : List (ℕ × ℕ)) : ℕ → ℕ → List (ℕ × List (ℕ × ℕ))
  | 0, _ => []
  | fuel + 1, e =>
    if cur * p ^ e > maxM then []
    else
      (cur * p ^ e, if e = 0 then dictPop fac p else dictPop fac p ++ [(p, e)]) ::
        eCandidates maxM p cur fac fuel (e + 1)

/-- Recursive enumeration rec(i, cur, fac) of _gen_smooth_ms_in_range, in
Python yield order (before the final sort). -/
def smoothRec (minM maxM : ℕ) : List ℕ → ℕ → List (ℕ × ℕ) → List (ℕ × List (ℕ × ℕ))
  | [], cur, fac =>
    if cur > maxM then []
    else if minM ≤ cur ∧ cur ≤ maxM then [(cur, fac)] else []
  | p :: rest, cur, fac =>
    if cur > maxM then []
    else
      (eCandidates maxM p cur fac (maxM + 2) 0).flatMap
        (fun vf => smoothRec minM maxM rest vf.1 vf.2)

/-- _gen_smooth_ms_in_range from prime_tower_clocks.py: all smooth m in
[min_m, max_m] with their factorizations, sorted by m descending. -/
def _gen_smooth_ms_in_range (primes : List ℕ) (min_m max_m : ℕ) :
    List (ℕ × List (ℕ × ℕ)) :=
  List.insertionSort (fun a b => b.1 ≤ a.1) (smoothRec min_m max_m primes 1 [])

/-- Default configuration constants from prime_tower_clocks.py. -/
def DEFAULT_ANCHOR : ℕ := 61

/-- Default smooth prime set from prime_tower_clocks.py. -/
def DEFAULT_SMOOTH_PRIMES : List ℕ := [2, 3, 5, 7, 11, 13]

/-- Default lower bound for 32-bit clock primes (1 << 31). -/
def DEFAULT_32BIT_MIN_P : ℕ := 2 ^ 31

/-- Default upper bound for 32-bit clock primes ((1 << 32) - 1). -/
def DEFAULT_32BIT_MAX_P : ℕ := 2 ^ 32 - 1

/-- generate_nice_primes_32 from prime_tower_clocks.py: up to limit nice
primes p = m + 1 with m smooth in [min_p - 1, max_p - 1], in the order the
Python generator yields them. -/
def generate_nice_primes_32 (smooth_primes : List ℕ) (min_p max_p limit : ℕ) :
    List (ℕ × List (ℕ × ℕ)) :=
  ((_gen_smooth_ms_in_range smooth_primes (max 1 (min_p - 1)) (max_p - 1)).filterMap
    (fun mf =>
      if is_probable_prime (mf.1 + 1) = true ∧ is_primitive_root_2 (mf.1 + 1) mf.2 = true
      then some (mf.1 + 1, mf.2) else none)).take limit

/-- Brute-force digit search of dlog_prime_power: for cand in range(q),
return the first cand with cur == c, stepping cur by cur * d % p.  The
fuel is initialised to q, matching range(q). -/
def dlogSearch (d p c : ℕ) : ℕ → ℕ → ℕ → Option ℕ
  | 0, _, _ => none
  | fuel + 1, cand, cur =>
    if cur = c then some cand
    else dlogSearch d p c fuel (cand + 1) (cur * d % p)

/-- The k-loop of dlog_prime_power (digit-by-digit lifting in base q), with
d = g^(q^(exp-1)) mod p precomputed by the caller.  A failing modinv or an
exhausted digit search propagates the raise as none; after exp rounds the
result is x mod q^exp. -/
def dlogPPGo (g h p q exp d : ℕ) : ℕ → ℕ → ℕ → Option ℕ
  | 0, _, x => some (x % q ^ exp)
  | fuel + 1, k, x =>
    match modinv (powMod g x p) p with
    | none => none
    | some inv_gx =>
      match dlogSearch d p (powMod (h * inv_gx % p) (q ^ (exp - 1 - k)) p) q 0 1 with
      | none => none
      | some a_k => dlogPPGo g h p q exp d fuel (k + 1) (x + a_k * q ^ k)

/-- dlog_prime_power from prime_tower_clocks.py: solve g^x = h (mod p)
where g has order q^exp, by lifting base-q digits.  Raises (none) on
exp <= 0, on g or h zero mod p, and on a failed lifting step. -/
def dlog_prime_power (g h p q exp : ℕ) : Option ℕ :=
  if exp = 0 then none
  else if g % p = 0 ∨ h % p = 0 then none
  else dlogPPGo (g % p) (h % p) p q exp (powMod (g % p) (q ^ (exp - 1)) p) exp 0 0

/-- Per-factor loop of dlog_pohlig_hellman_base2, accumulating the
congruence lists in factor order. -/
def phGo (h p phi : ℕ) : List (ℕ × ℕ) → List ℕ → List ℕ → Option (List ℕ × List ℕ)
  | [], congr_a, congr_m => some (congr_a, congr_m)
  | (q, exp) :: rest, congr_a, congr_m =>
    match dlog_prime_power (powMod 2 (phi / q ^ exp) p) (powMod h (phi / q ^ exp) p) p q exp with
    | none => none
    | some x_i => phGo h p phi rest (congr_a ++ [x_i]) (congr_m ++ [q ^ exp])

/-- dlog_pohlig_hellman_base2 from prime_tower_clocks.py: solve
2^x = h (mod p) for 2 a primitive root mod p, from the smooth
factorization of p-1.  h divisible by p raises (none). -/
def dlog_pohlig_hellman_base2 (h p : ℕ) (factors_p_minus_1 : List (ℕ × ℕ)) : Option ℕ :=
  if h % p = 0 then none
  else
    match phGo (h % p) p (p - 1) factors_p_minus_1 [] [] with
    | none => none
    | some (congr_a, congr_m) =>
      match crt_many congr_a congr_m with
      | none => none
      | some (x, _) => some (x % (p - 1))

/-- Fuel loop computing the decimal digit count of n (len(str(n)) in
Python, with decLenGo fuel 0 = ... giving 1 for n = 0 as in str(0)). -/
def decLenGo : ℕ → ℕ → ℕ
  | 0, _ => 0
  | fuel + 1, n => if n < 10 then 1 else decLenGo fuel (n / 10) + 1

/-- len(str(n)) for a non-negative integer n. -/
def decimal_len (n : ℕ) : ℕ := decLenGo (n + 1) n

/-- Firma from prime_tower_clocks.py (frozen dataclass): per-clock record
(p, r = N mod p, e the discrete log when r != 0, phi = p-1, factors of
p-1). -/
structure Firma where
  p : ℕ
  r : ℕ
  e : Option ℕ
  phi : ℕ
  factors : Option (List (ℕ × ℕ))
deriving DecidableEq, Repr

/-- TowerSignature from prime_tower_clocks.py (frozen dataclass). -/
structure TowerSignature where
  N : ℕ
  D : ℕ
  orologi : List ℕ
  firme : List Firma
  M : ℕ
deriving DecidableEq, Repr

/-- TowerSignature.residues: 0 for an absent exponent, pow(2, e, p)
otherwise, in firma order. -/
def TowerSignature.residues (sig : TowerSignature) : List ℕ :=
  sig.firme.map (fun f =>
    match f.e with
    | none => 0
    | some e => powMod 2 e f.p)

/-- The generator loop of choose_orologi_for_digits: walk the nice-prime
pool, skip primes already used, append each new prime, and return the
chosen list as soon as the running product exceeds target.  Exhausting
the pool raises RuntimeError (none).  The Python loop appends (p, fac),
multiplies M by p, and only then compares M with target, so the test
here is M * p > target with the pre-append product M. -/
def chooseLoop (target : ℕ) :
    List (ℕ × List (ℕ × ℕ)) → List (ℕ × List (ℕ × ℕ)) → ℕ → List ℕ →
    Option (List (ℕ × List (ℕ × ℕ)))
  | [], _, _, _ => none
  | (p, fac) :: rest, chosen, M, used =>
    if p ∈ used then chooseLoop target rest chosen M used
    else
      if M * p > target then some (chosen ++ [(p, fac)])
      else chooseLoop target rest (chosen ++ [(p, fac)]) (M * p) (used ++ [p])

/-- choose_orologi_for_digits from prime_tower_clocks.py: the anchor first,
then 32-bit nice primes from the pool (limit 5000) until the product
exceeds 10^D.  D = 0, a non-nice anchor, or an exhausted pool raise
(none). -/
def choose_orologi_for_digits (D anchor : ℕ) (smooth_primes : List ℕ)
    (min_p max_p : ℕ) : Option (List (ℕ × List (ℕ × ℕ))) :=
  if D = 0 then none
  else
    match nice_prime_info anchor smooth_primes with
    | none => none
    | some anchor_f =>
      chooseLoop (10 ^ D) (generate_nice_primes_32 smooth_primes min_p max_p 5000)
        [(anchor, anchor_f)] anchor [anchor]

/-- The per-clock loop of compute_tower_signature, building the firme in
chosen order.  A dlog failure is a raise (none); Python never reaches it
for nice clocks, but the embedding keeps the fallible shape. -/
def buildFirme (N : ℕ) : List (ℕ × List (ℕ × ℕ)) → Option (List Firma)
  | [] => some []
  | (p, fac) :: rest =>
    if N % p = 0 then
      match buildFirme N rest with
      | none => none
      | some fs => some (⟨p, 0, none, p - 1, some fac⟩ :: fs)
    else
      match dlog_pohlig_hellman_base2 (N % p) p fac with
      | none => none
      | some e =>
        match buildFirme N rest with
        | none => none
        | some fs => some (⟨p, N % p, some e, p - 1, some fac⟩ :: fs)

/-- compute_tower_signature from prime_tower_clocks.py.  D = len(str(N))
(1 for N = 0); the clock choice uses the default 32-bit range; M is the
product of the chosen primes accumulated by the loop. -/
def compute_tower_signature (N anchor : ℕ) (smooth_primes : List ℕ) :
    Option TowerSignature :=
  let D := if N = 0 then 1 else decimal_len N
  match choose_orologi_for_digits D anchor smooth_primes
      DEFAULT_32BIT_MIN_P DEFAULT_32BIT_MAX_P with
  | none => none
  | some chosen =>
    match buildFirme N chosen with
    | none => none
    | some firme =>
      some ⟨N, D, chosen.map Prod.fst, firme, (chosen.map Prod.fst).prod⟩

/-- reconstruct_from_tower_signature from prime_tower_clocks.py:
CRT over (residues, orologi), returning (N mod M, M). -/
def reconstruct_from_tower_signature (sig : TowerSignature) : Option (ℕ × ℕ) :=
  crt_many sig.residues sig.orologi

/-
Binary codec (ptc_bin.py, ptc_model.py).  Bytes are naturals < 256.
Python's bit operations on non-negative ints are embedded as arithmetic:
x >> k is x / 2^k, x << k is x * 2^k, x & (2^k - 1) is x % 2^k, and
(x & 0x80) == 0 is x / 128 % 2 = 0; genuinely overlapping ors keep |||.
Raises on the write path are Option.none; the reader returns Except with
one error constructor per distinct raise site, so that distinct failure
modes (EOF versus CRC mismatch, for example) stay distinguishable.
-/

/-- Error cases of the binary reader (PTCBinError / ValueError /
IndexError raise sites in ptc_bin.py and tower_dict.py). -/
inductive PTCBinError where
  | badMagic
  | badVersion
  | noLength
  | noCRC32
  | noBitpackE
  | eof
  | ulebEof
  | ulebTooLarge
  | crcMismatch
  | unknownFrame
  | invalidK
  | primesLenMismatch
  | dictInvalid
  | unknownDictId
  | sigPayloadShort
  | zBitmapLen
  | notEnoughBits
  | esIndex
  | pTooSmall
deriving DecidableEq, Repr

/-- File format version from ptc_bin.py. -/
def VERSION : ℕ := 1

/-- ClockRec from ptc_model.py (p, z, optional exponent e). -/
structure ClockRec where
  p : ℕ
  z : Bool
  e : Option ℕ
deriving DecidableEq, Repr

/-- PTCSig from ptc_model.py, restricted to the fields the binary codec
reads and writes (base and clocks; the optional metadata fields take no
part in ptc_bin encoding or decoding). -/
structure PTCSig where
  base : ℕ
  clocks : List ClockRec
deriving DecidableEq, Repr

/-- PTCBinHeader from ptc_bin.py. -/
structure PTCBinHeader where
  version : ℕ
  base : ℕ
  flags : ℕ
deriving DecidableEq, Repr

/-- DecodedSignature from ptc_bin.py. -/
structure DecodedSignature where
  dict_id : ℕ
  sig : PTCSig
deriving DecidableEq, Repr

/-- PTCBinFile from ptc_bin.py; the Python dict dicts is an
insertion-ordered map, embedded as an association list updated by
assocUpd. -/
structure PTCBinFile where
  header : PTCBinHeader
  dicts : List (ℕ × TowerDict)
  signatures : List DecodedSignature
deriving DecidableEq, Repr

/-- Python dict assignment m[k] = v on an insertion-ordered map: replace
in place if the key exists, else append. -/
def assocUpd {β : Type} (m : List (ℕ × β)) (k : ℕ) (v : β) : List (ℕ × β) :=
  if m.any (fun kv => kv.1 == k) then m.map (fun kv => if kv.1 == k then (k, v) else kv)
  else m ++ [(k, v)]

/-- Python dict lookup m.get(k). -/
def assocGet {β : Type} (m : List (ℕ × β)) (k : ℕ) : Option β :=
  (m.find? (fun kv => kv.1 == k)).map Prod.snd

/-- e_bit_width_for_prime from ptc_model.py: bit_length(p-2), raising
(none) for p < 3. -/
def e_bit_width_for_prime (p : ℕ) : Option ℕ :=
  if p < 3 then none else some (bit_length (p - 2))

/-- One reflected CRC-32 bit step (polynomial 0xEDB88320), as performed
per bit by zlib.crc32. -/
def crc32Bit (c : ℕ) : ℕ := if c % 2 = 1 then (c / 2) ^^^ 0xEDB88320 else c / 2

/-- One byte of the zlib.crc32 state update. -/
def crc32Byte (c b : ℕ) : ℕ :=
  crc32Bit (crc32Bit (crc32Bit (crc32Bit (crc32Bit (crc32Bit (crc32Bit (crc32Bit (c ^^^ b))))))))

/-- zlib.crc32(data) & 0xFFFFFFFF: init 0xFFFFFFFF, per-byte updates,
final xor 0xFFFFFFFF. -/
def crc32 (data : List ℕ) : ℕ := (data.foldl crc32Byte 0xFFFFFFFF) ^^^ 0xFFFFFFFF

/-- crc32_be from ptc_bin.py: the CRC as 4 big-endian bytes. -/
def crc32_be (data : List ℕ) : List ℕ :=
  [crc32 data / 2 ^ 24 % 256, crc32 data / 2 ^ 16 % 256, crc32 data / 2 ^ 8 % 256,
    crc32 data % 256]

/-- Loop of uleb128_encode: emit 7 bits per byte, continuation bit on all
but the last.  The fuel n + 1 bounds the iteration count. -/
def uleb128Go : ℕ → ℕ → List ℕ
  | 0, _ => []
  | fuel + 1, n =>
    if n / 128 = 0 then [n % 128]
    else (n % 128 ||| 128) :: uleb128Go fuel (n / 128)

/-- uleb128_encode from ptc_bin.py (callers guarantee n >= 0; the
negative-input raise cannot occur on Nat). -/
def uleb128_encode (n : ℕ) : List ℕ := uleb128Go (n + 1) n

/-- uleb128_decode_from from ptc_bin.py, returning the decoded value and
the remaining bytes; EOF and the shift > 70 guard raise. -/
def uleb128_decode : List ℕ → ℕ → ℕ → Except PTCBinError (ℕ × List ℕ)
  | [], _, _ => .error .ulebEof
  | b :: rest, shift, n =>
    if b / 128 % 2 = 0 then .ok (n ||| b % 128 * 2 ^ shift, rest)
    else if 70 < shift + 7 then .error .ulebTooLarge
    else uleb128_decode rest (shift + 7) (n ||| b % 128 * 2 ^ shift)

/-- Index map {p: i for i, p in enumerate(primes)} of _pack_z_bitmap
(later duplicates overwrite earlier ones, as in a Python dict). -/
def idxMap (primes : List ℕ) : List (ℕ × ℕ) :=
  primes.enum.foldl (fun m ip => assocUpd m ip.2 ip.1) []

/-- bitmap[i // 8] |= 1 << (i % 8) on the byte list of the z bitmap. -/
def bitmapSet (bm : List ℕ) (i : ℕ) : List ℕ :=
  bm.set (i / 8) (bm.getD (i / 8) 0 ||| 2 ^ (i % 8))

/-- Clock loop of _pack_z_bitmap: missing prime raises. -/
def packZGo (idx : List (ℕ × ℕ)) : List ClockRec → List ℕ → Option (List ℕ)
  | [], bm => some bm
  | c :: cs, bm =>
    match assocGet idx c.p with
    | none => none
    | some i => packZGo idx cs (if c.z then bitmapSet bm i else bm)

/-- _pack_z_bitmap from ptc_bin.py. -/
def _pack_z_bitmap (primes : List ℕ) (clocks : List ClockRec) : Option (List ℕ) :=
  packZGo (idxMap primes) clocks (List.replicate ((primes.length + 7) / 8) 0)

/-- _unpack_z_bitmap from ptc_bin.py: bit i of the bitmap, for each prime
index i. -/
def _unpack_z_bitmap (primes : List ℕ) (bitmap : List ℕ) :
    Except PTCBinError (List Bool) :=
  if bitmap.length ≠ (primes.length + 7) / 8 then .error .zBitmapLen
  else .ok ((List.range primes.length).map
    (fun i => decide (bitmap.getD (i / 8) 0 / 2 ^ (i % 8) % 2 = 1)))

/-- The while nbits >= 8 loop of _bitpack_es: emit full bytes from the
bit buffer.  Fuel nbits bounds the iterations. -/
def flushBytes : ℕ → ℕ → ℕ → List ℕ × ℕ × ℕ
  | 0, buf, nbits => ([], buf, nbits)
  | fuel + 1, buf, nbits =>
    if 8 ≤ nbits then
      let r := flushBytes fuel (buf / 256) (nbits - 8)
      (buf % 256 :: r.1, r.2)
    else ([], buf, nbits)

/-- Prime loop of _bitpack_es over the bit buffer (buf, nbits); the final
partial byte is emitted after the loop. -/
def bitpackGo (byp : List (ℕ × ClockRec)) : List ℕ → ℕ → ℕ → Option (List ℕ)
  | [], buf, nbits => some (if nbits ≠ 0 then [buf % 256] else [])
  | p :: ps, buf, nbits =>
    match assocGet byp p with
    | none => none
    | some c =>
      if c.z then bitpackGo byp ps buf nbits
      else
        match c.e with
        | none => none
        | some e =>
          match e_bit_width_for_prime p with
          | none => none
          | some w =>
            let fl := flushBytes (nbits + w) (buf ||| e % 2 ^ w * 2 ^ nbits) (nbits + w)
            match bitpackGo byp ps fl.2.1 fl.2.2 with
            | none => none
            | some out => some (fl.1 ++ out)

/-- _bitpack_es from ptc_bin.py: by_p is the last-wins Python dict
{c.p: c for c in clocks}; v = int(c.e) & mask is e % 2^w. -/
def _bitpack_es (primes : List ℕ) (clocks : List ClockRec) : Option (List ℕ) :=
  bitpackGo (clocks.foldl (fun m c => assocUpd m c.p c) []) primes 0 0

/-- The while nbits < w refill loop of _bitunpack_es; fuel w + 1 bounds
its iterations, and an exhausted bitstream raises. -/
def fillBits (w : ℕ) : ℕ → List ℕ → ℕ → ℕ → Except PTCBinError (ℕ × ℕ × List ℕ)
  | 0, _, _, _ => .error .notEnoughBits
  | fuel + 1, stream, buf, nbits =>
    if nbits < w then
      match stream with
      | [] => .error .notEnoughBits
      | b :: rest => fillBits w fuel rest (buf ||| b * 2 ^ nbits) (nbits + 8)
    else .ok (buf, nbits, stream)

/-- Clock loop of _bitunpack_es over (p, z) pairs. -/
def bitunpackGo : List (ℕ × Bool) → List ℕ → ℕ → ℕ → Except PTCBinError (List ℕ)
  | [], _, _, _ => .ok []
  | (p, z) :: rest, stream, buf, nbits =>
    if z then bitunpackGo rest stream buf nbits
    else
      match e_bit_width_for_prime p with
      | none => .error .pTooSmall
      | some w =>
        match fillBits w (w + 1) stream buf nbits with
        | .error err => .error err
        | .ok (buf', nbits', stream') =>
          match bitunpackGo rest stream' (buf' / 2 ^ w) (nbits' - w) with
          | .error err => .error err
          | .ok es => .ok (buf' % 2 ^ w :: es)

/-- _bitunpack_es from ptc_bin.py. -/
def _bitunpack_es (primes : List ℕ) (z_flags : List Bool) (bitstream : List ℕ) :
    Except PTCBinError (List ℕ) :=
  bitunpackGo (primes.zip z_flags) bitstream 0 0

/-- _write_frame from ptc_bin.py (the writer always sets FLAG_HAS_CRC32,
so the CRC trailer is always present). -/
def _write_frame (frame_type : ℕ) (payload : List ℕ) : List ℕ :=
  frame_type :: uleb128_encode payload.length ++ payload ++
    crc32_be (frame_type :: uleb128_encode payload.length ++ payload)

/-- uleb128_encode over the (integer) deltas; a negative delta raises. -/
def encodeDeltas : List ℤ → Option (List ℕ)
  | [] => some []
  | x :: xs =>
    if x < 0 then none
    else
      match encodeDeltas xs with
      | none => none
      | some rest => some (uleb128_encode x.toNat ++ rest)

/-- TOWER_DICT frame payload of write_ptcbin: dict_id, k, delta-encoded
primes, all as varints. -/
def encodeDictPayload (d : TowerDict) : Option (List ℕ) :=
  match delta_encode_primes d.primes with
  | none => none
  | some deltas =>
    match encodeDeltas deltas with
    | none => none
    | some dbytes =>
      some (uleb128_encode d.dict_id ++ uleb128_encode d.primes.length ++ dbytes)

/-- SIGNATURE frame payload of write_ptcbin: dict_id varint, z bitmap,
packed exponent stream, over the clocks sorted by p. -/
def encodeSigPayload (dict_map : List (ℕ × TowerDict)) (ds : DecodedSignature) :
    Option (List ℕ) :=
  match assocGet dict_map ds.dict_id with
  | none => none
  | some td =>
    match _pack_z_bitmap td.primes (List.insertionSort (fun a b => a.p ≤ b.p) ds.sig.clocks) with
    | none => none
    | some zb =>
      match _bitpack_es td.primes (List.insertionSort (fun a b => a.p ≤ b.p) ds.sig.clocks) with
      | none => none
      | some es => some (uleb128_encode ds.dict_id ++ zb ++ es)

/-- Emit one frame per element, concatenated. -/
def encodeFrames {α : Type} (enc : α → Option (List ℕ)) (ftype : ℕ) :
    List α → Option (List ℕ)
  | [] => some []
  | a :: rest =>
    match enc a with
    | none => none
    | some payload =>
      match encodeFrames enc ftype rest with
      | none => none
      | some out => some (_write_frame ftype payload ++ out)

/-- write_ptcbin from ptc_bin.py, producing the file bytes: header magic
"PTC", vb = (VERSION << 4) | base, flags = 0x0F, then one frame per dict,
one per signature, and the END frame.  Any raise (bad base, unknown
dict_id, base mismatch, or an encoder failure) is none. -/
def write_ptcbin (base : ℕ) (dicts : List TowerDict)
    (signatures : List DecodedSignature) : Option (List ℕ) :=
  if 15 < base then none
  else
    if signatures.any (fun ds =>
        (assocGet (dicts.foldl (fun m d => assocUpd m d.dict_id d) []) ds.dict_id).isNone) then
      none
    else if signatures.any (fun ds => ds.sig.base != base) then none
    else
      match encodeFrames encodeDictPayload 1 dicts with
      | none => none
      | some dframes =>
        match encodeFrames
            (encodeSigPayload (dicts.foldl (fun m d => assocUpd m d.dict_id d) [])) 2
            signatures with
        | none => none
        | some sframes =>
          some ([80, 84, 67] ++ [16 * VERSION + base, 15] ++ dframes ++ sframes ++
            _write_frame 127 [])

/-- The inner length-byte loop of read_ptcbin: read bytes until one has
the continuation bit clear; EOF mid-varint raises. -/
def readLenRaw : List ℕ → Except PTCBinError (List ℕ × List ℕ)
  | [] => .error .eof
  | c :: rest =>
    if c / 128 % 2 = 0 then .ok ([c], rest)
    else
      match readLenRaw rest with
      | .error e => .error e
      | .ok (lr, rest') => .ok (c :: lr, rest')

/-- Read k varints from the tower-dict payload. -/
def readKVarints : ℕ → List ℕ → Except PTCBinError (List ℕ × List ℕ)
  | 0, s => .ok ([], s)
  | k + 1, s =>
    match uleb128_decode s 0 0 with
    | .error e => .error e
    | .ok (v, rest) =>
      match readKVarints k rest with
      | .error e => .error e
      | .ok (vs, rest') => .ok (v :: vs, rest')

/-- _decode_tower_dict_payload from ptc_bin.py; the TowerDict constructor
validation is mkTowerDict. -/
def _decode_tower_dict_payload (payload : List ℕ) : Except PTCBinError TowerDict :=
  match uleb128_decode payload 0 0 with
  | .error e => .error e
  | .ok (dict_id, r1) =>
    match uleb128_decode r1 0 0 with
    | .error e => .error e
    | .ok (k, r2) =>
      if k = 0 then .error .invalidK
      else
        match readKVarints k r2 with
        | .error e => .error e
        | .ok (deltas, _) =>
          match delta_decode_primes deltas with
          | none => .error .invalidK
          | some primes =>
            if primes.length ≠ k then .error .primesLenMismatch
            else
              match mkTowerDict dict_id primes with
              | none => .error .dictInvalid
              | some td => .ok td

/-- Clock-building loop of _decode_signature_payload: one ClockRec per
(prime, z) pair, consuming one unpacked exponent per z = false clock. -/
def buildClocks : List (ℕ × Bool) → List ℕ → Except PTCBinError (List ClockRec)
  | [], _ => .ok []
  | (p, z) :: rest, es =>
    if z then
      match buildClocks rest es with
      | .error e => .error e
      | .ok cs => .ok (⟨p, true, none⟩ :: cs)
    else
      match es with
      | [] => .error .esIndex
      | e :: es' =>
        match buildClocks rest es' with
        | .error err => .error err
        | .ok cs => .ok (⟨p, false, some e⟩ :: cs)

/-- _decode_signature_payload from ptc_bin.py. -/
def _decode_signature_payload (payload : List ℕ) (base : ℕ)
    (dicts : List (ℕ × TowerDict)) : Except PTCBinError DecodedSignature :=
  match uleb128_decode payload 0 0 with
  | .error e => .error e
  | .ok (dict_id, r1) =>
    match assocGet dicts dict_id with
    | none => .error .unknownDictId
    | some td =>
      if r1.length < (td.primes.length + 7) / 8 then .error .sigPayloadShort
      else
        match _unpack_z_bitmap td.primes (r1.take ((td.primes.length + 7) / 8)) with
        | .error e => .error e
        | .ok z_flags =>
          match _bitunpack_es td.primes z_flags (r1.drop ((td.primes.length + 7) / 8)) with
          | .error e => .error e
          | .ok es =>
            match buildClocks (td.primes.zip z_flags) es with
            | .error e => .error e
            | .ok clocks => .ok ⟨dict_id, ⟨base, clocks⟩⟩

/-- Frame loop of read_ptcbin: EOF at a frame boundary ends the file,
each frame's CRC is checked before dispatch, END stops, TOWER_DICT and
SIGNATURE frames accumulate, any other type raises.  The fuel exceeds the
stream length (each iteration consumes at least one byte). -/
def readFramesGo (base : ℕ) :
    ℕ → List ℕ → List (ℕ × TowerDict) → List DecodedSignature →
    Except PTCBinError (List (ℕ × TowerDict) × List DecodedSignature)
  | 0, _, _, _ => .error .eof
  | fuel + 1, stream, dicts, sigs =>
    match stream with
    | [] => .ok (dicts, sigs)
    | frame_type :: rest =>
      match readLenRaw rest with
      | .error e => .error e
      | .ok (len_raw, rest1) =>
        match uleb128_decode len_raw 0 0 with
        | .error e => .error e
        | .ok (payload_len, _) =>
          if rest1.length < payload_len then .error .eof
          else if (rest1.drop payload_len).length < 4 then .error .eof
          else if crc32_be (frame_type :: len_raw ++ rest1.take payload_len) ≠
              (rest1.drop payload_len).take 4 then .error .crcMismatch
          else if frame_type = 127 then .ok (dicts, sigs)
          else if frame_type = 1 then
            match _decode_tower_dict_payload (rest1.take payload_len) with
            | .error e => .error e
            | .ok td =>
              readFramesGo base fuel ((rest1.drop payload_len).drop 4)
                (assocUpd dicts td.dict_id td) sigs
          else if frame_type = 2 then
            match _decode_signature_payload (rest1.take payload_len) base dicts with
            | .error e => .error e
            | .ok ds =>
              readFramesGo base fuel ((rest1.drop payload_len).drop 4) dicts (sigs ++ [ds])
          else .error .unknownFrame

/-- read_ptcbin from ptc_bin.py: magic, version and the three flag checks
(LENGTH, CRC32, BITPACK_E - the DELTA_P bit is never examined), then the
frame loop. -/
def read_ptcbin (data : List ℕ) : Except PTCBinError PTCBinFile :=
  match data with
  | m1 :: m2 :: m3 :: vb :: flags :: rest =>
    if ¬ (m1 = 80 ∧ m2 = 84 ∧ m3 = 67) then .error .badMagic
    else if vb / 16 % 16 ≠ VERSION then .error .badVersion
    else if flags / 2 % 2 = 0 then .error .noLength
    else if flags % 2 = 0 then .error .noCRC32
    else if flags / 4 % 2 = 0 then .error .noBitpackE
    else
      match readFramesGo (vb % 16) (rest.length + 1) rest [] [] with
      | .error e => .error e
      | .ok (dicts, sigs) => .ok ⟨⟨vb / 16 % 16, vb % 16, flags⟩, dicts, sigs⟩
  | _ => .error .eof

/-
Proof-side denotations (not part of the embedded program): numeric values
of little-endian byte lists and of concatenated bit fields, used to state
and prove the bit-packing lemmas.
-/

/-- Little-endian numeric value of a byte list. -/
def den (bytes : List ℕ) : ℕ := bytes.foldr (fun b acc => b + 256 * acc) 0

/-- Value of concatenated (width, value) bit fields, least significant
field first. -/
def code : List (ℕ × ℕ) → ℕ
  | [] => 0
  | (w, v) :: rest => v + 2 ^ w * code rest

/-- Total bit count of (width, value) fields. -/
def totalBits (items : List (ℕ × ℕ)) : ℕ := (items.map Prod.fst).sum

/-- The (width, masked value) fields that _bitpack_es emits for a clock
list, in order: one field per z = false clock. -/
def clockItems : List ClockRec → List (ℕ × ℕ)
  | [] => []
  | c :: cs =>
    if c.z then clockItems cs
    else
      match c.e with
      | some e => (bit_length (c.p - 2), e % 2 ^ bit_length (c.p - 2)) :: clockItems cs
      | none => clockItems cs

/-- Bit i of a bitmap byte list (the read performed by
_unpack_z_bitmap). -/
def bmBit (bm : List ℕ) (i : ℕ) : Bool := decide (bm.getD (i / 8) 0 / 2 ^ (i % 8) % 2 = 1)

-- ===================================================================
-- THEOREMS
-- ===================================================================

theorem powModGo_eq (m : ℕ) : ∀ fuel a b, b < fuel → powModGo m fuel a b = a ^ b % m := by
  intro fuel
  induction fuel with
  | zero => intro a b hb; omega
  | succ fuel ih =>
    intro a b hb
    rw [powModGo]
    by_cases hzero : b = 0
    · subst hzero; simp
    · rw [if_neg hzero]
      have hlt : b / 2 < fuel := by
        have := Nat.div_lt_self (Nat.pos_of_ne_zero hzero) one_lt_two
        omega
      have hrec := ih (a * a % m) (b / 2) hlt
      have hsq : (a * a % m) ^ (b / 2) % m = (a * a) ^ (b / 2) % m :=
        (Nat.pow_mod (a * a) (b / 2) m).symm
      by_cases hodd : b % 2 = 1
      · simp only [hrec, hsq, hodd, if_true]
        conv_rhs => rw [show b = 2 * (b / 2) + 1 by omega]
        rw [pow_succ, pow_mul, sq]
        exact (Nat.mul_mod _ _ _).symm
      · simp only [hrec, hsq, hodd, if_false]
        conv_rhs => rw [show b = 2 * (b / 2) by omega]
        rw [pow_mul, sq]

theorem powMod_eq (a b m : ℕ) : powMod a b m = a ^ b % m :=
  powModGo_eq m (b + 1) a b (Nat.lt_succ_self b)

theorem natAbs_emod_lt (a b : ℤ) (hb : b ≠ 0) : (a % b).natAbs < b.natAbs := by
  rcases lt_or_gt_of_ne hb with h | h
  · have hx : a % b = a % (-b) := (Int.emod_neg a b).symm
    rw [hx, ← Int.natAbs_neg b]
    exact Int.natAbs_lt_natAbs_of_nonneg_of_lt (Int.emod_nonneg a (neg_ne_zero.mpr hb))
      (Int.emod_lt_of_pos a (by omega))
  · exact Int.natAbs_lt_natAbs_of_nonneg_of_lt (Int.emod_nonneg a hb)
      (Int.emod_lt_of_pos a h)

theorem gcd_emod_left (a b : ℤ) : Int.gcd b (a % b) = Int.gcd a b := by
  have hd : a % b = a - b * (a / b) := Int.emod_def a b
  apply Nat.dvd_antisymm
  · apply Int.natCast_dvd_natCast.mp
    apply Int.dvd_gcd
    · have h1 : (↑(Int.gcd b (a % b)) : ℤ) ∣ b := Int.gcd_dvd_left
      have h2 : (↑(Int.gcd b (a % b)) : ℤ) ∣ a % b := Int.gcd_dvd_right
      have h3 := dvd_add h2 (Dvd.dvd.mul_right h1 (a / b))
      have hsum : a % b + b * (a / b) = a := by rw [hd]; ring
      rwa [hsum] at h3
    · exact Int.gcd_dvd_left
  · apply Int.natCast_dvd_natCast.mp
    apply Int.dvd_gcd
    · exact Int.gcd_dvd_right
    · have h1 : (↑(Int.gcd a b) : ℤ) ∣ a := Int.gcd_dvd_left
      have h2 : (↑(Int.gcd a b) : ℤ) ∣ b := Int.gcd_dvd_right
      rw [hd]
      exact dvd_sub h1 (Dvd.dvd.mul_right h2 (a / b))

theorem egcdGo_spec : ∀ fuel (a b : ℤ), b.natAbs < fuel →
    (egcdGo fuel a b).1 = Int.gcd a b ∧
      a * (egcdGo fuel a b).2.1 + b * (egcdGo fuel a b).2.2 = (egcdGo fuel a b).1 := by
  intro fuel
  induction fuel with
  | zero => intro a b hb; omega
  | succ fuel ih =>
    intro a b hb
    rw [egcdGo]
    by_cases hbz : b = 0
    · subst hbz
      rw [if_pos rfl]
      constructor
      · simp [Int.gcd]
      · by_cases ha : 0 ≤ a
        · simp only [ha, if_true]
          omega
        · simp only [ha, if_false]
          omega
    · rw [if_neg hbz]
      have hlt : (a % b).natAbs < fuel := by
        have := natAbs_emod_lt a b hbz
        omega
      obtain ⟨hg, hbez⟩ := ih b (a % b) hlt
      refine ⟨?_, ?_⟩
      · rw [hg]
        exact_mod_cast gcd_emod_left a b
      · have hd : a % b = a - b * (a / b) := Int.emod_def a b
        set t := egcdGo fuel b (a % b)
        linear_combination hbez - t.2.2 * hd

theorem egcd_spec (a b : ℤ) :
    (egcd a b).1 = Int.gcd a b ∧
      a * (egcd a b).2.1 + b * (egcd a b).2.2 = (egcd a b).1 :=
  egcdGo_spec (b.natAbs + 1) a b (Nat.lt_succ_self _)

theorem modinv_some (a m : ℕ) (hm : m ≠ 0) (hg : Nat.gcd a m = 1) :
    ∃ v, modinv a m = some v ∧ v < m ∧ a * v % m = 1 % m := by
  have hmz : (m : ℤ) ≠ 0 := by exact_mod_cast hm
  have hmpos : (0 : ℤ) < (m : ℤ) := by exact_mod_cast Nat.pos_of_ne_zero hm
  obtain ⟨hgg, hbez⟩ := egcd_spec ((a % m : ℕ) : ℤ) (m : ℤ)
  have hgnat : Nat.gcd (a % m) m = 1 := by
    rw [show Nat.gcd (a % m) m = Nat.gcd m a from (Nat.gcd_rec m a).symm, Nat.gcd_comm]
    exact hg
  have hg1 : (egcd ((a % m : ℕ) : ℤ) (m : ℤ)).1 = 1 := by
    rw [hgg, Int.gcd_natCast_natCast, hgnat]
    norm_num
  refine ⟨((egcd ((a % m : ℕ) : ℤ) (m : ℤ)).2.1 % (m : ℤ)).toNat, ?_, ?_, ?_⟩
  · rw [modinv, if_neg hm, if_neg (by rw [hg1]; exact fun h => h rfl)]
  · have h0 : 0 ≤ (egcd ((a % m : ℕ) : ℤ) (m : ℤ)).2.1 % (m : ℤ) :=
      Int.emod_nonneg _ hmz
    have h1 : (egcd ((a % m : ℕ) : ℤ) (m : ℤ)).2.1 % (m : ℤ) < (m : ℤ) :=
      Int.emod_lt_of_pos _ hmpos
    omega
  · set x := (egcd ((a % m : ℕ) : ℤ) (m : ℤ)).2.1 with hx
    set y := (egcd ((a % m : ℕ) : ℤ) (m : ℤ)).2.2 with hy
    rw [hg1] at hbez
    have h0 : 0 ≤ x % (m : ℤ) := Int.emod_nonneg _ hmz
    have hcast : ((x % (m : ℤ)).toNat : ℤ) = x % (m : ℤ) := Int.toNat_of_nonneg h0
    have hmodeq : ((a * (x % (m : ℤ)).toNat : ℕ) : ℤ) ≡ 1 [ZMOD (m : ℤ)] := by
      push_cast
      calc (a : ℤ) * ((x % (m : ℤ)).toNat : ℤ)
          ≡ (a : ℤ) * x [ZMOD (m : ℤ)] := by
            rw [hcast]
            exact Int.ModEq.mul_left _ (Int.emod_emod_of_dvd x dvd_rfl)
        _ ≡ ((a % m : ℕ) : ℤ) * x [ZMOD (m : ℤ)] := by
            refine Int.ModEq.mul_right _ ?_
            rw [Int.natCast_mod]
            exact (Int.emod_emod_of_dvd _ dvd_rfl).symm
        _ ≡ 1 [ZMOD (m : ℤ)] := by
            rw [Int.ModEq]
            have : ((a % m : ℕ) : ℤ) * x = 1 - (m : ℤ) * y := by linarith [hbez]
            rw [this]
            simp [Int.sub_emod, Int.mul_emod_right]
    have := hmodeq
    rw [Int.ModEq] at this
    have hfin : ((a * (x % (m : ℤ)).toNat : ℕ) : ℤ) % (m : ℤ) = ((1 : ℕ) : ℤ) % (m : ℤ) := by
      simpa using this
    rw [← Int.natCast_mod, ← Int.natCast_mod] at hfin
    exact_mod_cast hfin

theorem crt_pair_some (a1 m1 a2 m2 : ℕ) (h1 : m1 ≠ 0) (h2 : m2 ≠ 0)
    (hco : Nat.gcd m1 m2 = 1) :
    ∃ x, crt_pair a1 m1 a2 m2 = some (x, m1 * m2) ∧ x < m1 * m2 ∧
      x % m1 = a1 % m1 ∧ x % m2 = a2 % m2 := by
  have hg' : Nat.gcd (m1 % m2) m2 = 1 := by
    rw [show Nat.gcd (m1 % m2) m2 = Nat.gcd m2 m1 from (Nat.gcd_rec m2 m1).symm, Nat.gcd_comm]
    exact hco
  obtain ⟨v, hveq, hvlt, hvinv⟩ := modinv_some (m1 % m2) m2 h2 hg'
  have hm2z : (m2 : ℤ) ≠ 0 := by exact_mod_cast h2
  set d : ℕ := (((a2 : ℤ) - (a1 : ℤ)) % (m2 : ℤ)).toNat with hd
  set t : ℕ := (d * v) % m2 with ht
  set X : ℕ := a1 + m1 * t with hX
  have heval : crt_pair a1 m1 a2 m2 = some (X % (m1 * m2), m1 * m2) := by
    rw [crt_pair, if_neg (by simp [h1, h2]), if_neg (by simp [hco]), hveq]
  have hprodpos : 0 < m1 * m2 := Nat.mul_pos (Nat.pos_of_ne_zero h1) (Nat.pos_of_ne_zero h2)
  refine ⟨X % (m1 * m2), heval, Nat.mod_lt _ hprodpos, ?_, ?_⟩
  · rw [Nat.mod_mod_of_dvd _ (dvd_mul_right m1 m2), hX, Nat.add_mul_mod_self_left]
  · rw [Nat.mod_mod_of_dvd _ (dvd_mul_left m2 m1)]
    have hdc : (d : ℤ) = ((a2 : ℤ) - (a1 : ℤ)) % (m2 : ℤ) :=
      Int.toNat_of_nonneg (Int.emod_nonneg _ hm2z)
    have hinvZ : ((m1 : ℤ) * v) ≡ 1 [ZMOD (m2 : ℤ)] := by
      have hnat : (m1 % m2) * v % m2 = 1 % m2 := hvinv
      have : (((m1 % m2) * v : ℕ) : ℤ) % (m2 : ℤ) = ((1 : ℕ) : ℤ) % (m2 : ℤ) := by
        rw [← Int.natCast_mod, ← Int.natCast_mod]
        exact_mod_cast congrArg (Nat.cast : ℕ → ℤ) hnat
      have hm1m : ((m1 % m2 : ℕ) : ℤ) = (m1 : ℤ) % (m2 : ℤ) := Int.natCast_mod m1 m2
      calc (m1 : ℤ) * v ≡ (m1 : ℤ) % (m2 : ℤ) * v [ZMOD (m2 : ℤ)] :=
            Int.ModEq.mul_right _ (Int.emod_emod_of_dvd _ dvd_rfl).symm
        _ ≡ 1 [ZMOD (m2 : ℤ)] := by
            rw [Int.ModEq]
            push_cast at this
            exact this
    have hXmod : ((X : ℤ)) ≡ (a2 : ℤ) [ZMOD (m2 : ℤ)] := by
      have htZ : ((t : ℕ) : ℤ) ≡ (d : ℤ) * v [ZMOD (m2 : ℤ)] := by
        rw [ht]
        push_cast [Int.natCast_mod]
        exact Int.emod_emod_of_dvd _ dvd_rfl
      have hdZ : (d : ℤ) ≡ (a2 : ℤ) - (a1 : ℤ) [ZMOD (m2 : ℤ)] := by
        rw [hdc]
        exact Int.emod_emod_of_dvd _ dvd_rfl
      calc (X : ℤ) = (a1 : ℤ) + (m1 : ℤ) * t := by rw [hX]; push_cast; ring
        _ ≡ (a1 : ℤ) + (m1 : ℤ) * ((d : ℤ) * v) [ZMOD (m2 : ℤ)] :=
            Int.ModEq.add_left _ (Int.ModEq.mul_left _ htZ)
        _ = (a1 : ℤ) + (d : ℤ) * ((m1 : ℤ) * v) := by ring
        _ ≡ (a1 : ℤ) + (d : ℤ) * 1 [ZMOD (m2 : ℤ)] :=
            Int.ModEq.add_left _ (Int.ModEq.mul_left _ hinvZ)
        _ = (a1 : ℤ) + (d : ℤ) := by ring
        _ ≡ (a1 : ℤ) + ((a2 : ℤ) - (a1 : ℤ)) [ZMOD (m2 : ℤ)] :=
            Int.ModEq.add_left _ hdZ
        _ = (a2 : ℤ) := by ring
    rw [Int.ModEq] at hXmod
    have : ((X % m2 : ℕ) : ℤ) = ((a2 % m2 : ℕ) : ℤ) := by
      rw [Int.natCast_mod, Int.natCast_mod]
      exact hXmod
    exact_mod_cast this

theorem crtFold_some (pairs : List (ℕ × ℕ)) (x m : ℕ) (hm : m ≠ 0) (hx : x < m)
    (hall : ∀ p ∈ pairs, p.2 ≠ 0)
    (hcop : ∀ p ∈ pairs, Nat.Coprime m p.2)
    (hpw : (pairs.map Prod.snd).Pairwise Nat.Coprime) :
    ∃ z, crtFold x m pairs = some (z, m * (pairs.map Prod.snd).prod) ∧
      z < m * (pairs.map Prod.snd).prod ∧ z % m = x % m ∧
      ∀ p ∈ pairs, z % p.2 = p.1 % p.2 := by
  induction pairs generalizing x m with
  | nil =>
    refine ⟨x, by simp [crtFold], by simpa using hx, rfl, by simp⟩
  | cons hd tl ih =>
    obtain ⟨a, mo⟩ := hd
    have hmo : mo ≠ 0 := hall (a, mo) (List.mem_cons_self _ _)
    have hcomo : Nat.gcd m mo = 1 := hcop (a, mo) (List.mem_cons_self _ _)
    obtain ⟨y, hyeq, hylt, hy1, hy2⟩ := crt_pair_some x m (a % mo) mo hm hmo hcomo
    have hstep : crtFold x m ((a, mo) :: tl) = crtFold y (m * mo) tl := by
      rw [crtFold, hyeq]
    have hmm : m * mo ≠ 0 := Nat.mul_ne_zero hm hmo
    have hpwtl : (tl.map Prod.snd).Pairwise Nat.Coprime := (List.pairwise_cons.mp hpw).2
    have hcoptl : ∀ p ∈ tl, Nat.Coprime (m * mo) p.2 := by
      intro p hp
      exact Nat.Coprime.mul (hcop p (List.mem_cons_of_mem _ hp))
        ((List.pairwise_cons.mp hpw).1 p.2 (List.mem_map_of_mem Prod.snd hp))
    obtain ⟨z, hzeq, hzlt, hz1, hz2⟩ := ih y (m * mo) hmm hylt
      (fun p hp => hall p (List.mem_cons_of_mem _ hp)) hcoptl hpwtl
    refine ⟨z, ?_, ?_, ?_, ?_⟩
    · rw [hstep, hzeq]
      simp [mul_assoc]
    · simpa [mul_assoc] using hzlt
    · have hzy : z % (m * mo) = y := by rw [hz1, Nat.mod_eq_of_lt hylt]
      calc z % m = z % (m * mo) % m := (Nat.mod_mod_of_dvd _ (dvd_mul_right m mo)).symm
        _ = y % m := by rw [hzy]
        _ = x % m := by rw [hy1, Nat.mod_eq_of_lt hx]
    · intro p hp
      rcases List.mem_cons.mp hp with hph | hpt
      · have hzy : z % (m * mo) = y := by rw [hz1, Nat.mod_eq_of_lt hylt]
        subst hph
        calc z % mo = z % (m * mo) % mo := (Nat.mod_mod_of_dvd _ (dvd_mul_left mo m)).symm
          _ = y % mo := by rw [hzy]
          _ = a % mo := by rw [hy2, Nat.mod_mod_of_dvd _ dvd_rfl]
      · exact hz2 p hpt

theorem crt_many_some (residues moduli : List ℕ) (hlen : residues.length = moduli.length)
    (hne : moduli ≠ []) (h0 : ∀ m ∈ moduli, m ≠ 0) (hpw : moduli.Pairwise Nat.Coprime) :
    ∃ x, crt_many residues moduli = some (x, moduli.prod) ∧ x < moduli.prod ∧
      ∀ pr ∈ residues.zip moduli, x % pr.2 = pr.1 % pr.2 := by
  match residues, moduli with
  | [], ms => exact absurd (List.eq_nil_of_length_eq_zero (by simpa using hlen.symm)) hne
  | r :: rs, [] => exact absurd rfl hne
  | r :: rs, m :: ms =>
    have hm : m ≠ 0 := h0 m (List.mem_cons_self _ _)
    have hlen' : rs.length = ms.length := by simpa using hlen
    have hmapsnd : (rs.zip ms).map Prod.snd = ms :=
      List.map_snd_zip rs ms (le_of_eq hlen'.symm)
    obtain ⟨z, hzeq, hzlt, hz1, hz2⟩ := crtFold_some (rs.zip ms) (r % m) m hm
      (Nat.mod_lt _ (Nat.pos_of_ne_zero hm))
      (fun p hp => h0 p.2 (List.mem_cons_of_mem _ (List.of_mem_zip hp).2))
      (fun p hp => (List.pairwise_cons.mp hpw).1 p.2 (List.of_mem_zip hp).2)
      (by rw [hmapsnd]; exact (List.pairwise_cons.mp hpw).2)
    refine ⟨z, ?_, ?_, ?_⟩
    · rw [crt_many, if_neg (by simp [hlen]), if_neg hm, hzeq, hmapsnd, List.prod_cons]
    · rw [List.prod_cons]
      exact hmapsnd ▸ hzlt
    · intro pr hpr
      rcases List.mem_cons.mp (by simpa [List.zip_cons_cons] using hpr) with hph | hpt
      · subst hph
        rw [hz1, Nat.mod_mod_of_dvd _ dvd_rfl]
      · exact hz2 pr hpt

theorem modEq_prod_of_forall (ms : List ℕ) (x N : ℕ) (hpw : ms.Pairwise Nat.Coprime)
    (h : ∀ m ∈ ms, x % m = N % m) : x % ms.prod = N % ms.prod := by
  induction ms with
  | nil => simp [Nat.mod_one]
  | cons m ms ih =>
    have hco : Nat.Coprime m ms.prod :=
      Nat.coprime_list_prod_right_iff.mpr (List.pairwise_cons.mp hpw).1
    have h1 : x ≡ N [MOD m] := h m (List.mem_cons_self _ _)
    have h2 : x ≡ N [MOD ms.prod] :=
      ih (List.pairwise_cons.mp hpw).2 (fun mm hmm => h mm (List.mem_cons_of_mem _ hmm))
    rw [List.prod_cons]
    exact (Nat.modEq_and_modEq_iff_modEq_mul hco).mp ⟨h1, h2⟩

theorem is_probable_prime_two_le (n : ℕ) (h : is_probable_prime n = true) : 2 ≤ n := by
  by_contra hlt
  rw [is_probable_prime, if_pos (by omega)] at h
  exact Bool.false_ne_true h

theorem divOutGo_spec (p : ℕ) (hp : 2 ≤ p) : ∀ fuel n e, n ≠ 0 → n ≤ fuel →
    (divOutGo p fuel n e).1 ≠ 0 ∧ ¬ p ∣ (divOutGo p fuel n e).1 ∧
      e ≤ (divOutGo p fuel n e).2 ∧
      (divOutGo p fuel n e).1 * p ^ ((divOutGo p fuel n e).2 - e) = n := by
  intro fuel
  induction fuel with
  | zero => intro n e hn hle; omega
  | succ fuel ih =>
    intro n e hn hle
    rw [divOutGo]
    by_cases hpd : n % p = 0
    · rw [if_pos hpd]
      have hdvd : p ∣ n := Nat.dvd_of_mod_eq_zero hpd
      have hq : n / p ≠ 0 := by
        intro h0
        have hmul := Nat.div_mul_cancel hdvd
        rw [h0, zero_mul] at hmul
        exact hn hmul.symm
      have hlt : n / p ≤ fuel := by
        have := Nat.div_lt_self (Nat.pos_of_ne_zero hn) hp
        omega
      obtain ⟨r1, r2, r3, r4⟩ := ih (n / p) (e + 1) hq hlt
      refine ⟨r1, r2, by omega, ?_⟩
      have hsub : (divOutGo p fuel (n / p) (e + 1)).2 - e =
          ((divOutGo p fuel (n / p) (e + 1)).2 - (e + 1)) + 1 := by
        omega
      rw [hsub, pow_succ, ← mul_assoc, r4]
      exact Nat.div_mul_cancel hdvd
    · rw [if_neg hpd]
      refine ⟨hn, fun hd => hpd (Nat.mod_eq_zero_of_dvd hd), le_refl e, by simp⟩

theorem divOut_spec (p : ℕ) (hp : 2 ≤ p) (n : ℕ) (hn : n ≠ 0) (e : ℕ) :
    (divOut p n e).1 ≠ 0 ∧ ¬ p ∣ (divOut p n e).1 ∧ e ≤ (divOut p n e).2 ∧
      (divOut p n e).1 * p ^ ((divOut p n e).2 - e) = n :=
  divOutGo_spec p hp n n e hn (le_refl n)

theorem divOut_exp_pos (p n : ℕ) (hp : 2 ≤ p) (hn : n ≠ 0) (hpd : n % p = 0) :
    1 ≤ (divOut p n 0).2 := by
  obtain ⟨f, rfl⟩ : ∃ f, n = f + 1 := ⟨n - 1, by omega⟩
  rw [divOut, divOutGo, if_pos hpd]
  have hdvd : p ∣ f + 1 := Nat.dvd_of_mod_eq_zero hpd
  have hq : (f + 1) / p ≠ 0 := by
    intro h0
    have hmul := Nat.div_mul_cancel hdvd
    rw [h0, zero_mul] at hmul
    exact hn hmul.symm
  have hle : (f + 1) / p ≤ f := by
    have := Nat.div_lt_self (Nat.pos_of_ne_zero hn) hp
    omega
  exact (divOutGo_spec p hp f ((f + 1) / p) 1 hq hle).2.2.1

theorem factorSmoothGo_spec (ps : List ℕ) (hps : ∀ p ∈ ps, 2 ≤ p) :
    ∀ n, n ≠ 0 → ∀ f : List (ℕ × ℕ),
      ∃ suffix r, factorSmoothGo n ps f = (f ++ suffix, r) ∧ r ≠ 0 ∧
        List.Sublist (suffix.map Prod.fst) ps ∧ (∀ qe ∈ suffix, 1 ≤ qe.2) ∧
        r * (suffix.map (fun qe => qe.1 ^ qe.2)).prod = n := by
  induction ps with
  | nil =>
    intro n hn f
    exact ⟨[], n, by simp [factorSmoothGo], hn, by simp, by simp, by simp⟩
  | cons p ps ih =>
    intro n hn f
    have hp : 2 ≤ p := hps p (List.mem_cons_self _ _)
    have hps' : ∀ q ∈ ps, 2 ≤ q := fun q hq => hps q (List.mem_cons_of_mem _ hq)
    by_cases h1 : n = 1
    · exact ⟨[], n, by simp [factorSmoothGo, h1], hn, by simp, by simp, by simp⟩
    · by_cases hpd : n % p = 0
      · obtain ⟨r1, r2, _, r4⟩ := divOut_spec p hp n hn 0
        have hexp : 1 ≤ (divOut p n 0).2 := divOut_exp_pos p n hp hn hpd
        obtain ⟨suffix, r, heq, hr, hsub, hexps, hprod⟩ :=
          ih hps' (divOut p n 0).1 r1 (f ++ [(p, (divOut p n 0).2)])
        refine ⟨(p, (divOut p n 0).2) :: suffix, r, ?_, hr, ?_, ?_, ?_⟩
        · rw [factorSmoothGo, if_neg h1, if_pos hpd]
          rw [heq, List.append_assoc]
          rfl
        · exact List.Sublist.cons₂ p hsub
        · intro qe hqe
          rcases List.mem_cons.mp hqe with h | h
          · rw [h]; exact hexp
          · exact hexps qe h
        · simp only [List.map_cons, List.prod_cons]
          calc r * (p ^ (divOut p n 0).2 * (suffix.map (fun qe => qe.1 ^ qe.2)).prod)
              = r * (suffix.map (fun qe => qe.1 ^ qe.2)).prod * p ^ (divOut p n 0).2 := by ring
            _ = (divOut p n 0).1 * p ^ (divOut p n 0).2 := by rw [hprod]
            _ = (divOut p n 0).1 * p ^ ((divOut p n 0).2 - 0) := by simp
            _ = n := r4
      · obtain ⟨suffix, r, heq, hr, hsub, hexps, hprod⟩ := ih hps' n hn f
        refine ⟨suffix, r, ?_, hr, List.Sublist.cons p hsub, hexps, hprod⟩
        rw [factorSmoothGo, if_neg h1, if_neg hpd]
        exact heq

theorem factor_smooth_spec (n : ℕ) (primes : List ℕ) (hn : n ≠ 0)
    (hp : ∀ p ∈ primes, 2 ≤ p) :
    ∃ f r, factor_smooth n primes = (f, r) ∧ r ≠ 0 ∧
      List.Sublist (f.map Prod.fst) primes ∧ (∀ qe ∈ f, 1 ≤ qe.2) ∧
      r * (f.map (fun qe => qe.1 ^ qe.2)).prod = n := by
  obtain ⟨suffix, r, heq, hr, hsub, hexps, hprod⟩ := factorSmoothGo_spec primes hp n hn []
  exact ⟨suffix, r, by simpa [factor_smooth] using heq, hr, hsub, hexps, hprod⟩

theorem prime_dvd_pow_prod (q : ℕ) (hq : q.Prime) (l : List (ℕ × ℕ))
    (h : q ∣ (l.map (fun qe => qe.1 ^ qe.2)).prod) : ∃ qe ∈ l, q ∣ qe.1 := by
  induction l with
  | nil =>
    simp only [List.map_nil, List.prod_nil] at h
    exact absurd (Nat.dvd_one.mp h) hq.ne_one
  | cons a l ih =>
    simp only [List.map_cons, List.prod_cons] at h
    rcases (Nat.Prime.dvd_mul hq).mp h with h1 | h2
    · exact ⟨a, List.mem_cons_self _ _, hq.dvd_of_dvd_pow h1⟩
    · obtain ⟨qe, hqe, hd⟩ := ih h2
      exact ⟨qe, List.mem_cons_of_mem _ hqe, hd⟩

/-- C9: niceness classification soundness.  nice_prime_info returns a
factorization only if is_probable_prime holds, the factorization multiplies
back to exactly p-1, and the primitive-root criterion 2^((p-1)/q) mod p != 1
holds for every distinct prime factor q of p-1. -/
theorem C9_nice_classification_sound (p : ℕ) (allowed : List ℕ) (fac : List (ℕ × ℕ))
    (hall : ∀ q ∈ allowed, Nat.Prime q)
    (h : nice_prime_info p allowed = some fac) :
    is_probable_prime p = true ∧
      (fac.map (fun qe => qe.1 ^ qe.2)).prod = p - 1 ∧
      ∀ q : ℕ, q.Prime → q ∣ (p - 1) → powMod 2 ((p - 1) / q) p ≠ 1 := by
  have hpp : is_probable_prime p = true := by
    by_contra hc
    rw [nice_prime_info, if_pos hc] at h
    exact Option.noConfusion h
  have hr1 : (factor_smooth (p - 1) allowed).2 = 1 := by
    by_contra hc
    rw [nice_prime_info, if_neg (by simp [hpp]), if_pos hc] at h
    exact Option.noConfusion h
  have hroot : is_primitive_root_2 p (factor_smooth (p - 1) allowed).1 = true := by
    by_contra hc
    rw [nice_prime_info, if_neg (by simp [hpp]), if_neg (by simp [hr1]), if_pos hc] at h
    exact Option.noConfusion h
  have hfac : fac = (factor_smooth (p - 1) allowed).1 := by
    rw [nice_prime_info, if_neg (by simp [hpp]), if_neg (by simp [hr1]),
      if_neg (by simp [hroot])] at h
    exact (Option.some.inj h).symm
  have hp2 : 2 ≤ p := is_probable_prime_two_le p hpp
  have hn : p - 1 ≠ 0 := by omega
  have hpge : ∀ q ∈ allowed, 2 ≤ q := fun q hq => (hall q hq).two_le
  obtain ⟨f, r, heq, hr, hsub, hexps, hprod⟩ := factor_smooth_spec (p - 1) allowed hn hpge
  have hfacf : fac = f := by rw [hfac, heq]
  have hreq : r = 1 := by
    have : (factor_smooth (p - 1) allowed).2 = r := by rw [heq]
    omega
  have hprod1 : (fac.map (fun qe => qe.1 ^ qe.2)).prod = p - 1 := by
    rw [hfacf]
    rw [hreq, one_mul] at hprod
    exact hprod
  refine ⟨hpp, hprod1, ?_⟩
  intro q hq hqd
  rw [heq] at hroot
  obtain ⟨qe, hqe, hqdvd⟩ := prime_dvd_pow_prod q hq f (by rw [← hfacf, hprod1]; exact hqd)
  have hqe1 : qe.1 ∈ allowed := hsub.subset (List.mem_map_of_mem Prod.fst hqe)
  have hq1p : Nat.Prime qe.1 := hall qe.1 hqe1
  have hqeq : q = qe.1 := (Nat.prime_dvd_prime_iff_eq hq hq1p).mp hqdvd
  have hp3 : 2 < p := by
    by_contra hc
    rw [is_primitive_root_2, if_pos (by omega)] at hroot
    exact Bool.false_ne_true hroot
  rw [is_primitive_root_2, if_neg (by omega)] at hroot
  have hall' := List.all_eq_true.mp hroot qe hqe
  rw [hqeq]
  exact bne_iff_ne.mp hall'

theorem powMod_lt (a b m : ℕ) (hm : m ≠ 0) : powMod a b m < m := by
  rw [powMod_eq]
  exact Nat.mod_lt _ (Nat.pos_of_ne_zero hm)

theorem powMod_cast (p a b : ℕ) : ((powMod a b p : ℕ) : ZMod p) = (a : ZMod p) ^ b := by
  rw [powMod_eq, ZMod.natCast_mod]
  push_cast
  ring

theorem eq_of_natCast_zmod_eq (p a b : ℕ) (ha : a < p) (hb : b < p)
    (h : (a : ZMod p) = (b : ZMod p)) : a = b :=
  ((ZMod.natCast_eq_natCast_iff a b p).mp h).eq_of_lt_of_lt ha hb

theorem dlogSearch_spec (d p c : ℕ) :
    ∀ fuel cand cur, cur = d ^ cand % p →
      (∀ a, dlogSearch d p c fuel cand cur = some a →
        cand ≤ a ∧ a < cand + fuel ∧ d ^ a % p = c) ∧
      ((∃ a, cand ≤ a ∧ a < cand + fuel ∧ d ^ a % p = c) →
        ∃ a, dlogSearch d p c fuel cand cur = some a) := by
  intro fuel
  induction fuel with
  | zero =>
    intro cand cur hcur
    constructor
    · intro a ha
      simp [dlogSearch] at ha
    · rintro ⟨a, h1, h2, _⟩
      omega
  | succ fuel ih =>
    intro cand cur hcur
    by_cases hc : cur = c
    · constructor
      · intro a ha
        rw [dlogSearch, if_pos hc] at ha
        injection ha with ha'
        subst ha'
        exact ⟨le_refl _, by omega, by rw [← hcur]; exact hc⟩
      · intro _
        exact ⟨cand, by rw [dlogSearch, if_pos hc]⟩
    · have hcur' : cur * d % p = d ^ (cand + 1) % p := by
        rw [hcur, Nat.mod_mul_mod, ← pow_succ]
      obtain ⟨ihs, ihc⟩ := ih (cand + 1) (cur * d % p) hcur'
      constructor
      · intro a ha
        rw [dlogSearch, if_neg hc] at ha
        obtain ⟨h1, h2, h3⟩ := ihs a ha
        exact ⟨by omega, by omega, h3⟩
      · rintro ⟨a, h1, h2, h3⟩
        rw [dlogSearch, if_neg hc]
        apply ihc
        refine ⟨a, ?_, by omega, h3⟩
        rcases Nat.eq_or_lt_of_le h1 with heq | hlt
        · exfalso
          apply hc
        -- cand = a: cur = d^cand % p = d^a % p = c, contradiction
          rw [hcur, heq]
          exact h3
        · omega

theorem dlogPPGo_spec (p q exp : ℕ) (hp : Nat.Prime p) (hq : 2 ≤ q) (hexp : 1 ≤ exp)
    (g h t : ℕ)
    (hg0 : (g : ZMod p) ≠ 0)
    (hord : orderOf (g : ZMod p) = q ^ exp)
    (ht : (h : ZMod p) = (g : ZMod p) ^ t) :
    ∀ fuel k x, k + fuel = exp → x < q ^ k → ((q : ℤ) ^ k ∣ (t : ℤ) - (x : ℤ)) →
      ∃ y, dlogPPGo g h p q exp (powMod g (q ^ (exp - 1)) p) fuel k x = some y ∧
        y < q ^ exp ∧ ((q : ℤ) ^ exp ∣ (t : ℤ) - (y : ℤ)) := by
  haveI : Fact p.Prime := ⟨hp⟩
  have hpne : p ≠ 0 := hp.pos.ne'
  have hp2 : 2 ≤ p := hp.two_le
  set gu : (ZMod p)ˣ := Units.mk0 _ hg0 with hgu
  have hguval : (gu : ZMod p) = (g : ZMod p) := rfl
  have hordu : orderOf gu = q ^ exp := by
    rw [← orderOf_units, hguval, hord]
  set du : (ZMod p)ˣ := gu ^ (q ^ (exp - 1)) with hdu
  have hduval : (du : ZMod p) = ((powMod g (q ^ (exp - 1)) p : ℕ) : ZMod p) := by
    rw [powMod_cast, hdu, Units.val_pow_eq_pow_val, hguval]
  have hordd : orderOf du = q := by
    rw [hdu, orderOf_pow' gu (by positivity : q ^ (exp - 1) ≠ 0), hordu,
      Nat.gcd_eq_right (pow_dvd_pow q (by omega)),
      Nat.pow_div (by omega) (by omega)]
    rw [show exp - (exp - 1) = 1 by omega, pow_one]
  have hduN : ∀ a : ℕ, ((powMod g (q ^ (exp - 1)) p ^ a % p : ℕ) : ZMod p) =
      ((du ^ a : (ZMod p)ˣ) : ZMod p) := by
    intro a
    rw [ZMod.natCast_mod, Nat.cast_pow, ← hduval]
    exact (Units.val_pow_eq_pow_val du a).symm
  intro fuel
  induction fuel with
  | zero =>
    intro k x hk hx hdvd
    have hkexp : k = exp := by omega
    rw [hkexp] at hx hdvd
    exact ⟨x % q ^ exp, by rw [dlogPPGo], Nat.mod_lt _ (by positivity),
      by rw [Nat.mod_eq_of_lt hx]; exact hdvd⟩
  | succ fuel ih =>
    intro k x hk hx hdvd
    have hkle : k + 1 ≤ exp := by omega
    have hgxcast : ((powMod g x p : ℕ) : ZMod p) = (g : ZMod p) ^ x := powMod_cast p g x
    have hgxne : ((powMod g x p : ℕ) : ZMod p) ≠ 0 := by
      rw [hgxcast]
      exact pow_ne_zero x hg0
    have hgxnd : ¬ p ∣ powMod g x p := fun hdv =>
      hgxne ((ZMod.natCast_zmod_eq_zero_iff_dvd _ _).mpr hdv)
    have hcop : Nat.gcd (powMod g x p) p = 1 :=
      Nat.coprime_comm.mp ((Nat.Prime.coprime_iff_not_dvd hp).mpr hgxnd)
    obtain ⟨inv, hinveq, hinvlt, hinvmul⟩ := modinv_some (powMod g x p) p hpne hcop
    have hinvcast : ((powMod g x p : ℕ) : ZMod p) * (inv : ZMod p) = 1 := by
      have h1 : ((powMod g x p * inv : ℕ) : ZMod p) = ((1 : ℕ) : ZMod p) := by
        calc ((powMod g x p * inv : ℕ) : ZMod p)
            = ((powMod g x p * inv % p : ℕ) : ZMod p) := (ZMod.natCast_mod _ p).symm
          _ = ((1 % p : ℕ) : ZMod p) := by rw [hinvmul]
          _ = ((1 : ℕ) : ZMod p) := ZMod.natCast_mod 1 p
      push_cast at h1
      exact h1
    have hinv_is : (inv : ZMod p) = ((g : ZMod p) ^ x)⁻¹ := by
      rw [hgxcast] at hinvcast
      exact (inv_eq_of_mul_eq_one_right hinvcast).symm
    obtain ⟨s, hs⟩ := hdvd
    have hqZ : (0 : ℤ) < (q : ℤ) := by exact_mod_cast (by omega : 0 < q)
    have hstar0 : 0 ≤ s % (q : ℤ) := Int.emod_nonneg s (by omega)
    have hstar_lt : (s % (q : ℤ)).toNat < q := by
      have h2 : s % (q : ℤ) < q := Int.emod_lt_of_pos s hqZ
      omega
    have hccast : ((powMod (h * inv % p) (q ^ (exp - 1 - k)) p : ℕ) : ZMod p) =
        ((du ^ (s % (q : ℤ)).toNat : (ZMod p)ˣ) : ZMod p) := by
      rw [powMod_cast, ZMod.natCast_mod]
      push_cast
      rw [ht, hinv_is]
      have hunit : (g : ZMod p) ^ t * ((g : ZMod p) ^ x)⁻¹ =
          ((gu ^ ((t : ℤ) - (x : ℤ)) : (ZMod p)ˣ) : ZMod p) := by
        rw [zpow_sub, zpow_natCast, zpow_natCast]
        simp only [div_eq_mul_inv, Units.val_mul, Units.val_inv_eq_inv_val,
          Units.val_pow_eq_pow_val, hguval]
      rw [hunit, ← Units.val_pow_eq_pow_val]
      have hzz : (gu ^ ((t : ℤ) - (x : ℤ)) : (ZMod p)ˣ) ^ (q ^ (exp - 1 - k)) =
          gu ^ (((t : ℤ) - (x : ℤ)) * (q : ℤ) ^ (exp - 1 - k)) := by
        rw [zpow_mul]
        rw [show ((q : ℤ) ^ (exp - 1 - k)) = ((q ^ (exp - 1 - k) : ℕ) : ℤ) by push_cast; ring]
        rw [zpow_natCast]
      rw [hzz, hs]
      have hexps : (q : ℤ) ^ k * s * (q : ℤ) ^ (exp - 1 - k) = s * (q : ℤ) ^ (exp - 1) := by
        rw [mul_comm ((q : ℤ) ^ k) s, mul_assoc, ← pow_add]
        congr 2
        omega
      rw [hexps, mul_comm s, zpow_mul]
      have hstep1 : (gu ^ ((q : ℤ) ^ (exp - 1)) : (ZMod p)ˣ) = du := by
        rw [show ((q : ℤ) ^ (exp - 1)) = (((q ^ (exp - 1) : ℕ) : ℤ)) by push_cast; ring,
          zpow_natCast, hdu]
      rw [hstep1, ← zpow_mod_orderOf du s, hordd,
        show du ^ (s % (q : ℤ)) = du ^ ((s % (q : ℤ)).toNat : ℤ) by
          rw [Int.toNat_of_nonneg hstar0],
        zpow_natCast, Units.val_pow_eq_pow_val]
    have hchar : ∀ a : ℕ, powMod g (q ^ (exp - 1)) p ^ a % p =
        powMod (h * inv % p) (q ^ (exp - 1 - k)) p ↔
        (du ^ a : (ZMod p)ˣ) = du ^ (s % (q : ℤ)).toNat := by
      intro a
      constructor
      · intro hnat
        apply Units.ext
        rw [← hduN a, hnat, hccast]
      · intro huni
        apply eq_of_natCast_zmod_eq p _ _ (Nat.mod_lt _ (by omega)) (powMod_lt _ _ _ hpne)
        rw [hduN a, hccast, huni]
    have hsearch := dlogSearch_spec (powMod g (q ^ (exp - 1)) p) p
      (powMod (h * inv % p) (q ^ (exp - 1 - k)) p) q 0 1
      (by rw [pow_zero]; exact (Nat.mod_eq_of_lt (by omega)).symm)
    obtain ⟨a_k, hak_eq⟩ := hsearch.2
      ⟨(s % (q : ℤ)).toNat, Nat.zero_le _, by omega, (hchar _).mpr rfl⟩
    obtain ⟨-, hak_lt, hak_val⟩ := hsearch.1 a_k hak_eq
    have hak_star : a_k = (s % (q : ℤ)).toNat := by
      have huni := (hchar a_k).mp hak_val
      exact pow_injOn_Iio_orderOf (by rw [hordd]; exact Set.mem_Iio.mpr (by omega))
        (by rw [hordd]; exact Set.mem_Iio.mpr hstar_lt) huni
    have hx' : x + a_k * q ^ k < q ^ (k + 1) := by
      have hql : a_k ≤ q - 1 := by omega
      have hqk : (0:ℕ) < q ^ k := by positivity
      calc x + a_k * q ^ k < q ^ k + a_k * q ^ k := by omega
        _ ≤ q ^ k + (q - 1) * q ^ k := by
            have := Nat.mul_le_mul_right (q ^ k) hql
            omega
        _ = q * q ^ k := by
            have h1 : q ^ k + (q - 1) * q ^ k = (1 + (q - 1)) * q ^ k := by ring
            rw [h1]
            congr 1
            omega
        _ = q ^ (k + 1) := by rw [pow_succ, mul_comm]
    have hdvd' : (q : ℤ) ^ (k + 1) ∣ (t : ℤ) - ((x + a_k * q ^ k : ℕ) : ℤ) := by
      have hakz : (a_k : ℤ) = s % (q : ℤ) := by
        rw [hak_star]
        exact Int.toNat_of_nonneg hstar0
      have hdm : (t : ℤ) - ((x + a_k * q ^ k : ℕ) : ℤ) =
          (q : ℤ) ^ k * (s - a_k) := by
        push_cast
        rw [mul_sub]
        have : (t : ℤ) - (x : ℤ) = (q : ℤ) ^ k * s := hs
        push_cast at this
        linarith [this]
      rw [hdm, hakz]
      have : s - s % (q : ℤ) = (q : ℤ) * (s / q) := by
        have := Int.emod_def s (q : ℤ)
        linarith [this]
      rw [this]
      rw [pow_succ]
      exact ⟨s / q, by ring⟩
    obtain ⟨y, hyeq, hylt, hydvd⟩ := ih (k + 1) (x + a_k * q ^ k) (by omega) hx' hdvd'
    refine ⟨y, ?_, hylt, hydvd⟩
    simp only [dlogPPGo, hinveq, hak_eq]
    exact hyeq

theorem dlog_prime_power_spec (p q exp : ℕ) (hp : Nat.Prime p) (hq : 2 ≤ q)
    (hexp : 1 ≤ exp) (g h t : ℕ) (hg0 : (g : ZMod p) ≠ 0)
    (hord : orderOf (g : ZMod p) = q ^ exp)
    (ht : (h : ZMod p) = (g : ZMod p) ^ t) :
    ∃ y, dlog_prime_power g h p q exp = some y ∧ y < q ^ exp ∧
      (g : ZMod p) ^ y = (h : ZMod p) ∧ y ≡ t [MOD q ^ exp] := by
  haveI : Fact p.Prime := ⟨hp⟩
  have hgm : ((g % p : ℕ) : ZMod p) = (g : ZMod p) := ZMod.natCast_mod g p
  have hhm : ((h % p : ℕ) : ZMod p) = (h : ZMod p) := ZMod.natCast_mod h p
  have hgne : g % p ≠ 0 := by
    intro hc
    apply hg0
    rw [← hgm, hc]
    simp
  have hhz : (h : ZMod p) ≠ 0 := by
    rw [ht]
    exact pow_ne_zero t hg0
  have hhne : h % p ≠ 0 := by
    intro hc
    apply hhz
    rw [← hhm, hc]
    simp
  obtain ⟨y, hyeq, hylt, hydvd⟩ :=
    dlogPPGo_spec p q exp hp hq hexp (g % p) (h % p) t
      (by rw [hgm]; exact hg0)
      (by rw [hgm]; exact hord)
      (by rw [hhm, hgm]; exact ht)
      exp 0 0 (by omega) (by simpa using Nat.one_pos) (by simpa using one_dvd _)
  have hmodeq : y ≡ t [MOD q ^ exp] := by
    rw [Nat.modEq_iff_dvd]
    have : ((q ^ exp : ℕ) : ℤ) = (q : ℤ) ^ exp := by push_cast; ring
    rw [this]
    exact hydvd
  refine ⟨y, ?_, hylt, ?_, hmodeq⟩
  · rw [dlog_prime_power, if_neg (by omega), if_neg (by push_neg; exact ⟨hgne, hhne⟩)]
    exact hyeq
  · have hgu0 : ((g % p : ℕ) : ZMod p) ≠ 0 := by rw [hgm]; exact hg0
    set gu : (ZMod p)ˣ := Units.mk0 _ hg0 with hgudef
    have hordu : orderOf gu = q ^ exp := by
      rw [← orderOf_units]
      exact hord
    have hyu : gu ^ y = gu ^ t := by
      rw [pow_eq_pow_iff_modEq, hordu]
      exact hmodeq
    have := congrArg Units.val hyu
    rw [Units.val_pow_eq_pow_val, Units.val_pow_eq_pow_val] at this
    calc (g : ZMod p) ^ y = (gu : ZMod p) ^ y := rfl
      _ = (gu : ZMod p) ^ t := this
      _ = (g : ZMod p) ^ t := rfl
      _ = (h : ZMod p) := ht.symm

theorem exists_two_pow_eq (p : ℕ) (hp : Nat.Prime p)
    (hord : orderOf (2 : ZMod p) = p - 1) (h20 : (2 : ZMod p) ≠ 0)
    (a : ZMod p) (ha : a ≠ 0) : ∃ t : ℕ, (2 : ZMod p) ^ t = a := by
  haveI : Fact p.Prime := ⟨hp⟩
  set u2 : (ZMod p)ˣ := Units.mk0 _ h20 with hu2
  set ua : (ZMod p)ˣ := Units.mk0 a ha with hua
  have hordu : orderOf u2 = p - 1 := by
    rw [← orderOf_units]
    exact hord
  have hcard : Nat.card (ZMod p)ˣ = p - 1 := by
    rw [Nat.card_eq_fintype_card, ZMod.card_units]
  have htop : Subgroup.zpowers u2 = ⊤ := by
    apply Subgroup.eq_top_of_card_eq
    rw [Nat.card_zpowers, hordu, hcard]
  have hmem : ua ∈ Subgroup.zpowers u2 := by
    rw [htop]
    exact Subgroup.mem_top ua
  obtain ⟨n, hn⟩ := (Submonoid.mem_powers_iff ua u2).mp (mem_powers_iff_mem_zpowers.mpr hmem)
  refine ⟨n, ?_⟩
  have := congrArg Units.val hn
  rw [Units.val_pow_eq_pow_val] at this
  exact this

theorem orderOf_two_eq_of_root_checks (p : ℕ) (hp : Nat.Prime p) (hp2 : p ≠ 2)
    (hroot : ∀ n, 0 < n → n < p - 1 → powMod 2 n p ≠ 1) :
    orderOf (2 : ZMod p) = p - 1 ∧ (2 : ZMod p) ≠ 0 := by
  haveI : Fact p.Prime := ⟨hp⟩
  have hp3 : 3 ≤ p := by
    have := hp.two_le
    omega
  have h20 : (2 : ZMod p) ≠ 0 := by
    intro hcontra
    have h2 : ((2 : ℕ) : ZMod p) = 0 := by exact_mod_cast hcontra
    have hdvd : p ∣ 2 := (ZMod.natCast_zmod_eq_zero_iff_dvd 2 p).mp h2
    exact hp2 ((Nat.prime_dvd_prime_iff_eq hp Nat.prime_two).mp hdvd)
  refine ⟨?_, h20⟩
  rw [orderOf_eq_iff (by omega : 0 < p - 1)]
  refine ⟨ZMod.pow_card_sub_one_eq_one h20, ?_⟩
  intro m hm hm0 hcontra
  apply hroot m hm0 hm
  apply eq_of_natCast_zmod_eq p _ _ (powMod_lt _ _ _ (by omega)) (by omega : 1 < p)
  rw [powMod_cast]
  push_cast
  rw [hcontra]

theorem phGo_spec (p : ℕ) (hp : Nat.Prime p) (hp3 : 2 < p) (t : ℕ)
    (hord2 : orderOf (2 : ZMod p) = p - 1) (h20 : (2 : ZMod p) ≠ 0)
    (h : ℕ) (hh : (h : ZMod p) = (2 : ZMod p) ^ t) :
    ∀ factors : List (ℕ × ℕ),
      (∀ qe ∈ factors, Nat.Prime qe.1 ∧ 1 ≤ qe.2 ∧ qe.1 ^ qe.2 ∣ (p - 1)) →
      ∀ ca cm : List ℕ,
        ∃ xs, phGo h p (p - 1) factors ca cm =
            some (ca ++ xs, cm ++ factors.map (fun qe => qe.1 ^ qe.2)) ∧
          xs.length = factors.length ∧
          ∀ pr ∈ xs.zip (factors.map (fun qe => qe.1 ^ qe.2)),
            pr.1 < pr.2 ∧ pr.1 ≡ t [MOD pr.2] := by
  haveI : Fact p.Prime := ⟨hp⟩
  have hphi : p - 1 ≠ 0 := by omega
  intro factors
  induction factors with
  | nil =>
    intro _ ca cm
    exact ⟨[], by simp [phGo], by simp, by simp⟩
  | cons qe rest ih =>
    intro hfacts ca cm
    obtain ⟨q, e⟩ := qe
    obtain ⟨hqp, he1, hqdvd⟩ := hfacts (q, e) (List.mem_cons_self _ _)
    have hq2 : 2 ≤ q := hqp.two_le
    set m := q ^ e with hm
    have hmdvd : m ∣ p - 1 := hqdvd
    have hdiv_dvd : (p - 1) / m ∣ p - 1 := Nat.div_dvd_of_dvd hmdvd
    have hdivne : (p - 1) / m ≠ 0 := by
      intro hc
      have := Nat.div_mul_cancel hmdvd
      rw [hc, zero_mul] at this
      exact hphi this.symm
    have hgcast : ((powMod 2 ((p - 1) / m) p : ℕ) : ZMod p) = (2 : ZMod p) ^ ((p - 1) / m) := by
      rw [powMod_cast]
      push_cast
      ring
    have hgne : ((powMod 2 ((p - 1) / m) p : ℕ) : ZMod p) ≠ 0 := by
      rw [hgcast]
      exact pow_ne_zero _ h20
    have hordg : orderOf ((powMod 2 ((p - 1) / m) p : ℕ) : ZMod p) = q ^ e := by
      rw [hgcast, orderOf_pow' (2 : ZMod p) hdivne, hord2,
        Nat.gcd_eq_right hdiv_dvd, Nat.div_div_self hmdvd hphi]
    have hhcast : ((powMod h ((p - 1) / m) p : ℕ) : ZMod p) =
        ((powMod 2 ((p - 1) / m) p : ℕ) : ZMod p) ^ t := by
      rw [powMod_cast, hgcast, hh, ← pow_mul, ← pow_mul, mul_comm]
    obtain ⟨x_i, hxeq, hxlt, hxpow, hxmod⟩ :=
      dlog_prime_power_spec p q e hp hq2 he1 (powMod 2 ((p - 1) / m) p)
        (powMod h ((p - 1) / m) p) t hgne hordg hhcast
    obtain ⟨xs, hrec, hlen, hprops⟩ := ih
      (fun qe hqe => hfacts qe (List.mem_cons_of_mem _ hqe)) (ca ++ [x_i]) (cm ++ [m])
    refine ⟨x_i :: xs, ?_, by simpa using hlen, ?_⟩
    · simp only [phGo, hxeq, hrec]
      simp [hm]
    · intro pr hpr
      simp only [List.map_cons, List.zip_cons_cons] at hpr
      rcases List.mem_cons.mp hpr with hph | hpt
      · subst hph
        exact ⟨hxlt, hxmod⟩
      · exact hprops pr hpt

theorem mem_zip_right_of_mem {α β : Type} :
    ∀ (xs : List α) (ms : List β), xs.length = ms.length → ∀ m ∈ ms,
      ∃ a, (a, m) ∈ xs.zip ms := by
  intro xs ms
  induction ms generalizing xs with
  | nil =>
    intro _ m hm
    exact absurd hm (List.not_mem_nil m)
  | cons m0 ms ih =>
    intro hlen m hm
    match xs with
    | [] => simp at hlen
    | x0 :: xs =>
      rcases List.mem_cons.mp hm with hh | hh
      · exact ⟨x0, by rw [hh, List.zip_cons_cons]; exact List.mem_cons_self _ _⟩
      · obtain ⟨a, ha⟩ := ih xs (by simpa using hlen) m hh
        exact ⟨a, by rw [List.zip_cons_cons]; exact List.mem_cons_of_mem _ ha⟩

/-- Positive direction of Pohlig-Hellman correctness, shared by the
discrete-log claim and the signature round-trip: for an odd prime p with
2 a primitive root, the exact prime factorization of p-1, and h in
[1, p-1], dlog_pohlig_hellman_base2 returns an x < p-1 with
2^x mod p = h. -/
theorem dlog_ph_pos (p : ℕ) (factors : List (ℕ × ℕ))
    (hp : Nat.Prime p) (hp2 : p ≠ 2)
    (hfq : ∀ qe ∈ factors, Nat.Prime qe.1 ∧ 1 ≤ qe.2)
    (hnd : (factors.map Prod.fst).Nodup)
    (hfac : (factors.map (fun qe => qe.1 ^ qe.2)).prod = p - 1)
    (hroot : ∀ n, n < p - 1 → 0 < n → powMod 2 n p ≠ 1)
    (h : ℕ) (h1 : 1 ≤ h) (h2 : h ≤ p - 1) :
    ∃ x, dlog_pohlig_hellman_base2 h p factors = some x ∧ x < p - 1 ∧
      powMod 2 x p = h := by
  haveI : Fact p.Prime := ⟨hp⟩
  obtain ⟨hord2, h20⟩ := orderOf_two_eq_of_root_checks p hp hp2
    (fun n h1 h2 => hroot n h2 h1)
  have hp3 : 2 < p := by
    have := hp.two_le
    omega
  · have hlt : h < p := by omega
    have hmod : h % p = h := Nat.mod_eq_of_lt hlt
    have hne : (h : ZMod p) ≠ 0 := by
      intro hc
      have hdv := (ZMod.natCast_zmod_eq_zero_iff_dvd h p).mp hc
      have := Nat.le_of_dvd (by omega) hdv
      omega
    obtain ⟨t, hht⟩ := exists_two_pow_eq p hp hord2 h20 (h : ZMod p) hne
    have hfacts : ∀ qe ∈ factors, Nat.Prime qe.1 ∧ 1 ≤ qe.2 ∧ qe.1 ^ qe.2 ∣ (p - 1) := by
      intro qe hqe
      obtain ⟨a, b⟩ := hfq qe hqe
      refine ⟨a, b, ?_⟩
      rw [← hfac]
      exact List.dvd_prod (List.mem_map_of_mem _ hqe)
    obtain ⟨xs, hphgo, hlen, hprops⟩ := phGo_spec p hp hp3 t hord2 h20 (h % p)
      (by rw [ZMod.natCast_mod]; exact hht.symm) factors hfacts [] []
    set ms := factors.map (fun qe => qe.1 ^ qe.2) with hms
    have hlen2 : xs.length = ms.length := by rw [hlen, hms, List.length_map]
    have hmsne : ms ≠ [] := by
      intro hc
      rw [hc] at hfac
      simp at hfac
      omega
    have hms0 : ∀ m ∈ ms, m ≠ 0 := by
      intro m hm
      obtain ⟨qe, hqe, rfl⟩ := List.mem_map.mp hm
      have := (hfq qe hqe).1.two_le
      positivity
    have hpw : ms.Pairwise Nat.Coprime := by
      rw [hms, List.pairwise_map]
      have hnd' : factors.Pairwise (fun a b => a.1 ≠ b.1) := List.pairwise_map.mp hnd
      refine List.Pairwise.imp_of_mem ?_ hnd'
      intro a b ha hb hne1
      exact Nat.Coprime.pow _ _
        ((Nat.coprime_primes (hfq a ha).1 (hfq b hb).1).mpr hne1)
    obtain ⟨x, hcrteq, hxlt, hxcong⟩ := crt_many_some xs ms hlen2 hmsne hms0 hpw
    have hprodms : ms.prod = p - 1 := hfac
    have hxt : x % (p - 1) = t % (p - 1) := by
      rw [← hprodms]
      apply modEq_prod_of_forall ms x t hpw
      intro m hm
      obtain ⟨a, hamem⟩ := mem_zip_right_of_mem xs ms hlen2 m hm
      have h1' := hxcong (a, m) hamem
      have h2' := (hprops (a, m) hamem).2
      calc x % m = a % m := h1'
        _ = t % m := h2'
    have hx2 : (2 : ZMod p) ^ x = (h : ZMod p) := by
      set u2 : (ZMod p)ˣ := Units.mk0 _ h20 with hu2
      have hordu : orderOf u2 = p - 1 := by
        rw [← orderOf_units]
        exact hord2
      have hupow : u2 ^ x = u2 ^ t := by
        rw [pow_eq_pow_iff_modEq, hordu]
        exact hxt
      have := congrArg Units.val hupow
      rw [Units.val_pow_eq_pow_val, Units.val_pow_eq_pow_val] at this
      calc (2 : ZMod p) ^ x = (u2 : ZMod p) ^ x := rfl
        _ = (u2 : ZMod p) ^ t := this
        _ = (2 : ZMod p) ^ t := rfl
        _ = (h : ZMod p) := hht
    have hxlt' : x < p - 1 := hprodms ▸ hxlt
    have hxmod : x % (p - 1) = x := Nat.mod_eq_of_lt hxlt'
    refine ⟨x, ?_, hxlt', ?_⟩
    · have hphgo' : phGo (h % p) p (p - 1) factors [] [] = some (xs, ms) := by
        simpa using hphgo
      rw [dlog_pohlig_hellman_base2, if_neg (by rw [hmod]; omega)]
      simp only [hphgo', hcrteq, hxmod]
    · apply eq_of_natCast_zmod_eq p _ _ (powMod_lt _ _ _ (by omega)) hlt
      rw [powMod_cast]
      push_cast
      exact hx2

/-- C2: discrete-log correctness.  For an odd prime p with 2 a primitive
root (expressed through the powMod checks), and factors the exact prime
factorization of p-1, dlog_pohlig_hellman_base2 returns, for every h in
[1, p-1], an x < p-1 with 2^x mod p = h; and it fails exactly on the h
with h mod p = 0 (the only inputs with no logarithm). -/
theorem C2_dlog_pohlig_hellman_correct (p : ℕ) (factors : List (ℕ × ℕ))
    (hp : Nat.Prime p) (hp2 : p ≠ 2)
    (hfq : ∀ qe ∈ factors, Nat.Prime qe.1 ∧ 1 ≤ qe.2)
    (hnd : (factors.map Prod.fst).Nodup)
    (hfac : (factors.map (fun qe => qe.1 ^ qe.2)).prod = p - 1)
    (hroot : ∀ n, n < p - 1 → 0 < n → powMod 2 n p ≠ 1) :
    (∀ h, 1 ≤ h → h ≤ p - 1 →
      ∃ x, dlog_pohlig_hellman_base2 h p factors = some x ∧ x < p - 1 ∧
        powMod 2 x p = h) ∧
    (∀ h, h % p = 0 → dlog_pohlig_hellman_base2 h p factors = none) := by
  constructor
  · intro h h1 h2
    exact dlog_ph_pos p factors hp hp2 hfq hnd hfac hroot h h1 h2
  · intro h hmod0
    rw [dlog_pohlig_hellman_base2, if_pos hmod0]

/-- Witness for C2 at p = 11 with factors 10 = 2 * 5. -/
theorem C2_dlog_pohlig_hellman_correct_witness :
    (∀ h, 1 ≤ h → h ≤ 11 - 1 →
      ∃ x, dlog_pohlig_hellman_base2 h 11 [(2, 1), (5, 1)] = some x ∧ x < 11 - 1 ∧
        powMod 2 x 11 = h) ∧
    (∀ h, h % 11 = 0 → dlog_pohlig_hellman_base2 h 11 [(2, 1), (5, 1)] = none) :=
  C2_dlog_pohlig_hellman_correct 11 [(2, 1), (5, 1)] (by norm_num) (by norm_num)
    (by decide) (by decide) (by decide) (by decide)

/-- C7 counterexample: the TowerDict constructor accepts primes = (3, 3),
which is not strictly ascending and has a duplicate, refuting the claim
that every accepted primes tuple is strictly ascending with no duplicates. -/
theorem C7_counterexample_duplicates_accepted :
    mkTowerDict 1 [3, 3] = some ⟨1, [3, 3]⟩ ∧
      ¬ List.Chain' (· < ·) ([3, 3] : List ℕ) := by
  refine ⟨by rfl, ?_⟩
  simp [List.chain'_pair]

/-- C7 (amended): every TowerDict accepted by the constructor has a
non-empty primes tuple, all entries >= 3, entries sorted non-decreasing
(duplicates are allowed: the check only compares with the sorted tuple),
and a positive dict_id. -/
theorem C7_towerdict_invariant (dict_id : ℕ) (primes : List ℕ) (td : TowerDict)
    (h : mkTowerDict dict_id primes = some td) :
    td.primes ≠ [] ∧ (∀ p ∈ td.primes, 3 ≤ p) ∧
      List.Sorted (· ≤ ·) td.primes ∧ 0 < td.dict_id := by
  rw [mkTowerDict] at h
  split_ifs at h with h1 h2 h3 h4
  injection h with h'
  subst h'
  refine ⟨h2, ?_, ?_, Nat.pos_of_ne_zero h1⟩
  · intro p hp
    have hfalse : primes.any (fun p => decide (p < 3)) = false := by
      by_contra hc
      exact h4 (by simpa using hc)
    have := List.any_eq_false.mp hfalse p hp
    simp at this
    omega
  · have heq : List.insertionSort (fun a b => a ≤ b) primes = primes := not_ne_iff.mp h3
    have hs := List.sorted_insertionSort (fun a b => a ≤ b) primes
    rw [heq] at hs
    exact hs

/-- Witness for the amended C7 theorem at dict_id = 1, primes = [3, 5]. -/
theorem C7_towerdict_invariant_witness :
    (TowerDict.mk 1 [3, 5]).primes ≠ [] ∧
      (∀ p ∈ (TowerDict.mk 1 [3, 5]).primes, 3 ≤ p) ∧
      List.Sorted (· ≤ ·) (TowerDict.mk 1 [3, 5]).primes ∧
      0 < (TowerDict.mk 1 [3, 5]).dict_id :=
  C7_towerdict_invariant 1 [3, 5] ⟨1, [3, 5]⟩ (by decide)

/-- C8: the nice-prime generator sorts its results by m descending
unconditionally; the pre-sort generation order differs at this input and
no caller-facing flag exists to select it.  This records the divergence of
the code from the prefer_large behaviour the spec describes (cli.py even
passes a prefer_large keyword that compute_tower_signature does not
accept). -/
theorem C8_generator_sorts_descending_unconditionally :
    _gen_smooth_ms_in_range [2, 3] 1 10 =
      [(9, [(3, 2)]), (8, [(2, 3)]), (6, [(2, 1), (3, 1)]), (4, [(2, 2)]),
        (3, [(3, 1)]), (2, [(2, 1)]), (1, [])] ∧
      smoothRec 1 10 [2, 3] 1 [] =
        [(1, []), (3, [(3, 1)]), (9, [(3, 2)]), (2, [(2, 1)]), (6, [(2, 1), (3, 1)]),
          (4, [(2, 2)]), (8, [(2, 3)])] ∧
      _gen_smooth_ms_in_range [2, 3] 1 10 ≠ smoothRec 1 10 [2, 3] 1 [] := by
  decide

/-- Witness for C9 at p = 11, allowed = [2, 5]. -/
theorem C9_nice_classification_sound_witness :
    is_probable_prime 11 = true ∧
      (([(2, 1), (5, 1)] : List (ℕ × ℕ)).map (fun qe => qe.1 ^ qe.2)).prod = 11 - 1 ∧
      ∀ q : ℕ, q.Prime → q ∣ (11 - 1) → powMod 2 ((11 - 1) / q) 11 ≠ 1 :=
  C9_nice_classification_sound 11 [2, 5] [(2, 1), (5, 1)]
    (by intro q hq; fin_cases hq <;> norm_num)
    (by decide)

theorem decLenGo_lt : ∀ fuel n, n < fuel → n < 10 ^ decLenGo fuel n := by
  intro fuel
  induction fuel with
  | zero => intro n hn; omega
  | succ fuel ih =>
    intro n hn
    by_cases h10 : n < 10
    · rw [decLenGo, if_pos h10]
      omega
    · rw [decLenGo, if_neg h10]
      have hrec : n / 10 < fuel := by
        have := Nat.div_lt_self (by omega : 0 < n) (by omega : 1 < 10)
        omega
      have h1 := ih (n / 10) hrec
      rw [pow_succ]
      set t := 10 ^ decLenGo fuel (n / 10) with ht
      omega

theorem decimal_len_lt (n : ℕ) : n < 10 ^ decimal_len n :=
  decLenGo_lt (n + 1) n (by omega)

/-- If is_primitive_root_2 accepts p with an exact prime factorization of
p-1, then no positive n < p-1 has 2^n = 1 mod p (so 2 has order p-1). -/
theorem root_checks_of_primitive_root_2 (p : ℕ) (hp : Nat.Prime p)
    (factors : List (ℕ × ℕ))
    (hfq : ∀ qe ∈ factors, Nat.Prime qe.1)
    (hfac : (factors.map (fun qe => qe.1 ^ qe.2)).prod = p - 1)
    (hchk : is_primitive_root_2 p factors = true) :
    ∀ n, n < p - 1 → 0 < n → powMod 2 n p ≠ 1 := by
  haveI : Fact p.Prime := ⟨hp⟩
  have hp3 : 2 < p := by
    by_contra hc
    rw [is_primitive_root_2, if_pos (by omega)] at hchk
    exact Bool.false_ne_true hchk
  have h20 : (2 : ZMod p) ≠ 0 := by
    intro hcontra
    have h2 : ((2 : ℕ) : ZMod p) = 0 := by exact_mod_cast hcontra
    have hdvd : p ∣ 2 := (ZMod.natCast_zmod_eq_zero_iff_dvd 2 p).mp h2
    have := Nat.le_of_dvd (by omega) hdvd
    omega
  intro n hn hn0 hcon
  have h2n : (2 : ZMod p) ^ n = 1 := by
    have hcast := congrArg (fun t : ℕ => (t : ZMod p)) hcon
    simp only [powMod_cast] at hcast
    push_cast at hcast
    exact hcast
  set d := orderOf (2 : ZMod p) with hd
  have hd_dvd_n : d ∣ n := orderOf_dvd_of_pow_eq_one h2n
  have hd_dvd : d ∣ p - 1 :=
    orderOf_dvd_of_pow_eq_one (ZMod.pow_card_sub_one_eq_one h20)
  have hd0 : d ≠ 0 := by
    intro h0
    rw [h0] at hd_dvd_n
    have := Nat.eq_zero_of_zero_dvd hd_dvd_n
    omega
  have hdlt : d < p - 1 := lt_of_le_of_lt (Nat.le_of_dvd hn0 hd_dvd_n) hn
  set k := (p - 1) / d with hk_def
  have hk : d * k = p - 1 := Nat.mul_div_cancel' hd_dvd
  have hk1 : 1 < k := by
    rcases k with _ | _ | k
    · omega
    · omega
    · omega
  set q := k.minFac with hq_def
  have hqp : q.Prime := Nat.minFac_prime (by omega : k ≠ 1)
  have hqk : q ∣ k := Nat.minFac_dvd k
  have hq_dvd : q ∣ p - 1 := hqk.trans ⟨d, by rw [← hk]; ring⟩
  obtain ⟨qe, hqe, hqdvd⟩ := prime_dvd_pow_prod q hqp factors (by rw [hfac]; exact hq_dvd)
  have hq1p : Nat.Prime qe.1 := hfq qe hqe
  have hqeq : q = qe.1 := (Nat.prime_dvd_prime_iff_eq hqp hq1p).mp hqdvd
  rw [is_primitive_root_2, if_neg (by omega)] at hchk
  have hne := bne_iff_ne.mp (List.all_eq_true.mp hchk qe hqe)
  apply hne
  obtain ⟨c, hc⟩ := hqk
  have hdq : (p - 1) / qe.1 = d * c := by
    have hpe : p - 1 = qe.1 * (d * c) := by rw [← hk, ← hqeq, hc]; ring
    rw [hpe, Nat.mul_div_cancel_left _ hq1p.pos]
  apply eq_of_natCast_zmod_eq p _ _ (powMod_lt _ _ _ (by omega)) (by omega : 1 < p)
  rw [powMod_cast]
  push_cast
  rw [hdq, pow_mul]
  have hd2 : (2 : ZMod p) ^ d = 1 := pow_orderOf_eq_one _
  rw [hd2, one_pow]

/-- Full characterization of a successful nice_prime_info call: the result
is the factor_smooth factorization, exact with unit cofactor, with keys a
sublist of the allowed primes and positive exponents, and both the
probable-prime and primitive-root checks passed. -/
theorem nice_prime_info_spec (p : ℕ) (allowed : List ℕ) (fac : List (ℕ × ℕ))
    (hall : ∀ q ∈ allowed, 2 ≤ q)
    (h : nice_prime_info p allowed = some fac) :
    is_probable_prime p = true ∧
      is_primitive_root_2 p fac = true ∧
      List.Sublist (fac.map Prod.fst) allowed ∧
      (∀ qe ∈ fac, 1 ≤ qe.2) ∧
      (fac.map (fun qe => qe.1 ^ qe.2)).prod = p - 1 := by
  have hpp : is_probable_prime p = true := by
    by_contra hc
    rw [nice_prime_info, if_pos hc] at h
    exact Option.noConfusion h
  have hr1 : (factor_smooth (p - 1) allowed).2 = 1 := by
    by_contra hc
    rw [nice_prime_info, if_neg (by simp [hpp]), if_pos hc] at h
    exact Option.noConfusion h
  have hroot : is_primitive_root_2 p (factor_smooth (p - 1) allowed).1 = true := by
    by_contra hc
    rw [nice_prime_info, if_neg (by simp [hpp]), if_neg (by simp [hr1]), if_pos hc] at h
    exact Option.noConfusion h
  have hfac : fac = (factor_smooth (p - 1) allowed).1 := by
    rw [nice_prime_info, if_neg (by simp [hpp]), if_neg (by simp [hr1]),
      if_neg (by simp [hroot])] at h
    exact (Option.some.inj h).symm
  have hp2 : 2 ≤ p := is_probable_prime_two_le p hpp
  have hn : p - 1 ≠ 0 := by omega
  obtain ⟨f, r, heq, hr, hsub, hexps, hprod⟩ := factor_smooth_spec (p - 1) allowed hn hall
  have hfacf : fac = f := by rw [hfac, heq]
  have hreq : r = 1 := by
    have : (factor_smooth (p - 1) allowed).2 = r := by rw [heq]
    omega
  subst hfacf
  rw [hreq, one_mul] at hprod
  exact ⟨hpp, hfac ▸ hroot, hsub, hexps, hprod⟩

theorem dictPop_eq_of_not_mem (fac : List (ℕ × ℕ)) (p : ℕ)
    (h : p ∉ fac.map Prod.fst) : dictPop fac p = fac := by
  apply List.eraseP_of_forall_not
  intro qe hqe hbeq
  exact h (List.mem_map.mpr ⟨qe, hqe, beq_iff_eq.mp hbeq⟩)

theorem eCandidates_mem (maxM p cur : ℕ) (fac : List (ℕ × ℕ))
    (hnp : p ∉ fac.map Prod.fst) :
    ∀ fuel e0 vf, vf ∈ eCandidates maxM p cur fac fuel e0 →
      ∃ e, e0 ≤ e ∧ vf.1 = cur * p ^ e ∧ vf.1 ≤ maxM ∧
        vf.2 = (if e = 0 then fac else fac ++ [(p, e)]) := by
  intro fuel
  induction fuel with
  | zero => intro e0 vf hvf; exact absurd hvf (List.not_mem_nil vf)
  | succ fuel ih =>
    intro e0 vf hvf
    rw [eCandidates] at hvf
    by_cases hgt : cur * p ^ e0 > maxM
    · rw [if_pos hgt] at hvf
      exact absurd hvf (List.not_mem_nil vf)
    · rw [if_neg hgt] at hvf
      rcases List.mem_cons.mp hvf with hh | ht
      · subst hh
        refine ⟨e0, le_refl _, rfl, ?_, ?_⟩
        · show cur * p ^ e0 ≤ maxM
          omega
        · show (if e0 = 0 then dictPop fac p else dictPop fac p ++ [(p, e0)]) = _
          rw [dictPop_eq_of_not_mem fac p hnp]
      · obtain ⟨e, he0, h1, h2, h3⟩ := ih (e0 + 1) vf ht
        exact ⟨e, by omega, h1, h2, h3⟩

theorem smoothRec_spec (minM maxM : ℕ) :
    ∀ ps : List ℕ, ∀ cur : ℕ, ∀ fac : List (ℕ × ℕ),
      (∀ p ∈ ps, 2 ≤ p) → ps.Nodup → (∀ p ∈ ps, p ∉ fac.map Prod.fst) →
      cur ≠ 0 →
      ∀ mf ∈ smoothRec minM maxM ps cur fac,
        minM ≤ mf.1 ∧ mf.1 ≤ maxM ∧
        ∃ suffix, mf.2 = fac ++ suffix ∧
          List.Sublist (suffix.map Prod.fst) ps ∧
          (∀ qe ∈ suffix, 1 ≤ qe.2) ∧
          cur * (suffix.map (fun qe => qe.1 ^ qe.2)).prod = mf.1 := by
  intro ps
  induction ps with
  | nil =>
    intro cur fac _ _ _ _ mf hmf
    rw [smoothRec] at hmf
    by_cases hgt : cur > maxM
    · rw [if_pos hgt] at hmf
      exact absurd hmf (List.not_mem_nil mf)
    · rw [if_neg hgt] at hmf
      by_cases hin : minM ≤ cur ∧ cur ≤ maxM
      · rw [if_pos hin] at hmf
        have : mf = (cur, fac) := List.mem_singleton.mp hmf
        subst this
        exact ⟨hin.1, hin.2, [], by simp, by simp, by simp, by simp⟩
      · rw [if_neg hin] at hmf
        exact absurd hmf (List.not_mem_nil mf)
  | cons p rest ih =>
    intro cur fac h2 hnd hnf hcur mf hmf
    have hp2 : 2 ≤ p := h2 p (List.mem_cons_self _ _)
    rw [smoothRec] at hmf
    by_cases hgt : cur > maxM
    · rw [if_pos hgt] at hmf
      exact absurd hmf (List.not_mem_nil mf)
    · rw [if_neg hgt] at hmf
      obtain ⟨vf, hvf, hmf'⟩ := List.mem_flatMap.mp hmf
      obtain ⟨e, _, hv1, _, hv2⟩ :=
        eCandidates_mem maxM p cur fac (hnf p (List.mem_cons_self _ _)) (maxM + 2) 0 vf hvf
      have hvne : vf.1 ≠ 0 := by
        rw [hv1]
        positivity
      have hnf' : ∀ q ∈ rest, q ∉ vf.2.map Prod.fst := by
        intro q hq
        have hqp : q ≠ p := by
          intro hc
          subst hc
          exact (List.nodup_cons.mp hnd).1 hq
        have hqf : q ∉ fac.map Prod.fst := hnf q (List.mem_cons_of_mem _ hq)
        rw [hv2]
        by_cases he : e = 0
        · rw [if_pos he]
          exact hqf
        · rw [if_neg he, List.map_append]
          intro hc
          rcases List.mem_append.mp hc with hc1 | hc2
          · exact hqf hc1
          · simp only [List.map_cons, List.map_nil] at hc2
            exact hqp (List.mem_singleton.mp hc2)
      obtain ⟨hlo, hhi, suffix, hsfx, hsub, hexp, hprod⟩ :=
        ih vf.1 vf.2 (fun q hq => h2 q (List.mem_cons_of_mem _ hq))
          (List.nodup_cons.mp hnd).2 hnf' hvne mf hmf'
      refine ⟨hlo, hhi, ?_⟩
      by_cases he : e = 0
      · refine ⟨suffix, ?_, hsub.cons p, hexp, ?_⟩
        · rw [hsfx, hv2, if_pos he]
        · rw [← hprod, hv1, he]
          ring
      · refine ⟨(p, e) :: suffix, ?_, ?_, ?_, ?_⟩
        · rw [hsfx, hv2, if_neg he, List.append_assoc]
          rfl
        · simp only [List.map_cons]
          exact hsub.cons₂ p
        · intro qe hqe
          rcases List.mem_cons.mp hqe with hh | ht
          · rw [hh]; omega
          · exact hexp qe ht
        · simp only [List.map_cons, List.prod_cons]
          rw [← hprod, hv1]
          ring

/-- Every pair yielded by generate_nice_primes_32 passed the probable-prime
and primitive-root checks, and carries the exact smooth factorization of
p - 1 with keys drawn from the smooth set. -/
theorem generate_nice_primes_32_mem (smooth : List ℕ) (min_p max_p limit : ℕ)
    (h2 : ∀ q ∈ smooth, 2 ≤ q) (hnd : smooth.Nodup) :
    ∀ pf ∈ generate_nice_primes_32 smooth min_p max_p limit,
      is_probable_prime pf.1 = true ∧
      is_primitive_root_2 pf.1 pf.2 = true ∧
      List.Sublist (pf.2.map Prod.fst) smooth ∧
      (∀ qe ∈ pf.2, 1 ≤ qe.2) ∧
      (pf.2.map (fun qe => qe.1 ^ qe.2)).prod = pf.1 - 1 ∧
      1 ≤ pf.1 - 1 := by
  intro pf hpf
  rw [generate_nice_primes_32] at hpf
  have hpf' := (List.take_sublist limit _).subset hpf
  obtain ⟨mf, hmf, hsome⟩ := List.mem_filterMap.mp hpf'
  by_cases hcond : is_probable_prime (mf.1 + 1) = true ∧
      is_primitive_root_2 (mf.1 + 1) mf.2 = true
  · rw [if_pos hcond] at hsome
    have hpfeq : pf = (mf.1 + 1, mf.2) := (Option.some.inj hsome).symm
    have hmem : mf ∈ smoothRec (max 1 (min_p - 1)) (max_p - 1) smooth 1 [] := by
      rw [_gen_smooth_ms_in_range] at hmf
      exact (List.perm_insertionSort (fun a b => b.1 ≤ a.1) _).subset hmf
    obtain ⟨hlo, _, suffix, hsfx, hsub, hexp, hprod⟩ :=
      smoothRec_spec (max 1 (min_p - 1)) (max_p - 1) smooth 1 []
        h2 hnd (by intro q _; exact List.not_mem_nil q) one_ne_zero mf hmem
    have hsfx' : mf.2 = suffix := by simpa using hsfx
    rw [hpfeq]
    refine ⟨hcond.1, hcond.2, ?_, ?_, ?_, ?_⟩
    · rw [hsfx']; exact hsub
    · rw [hsfx']; exact hexp
    · show (mf.2.map (fun qe => qe.1 ^ qe.2)).prod = mf.1 + 1 - 1
      rw [hsfx']
      omega
    · show 1 ≤ mf.1 + 1 - 1
      omega
  · rw [if_neg hcond] at hsome
    exact Option.noConfusion hsome

/-- Invariant of the clock-selection loop: a successful run extends the
already-chosen list with a non-empty suffix drawn from the pool, keeps the
chosen primes distinct, makes the total product exceed the target, and
every strictly intermediate prefix product stays at or below the target. -/
theorem chooseLoop_spec (target : ℕ) :
    ∀ pool chosen M used r,
      chooseLoop target pool chosen M used = some r →
      M = (chosen.map Prod.fst).prod →
      (chosen.map Prod.fst).Nodup →
      (∀ x ∈ chosen, x.1 ∈ used) →
      (∃ suffix, r = chosen ++ suffix ∧ suffix ≠ [] ∧ ∀ x ∈ suffix, x ∈ pool) ∧
      (r.map Prod.fst).Nodup ∧
      target < (r.map Prod.fst).prod ∧
      (∀ k, chosen.length < k → k < r.length →
        ((r.take k).map Prod.fst).prod ≤ target) := by
  intro pool
  induction pool with
  | nil =>
    intro chosen M used r hr
    rw [chooseLoop] at hr
    exact absurd hr (Option.noConfusion ·)
  | cons pf rest ih =>
    intro chosen M used r hr hM hnd hused
    obtain ⟨p, fac⟩ := pf
    rw [chooseLoop] at hr
    by_cases hmem : p ∈ used
    · rw [if_pos hmem] at hr
      obtain ⟨⟨suffix, h1, h2, h3⟩, h4, h5, h6⟩ := ih chosen M used r hr hM hnd hused
      exact ⟨⟨suffix, h1, h2, fun x hx => List.mem_cons_of_mem _ (h3 x hx)⟩, h4, h5, h6⟩
    · rw [if_neg hmem] at hr
      have hpnot : p ∉ chosen.map Prod.fst := by
        intro hc
        obtain ⟨x, hx, hxeq⟩ := List.mem_map.mp hc
        exact hmem (hxeq ▸ hused x hx)
      by_cases hgt : M * p > target
      · rw [if_pos hgt] at hr
        have hreq : r = chosen ++ [(p, fac)] := (Option.some.inj hr).symm
        subst hreq
        refine ⟨⟨[(p, fac)], rfl, by simp, ?_⟩, ?_, ?_, ?_⟩
        · intro x hx
          rw [List.mem_singleton.mp hx]
          exact List.mem_cons_self _ _
        · rw [List.map_append]
          simp only [List.map_cons, List.map_nil]
          rw [List.nodup_append]
          exact ⟨hnd, List.nodup_singleton p,
            fun a ha hb => hpnot ((List.mem_singleton.mp hb) ▸ ha)⟩
        · rw [List.map_append, List.prod_append]
          simp only [List.map_cons, List.map_nil, List.prod_cons, List.prod_nil, mul_one]
          rw [← hM]
          exact hgt
        · intro k hk1 hk2
          rw [List.length_append] at hk2
          simp only [List.length_cons, List.length_nil] at hk2
          omega
      · rw [if_neg hgt] at hr
        have hM' : M * p = ((chosen ++ [(p, fac)]).map Prod.fst).prod := by
          rw [List.map_append, List.prod_append]
          simp only [List.map_cons, List.map_nil, List.prod_cons, List.prod_nil, mul_one]
          rw [← hM]
        have hnd' : ((chosen ++ [(p, fac)]).map Prod.fst).Nodup := by
          rw [List.map_append]
          simp only [List.map_cons, List.map_nil]
          rw [List.nodup_append]
          exact ⟨hnd, List.nodup_singleton p,
            fun a ha hb => hpnot ((List.mem_singleton.mp hb) ▸ ha)⟩
        have hused' : ∀ x ∈ chosen ++ [(p, fac)], x.1 ∈ used ++ [p] := by
          intro x hx
          rcases List.mem_append.mp hx with hx1 | hx2
          · exact List.mem_append.mpr (Or.inl (hused x hx1))
          · rw [List.mem_singleton.mp hx2]
            exact List.mem_append.mpr (Or.inr (List.mem_singleton.mpr rfl))
        obtain ⟨⟨suffix, h1, _, h3⟩, h4, h5, h6⟩ :=
          ih (chosen ++ [(p, fac)]) (M * p) (used ++ [p]) r hr hM' hnd' hused'
        refine ⟨⟨(p, fac) :: suffix, by rw [h1, List.append_assoc]; rfl, by simp, ?_⟩,
          h4, h5, ?_⟩
        · intro x hx
          rcases List.mem_cons.mp hx with hx1 | hx2
          · rw [hx1]; exact List.mem_cons_self _ _
          · exact List.mem_cons_of_mem _ (h3 x hx2)
        · intro k hk1 hk2
          by_cases hkc : k = chosen.length + 1
          · have hklen : k = (chosen ++ [(p, fac)]).length := by
              rw [List.length_append]
              simpa using hkc
            rw [h1, hklen, List.take_left, ← hM']
            exact le_of_not_lt hgt
          · have : (chosen ++ [(p, fac)]).length < k := by
              rw [List.length_append]
              simp only [List.length_cons, List.length_nil]
              omega
            exact h6 k this hk2

/-- Characterization of a successful choose_orologi_for_digits call: the
anchor (with its nice_prime_info factorization) comes first, followed by a
non-empty suffix of pool primes; the chosen primes are distinct; the full
product exceeds 10^D while every prefix with at least two clocks that is
not the whole list has product at most 10^D. -/
theorem choose_spec (D anchor : ℕ) (smooth : List ℕ) (min_p max_p : ℕ)
    (r : List (ℕ × List (ℕ × ℕ)))
    (h : choose_orologi_for_digits D anchor smooth min_p max_p = some r) :
    (∃ fac suffix, r = (anchor, fac) :: suffix ∧ suffix ≠ [] ∧
        nice_prime_info anchor smooth = some fac ∧
        ∀ x ∈ suffix, x ∈ generate_nice_primes_32 smooth min_p max_p 5000) ∧
      (r.map Prod.fst).Nodup ∧
      10 ^ D < (r.map Prod.fst).prod ∧
      (∀ k, 1 < k → k < r.length → ((r.take k).map Prod.fst).prod ≤ 10 ^ D) := by
  rw [choose_orologi_for_digits] at h
  by_cases hD : D = 0
  · rw [if_pos hD] at h
    exact absurd h (Option.noConfusion ·)
  · rw [if_neg hD] at h
    cases hnp : nice_prime_info anchor smooth with
    | none =>
      rw [hnp] at h
      exact absurd h (Option.noConfusion ·)
    | some fac =>
      rw [hnp] at h
      obtain ⟨⟨suffix, h1, h2, h3⟩, h4, h5, h6⟩ :=
        chooseLoop_spec (10 ^ D) (generate_nice_primes_32 smooth min_p max_p 5000)
          [(anchor, fac)] anchor [anchor] r h (by simp) (by simp)
          (by intro x hx; rw [List.mem_singleton.mp hx]; exact List.mem_singleton.mpr rfl)
      refine ⟨⟨fac, suffix, by simpa using h1, h2, rfl, h3⟩, h4, h5, ?_⟩
      intro k hk1 hk2
      exact h6 k (by simpa using hk1) hk2

/-- The firma-building loop succeeds on a list of nice clocks and produces
one firma per clock, in order, whose stored residue (0 for an absent
exponent, 2^e mod p otherwise) equals N mod p. -/
theorem buildFirme_spec (N : ℕ) :
    ∀ chosen : List (ℕ × List (ℕ × ℕ)),
      (∀ pf ∈ chosen, Nat.Prime pf.1 ∧ is_primitive_root_2 pf.1 pf.2 = true ∧
        (∀ qe ∈ pf.2, Nat.Prime qe.1 ∧ 1 ≤ qe.2) ∧ (pf.2.map Prod.fst).Nodup ∧
        (pf.2.map (fun qe => qe.1 ^ qe.2)).prod = pf.1 - 1) →
      ∃ firme, buildFirme N chosen = some firme ∧
        firme.map Firma.p = chosen.map Prod.fst ∧
        ∀ f ∈ firme, (match f.e with
          | none => 0
          | some e => powMod 2 e f.p) = N % f.p := by
  intro chosen
  induction chosen with
  | nil =>
    intro _
    exact ⟨[], by rw [buildFirme], by simp, by intro f hf; exact absurd hf (List.not_mem_nil f)⟩
  | cons pf rest ih =>
    intro hgood
    obtain ⟨p, fac⟩ := pf
    obtain ⟨hp, hchk, hfq, hnd, hfac⟩ := hgood (p, fac) (List.mem_cons_self _ _)
    obtain ⟨fs, hfs, hmap, hres⟩ := ih (fun x hx => hgood x (List.mem_cons_of_mem _ hx))
    have hp3 : 2 < p := by
      by_contra hc
      rw [is_primitive_root_2, if_pos (by omega)] at hchk
      exact Bool.false_ne_true hchk
    by_cases h0 : N % p = 0
    · refine ⟨⟨p, 0, none, p - 1, some fac⟩ :: fs, ?_, ?_, ?_⟩
      · simp only [buildFirme, if_pos h0, hfs]
      · simp only [List.map_cons, hmap]
      · intro f hf
        rcases List.mem_cons.mp hf with hh | ht
        · rw [hh, h0]
        · exact hres f ht
    · have hroot := root_checks_of_primitive_root_2 p hp fac
        (fun qe hqe => (hfq qe hqe).1) hfac hchk
      obtain ⟨x, hdlog, hxlt, hxpow⟩ := dlog_ph_pos p fac hp (by omega) hfq hnd hfac hroot
        (N % p) (by omega)
        (by have := Nat.mod_lt N (by omega : 0 < p); omega)
      refine ⟨⟨p, N % p, some x, p - 1, some fac⟩ :: fs, ?_, ?_, ?_⟩
      · simp only [buildFirme, if_neg h0, hdlog, hfs]
      · simp only [List.map_cons, hmap]
      · intro f hf
        rcases List.mem_cons.mp hf with hh | ht
        · rw [hh]
          exact hxpow
        · exact hres f ht

/-- Core round-trip argument: a signature whose firme encode N mod p per
clock, over distinct prime clocks whose product exceeds N, reconstructs to
exactly (N, product of moduli). -/
theorem reconstruct_exact (N : ℕ) (sig : TowerSignature)
    (hor : sig.orologi = sig.firme.map Firma.p)
    (hprime : ∀ p ∈ sig.orologi, Nat.Prime p)
    (hnd : sig.orologi.Nodup)
    (hne : sig.orologi ≠ [])
    (hres : ∀ f ∈ sig.firme,
      (match f.e with | none => 0 | some e => powMod 2 e f.p) = N % f.p)
    (hN : N < sig.orologi.prod) :
    reconstruct_from_tower_signature sig = some (N, sig.orologi.prod) := by
  rw [reconstruct_from_tower_signature]
  have hlen : sig.residues.length = sig.orologi.length := by
    rw [TowerSignature.residues, hor, List.length_map, List.length_map]
  have h0 : ∀ m ∈ sig.orologi, m ≠ 0 := fun m hm => (hprime m hm).pos.ne'
  have hpw : sig.orologi.Pairwise Nat.Coprime := by
    refine List.Pairwise.imp_of_mem ?_ hnd
    intro a b ha hb hab
    exact (Nat.coprime_primes (hprime a ha) (hprime b hb)).mpr hab
  obtain ⟨x, hxeq, hxlt, hxcong⟩ := crt_many_some sig.residues sig.orologi hlen hne h0 hpw
  have hzip : sig.residues.zip sig.orologi =
      sig.firme.map (fun f =>
        ((match f.e with | none => 0 | some e => powMod 2 e f.p), f.p)) := by
    rw [TowerSignature.residues, hor, List.zip_map']
  have hxN : x % sig.orologi.prod = N % sig.orologi.prod := by
    apply modEq_prod_of_forall _ _ _ hpw
    intro m hm
    rw [hor] at hm
    obtain ⟨f, hf, hfp⟩ := List.mem_map.mp hm
    have hpr : ((match f.e with | none => 0 | some e => powMod 2 e f.p), f.p) ∈
        sig.residues.zip sig.orologi := by
      rw [hzip]
      exact List.mem_map_of_mem _ hf
    have hx := hxcong _ hpr
    rw [hres f hf] at hx
    rw [← hfp]
    calc x % f.p = (N % f.p) % f.p := hx
      _ = N % f.p := Nat.mod_mod_of_dvd _ dvd_rfl
  have hxVal : x = N := by
    have h1 : x % sig.orologi.prod = x := Nat.mod_eq_of_lt hxlt
    have h2 : N % sig.orologi.prod = N := Nat.mod_eq_of_lt hN
    omega
  rw [hxeq, hxVal]

/-- Lucas primality through the embedded checks: if 2^(p-1) mod p = 1 and
the primitive-root test passes against an exact prime factorization of
p-1, then p is prime.  Used to certify concrete 32-bit clock primes. -/
theorem prime_of_pow_checks (p : ℕ) (hp3 : 2 < p) (factors : List (ℕ × ℕ))
    (hfq : ∀ qe ∈ factors, Nat.Prime qe.1)
    (hfac : (factors.map (fun qe => qe.1 ^ qe.2)).prod = p - 1)
    (h1 : powMod 2 (p - 1) p = 1)
    (hchk : is_primitive_root_2 p factors = true) :
    Nat.Prime p := by
  apply lucas_primality p 2
  · have hcast := congrArg (fun t : ℕ => (t : ZMod p)) h1
    simp only [powMod_cast] at hcast
    push_cast at hcast
    exact hcast
  · intro q hq hqd
    obtain ⟨qe, hqe, hqdvd⟩ := prime_dvd_pow_prod q hq factors (by rw [hfac]; exact hqd)
    have hqeq : q = qe.1 := (Nat.prime_dvd_prime_iff_eq hq (hfq qe hqe)).mp hqdvd
    rw [is_primitive_root_2, if_neg (by omega)] at hchk
    have hne := bne_iff_ne.mp (List.all_eq_true.mp hchk qe hqe)
    intro hcon
    apply hne
    apply eq_of_natCast_zmod_eq p _ _ (powMod_lt _ _ _ (by omega)) (by omega : 1 < p)
    rw [powMod_cast]
    push_cast
    rw [← hqeq]
    exact hcon

/-- C6 (amended): a successful choose_orologi_for_digits run always puts
the anchor first followed by at least one generator prime (the anchor is
never returned alone, even when it already exceeds the target); the full
product exceeds 10^D, and every proper prefix with at least two clocks has
product at most 10^D.  The original claim's stronger statement - that the
one-element prefix [anchor] also stays at or below 10^D and that a
sufficient anchor is returned alone - is refuted by
C6_counterexample_prefix_exceeds_target. -/
theorem C6_tower_selection_stop (D anchor : ℕ) (smooth : List ℕ) (min_p max_p : ℕ)
    (r : List (ℕ × List (ℕ × ℕ)))
    (h : choose_orologi_for_digits D anchor smooth min_p max_p = some r) :
    (∃ fac suffix, r = (anchor, fac) :: suffix ∧ suffix ≠ []) ∧
      10 ^ D < (r.map Prod.fst).prod ∧
      ∀ k, 2 ≤ k → k < r.length → ((r.take k).map Prod.fst).prod ≤ 10 ^ D := by
  obtain ⟨⟨fac, suffix, h1, h2, _, _⟩, _, h5, h6⟩ := choose_spec D anchor smooth min_p max_p r h
  exact ⟨⟨fac, suffix, h1, h2⟩, h5, fun k hk1 hk2 => h6 k (by omega) hk2⟩

/-- C6 counterexample: with D = 1 and anchor 61 the anchor alone already
exceeds 10^D = 10, yet the returned list still contains a second clock;
the one-element prefix [61] has product above the target.  This refutes
the claimed "anchor alone" stopping behaviour: the Python loop appends a
pool prime before its first comparison against the target. -/
theorem C6_counterexample_prefix_exceeds_target :
    choose_orologi_for_digits 1 61 [2, 3, 5] (2 ^ 31) (2 ^ 32 - 1) =
      some [(61, [(2, 2), (3, 1), (5, 1)]), (3874204891, [(2, 1), (3, 18), (5, 1)])] ∧
      10 ^ 1 < 61 ∧
      [((61 : ℕ), [((2 : ℕ), (2 : ℕ)), (3, 1), (5, 1)]),
          (3874204891, [(2, 1), (3, 18), (5, 1)])] ≠
        [(61, [(2, 2), (3, 1), (5, 1)])] := by
  refine ⟨by decide, by norm_num, by decide⟩

/-- Witness for C6 at D = 1, anchor 61, smooth primes [2, 3, 5]. -/
theorem C6_tower_selection_stop_witness :
    (∃ fac suffix,
        [((61 : ℕ), [((2 : ℕ), (2 : ℕ)), (3, 1), (5, 1)]),
          (3874204891, [(2, 1), (3, 18), (5, 1)])] = (61, fac) :: suffix ∧ suffix ≠ []) ∧
      10 ^ 1 <
        (([((61 : ℕ), [((2 : ℕ), (2 : ℕ)), (3, 1), (5, 1)]),
          (3874204891, [(2, 1), (3, 18), (5, 1)])].map Prod.fst).prod) ∧
      ∀ k, 2 ≤ k →
        k < [((61 : ℕ), [((2 : ℕ), (2 : ℕ)), (3, 1), (5, 1)]),
          (3874204891, [(2, 1), (3, 18), (5, 1)])].length →
        (([((61 : ℕ), [((2 : ℕ), (2 : ℕ)), (3, 1), (5, 1)]),
          (3874204891, [(2, 1), (3, 18), (5, 1)])].take k).map Prod.fst).prod ≤ 10 ^ 1 :=
  C6_tower_selection_stop 1 61 [2, 3, 5] (2 ^ 31) (2 ^ 32 - 1)
    [(61, [(2, 2), (3, 1), (5, 1)]), (3874204891, [(2, 1), (3, 18), (5, 1)])]
    (by decide)

/-- C1: round-trip under sufficiency.  For any N whose signature
computation succeeds (over prime, duplicate-free smooth primes, with the
clock primes certified prime), the modulus product sig.M is the product of
the clocks and exceeds N, and reconstruction returns exactly (N, sig.M).
More generally, any tower signature whose per-clock residues encode
N mod p over distinct prime clocks with product above N reconstructs to
exactly N, not merely N mod M. -/
theorem C1_roundtrip_under_sufficiency (N anchor : ℕ) (smooth : List ℕ)
    (sig : TowerSignature)
    (hsig : compute_tower_signature N anchor smooth = some sig)
    (hsm : ∀ q ∈ smooth, Nat.Prime q) (hsmnd : smooth.Nodup)
    (hprime : ∀ p ∈ sig.orologi, Nat.Prime p) :
    (sig.M = sig.orologi.prod ∧ N < sig.M ∧
      reconstruct_from_tower_signature sig = some (N, sig.M)) ∧
    (∀ sig' : TowerSignature,
      sig'.orologi = sig'.firme.map Firma.p →
      (∀ p ∈ sig'.orologi, Nat.Prime p) →
      sig'.orologi.Nodup →
      sig'.orologi ≠ [] →
      (∀ f ∈ sig'.firme,
        (match f.e with | none => 0 | some e => powMod 2 e f.p) = N % f.p) →
      N < sig'.orologi.prod →
      reconstruct_from_tower_signature sig' = some (N, sig'.orologi.prod)) := by
  refine ⟨?_, fun sig' h1 h2 h3 h4 h5 h6 => reconstruct_exact N sig' h1 h2 h3 h4 h5 h6⟩
  simp only [compute_tower_signature] at hsig
  cases hch : choose_orologi_for_digits (if N = 0 then 1 else decimal_len N) anchor smooth
      DEFAULT_32BIT_MIN_P DEFAULT_32BIT_MAX_P with
  | none =>
    simp only [hch] at hsig
    exact Option.noConfusion hsig
  | some chosen =>
    simp only [hch] at hsig
    cases hbf : buildFirme N chosen with
    | none =>
      simp only [hbf] at hsig
      exact Option.noConfusion hsig
    | some firme =>
      simp only [hbf] at hsig
      have hsigeq : sig = ⟨N, if N = 0 then 1 else decimal_len N, chosen.map Prod.fst,
          firme, (chosen.map Prod.fst).prod⟩ := (Option.some.inj hsig).symm
      subst hsigeq
      obtain ⟨⟨fac, suffix, hre, _, hnpi, hpool⟩, hnod, hgt, _⟩ :=
        choose_spec (if N = 0 then 1 else decimal_len N) anchor smooth
          DEFAULT_32BIT_MIN_P DEFAULT_32BIT_MAX_P chosen hch
      have hsm2 : ∀ q ∈ smooth, 2 ≤ q := fun q hq => (hsm q hq).two_le
      have hgood : ∀ pf ∈ chosen, Nat.Prime pf.1 ∧ is_primitive_root_2 pf.1 pf.2 = true ∧
          (∀ qe ∈ pf.2, Nat.Prime qe.1 ∧ 1 ≤ qe.2) ∧ (pf.2.map Prod.fst).Nodup ∧
          (pf.2.map (fun qe => qe.1 ^ qe.2)).prod = pf.1 - 1 := by
        intro pf hpf
        have hpfprime : Nat.Prime pf.1 := hprime pf.1 (List.mem_map_of_mem Prod.fst hpf)
        rw [hre] at hpf
        rcases List.mem_cons.mp hpf with hh | ht
        · subst hh
          obtain ⟨_, hchk, hsub, hexp, hfac⟩ := nice_prime_info_spec anchor smooth fac hsm2 hnpi
          exact ⟨hpfprime, hchk,
            fun qe hqe => ⟨hsm qe.1 (hsub.subset (List.mem_map_of_mem Prod.fst hqe)),
              hexp qe hqe⟩,
            hsmnd.sublist hsub, hfac⟩
        · obtain ⟨_, hchk, hsub, hexp, hfac, _⟩ :=
            generate_nice_primes_32_mem smooth DEFAULT_32BIT_MIN_P DEFAULT_32BIT_MAX_P 5000
              hsm2 hsmnd pf (hpool pf ht)
          exact ⟨hpfprime, hchk,
            fun qe hqe => ⟨hsm qe.1 (hsub.subset (List.mem_map_of_mem Prod.fst hqe)),
              hexp qe hqe⟩,
            hsmnd.sublist hsub, hfac⟩
      obtain ⟨firme', hbf', hmap, hres⟩ := buildFirme_spec N chosen hgood
      have hfeq : firme' = firme := by
        rw [hbf] at hbf'
        exact (Option.some.inj hbf').symm
      subst hfeq
      have hNlt : N < 10 ^ (if N = 0 then 1 else decimal_len N) := by
        by_cases hN0 : N = 0
        · rw [if_pos hN0, hN0]
          norm_num
        · rw [if_neg hN0]
          exact decimal_len_lt N
      have hNM : N < (chosen.map Prod.fst).prod := lt_trans hNlt hgt
      refine ⟨rfl, hNM, ?_⟩
      exact reconstruct_exact N _ hmap.symm hprime hnod
        (by rw [hre]; simp) hres hNM

/-- Witness for C1 at N = 5, anchor 61, smooth primes [2, 3, 5]: the
computed signature has modulus product 61 * 3874204891 = 236326498351 > 5
and reconstructs to exactly (5, 236326498351). -/
theorem C1_roundtrip_under_sufficiency_witness :
    5 < 236326498351 ∧
      reconstruct_from_tower_signature
        ⟨5, 1, [61, 3874204891],
          [⟨61, 5, some 22, 60, some [(2, 2), (3, 1), (5, 1)]⟩,
           ⟨3874204891, 5, some 3403723346, 3874204890, some [(2, 1), (3, 18), (5, 1)]⟩],
          236326498351⟩ = some (5, 236326498351) := by
  have h := C1_roundtrip_under_sufficiency 5 61 [2, 3, 5]
    ⟨5, 1, [61, 3874204891],
      [⟨61, 5, some 22, 60, some [(2, 2), (3, 1), (5, 1)]⟩,
       ⟨3874204891, 5, some 3403723346, 3874204890, some [(2, 1), (3, 18), (5, 1)]⟩],
      236326498351⟩
    (by decide)
    (by intro q hq; fin_cases hq <;> norm_num)
    (by decide)
    (by
      intro p hp
      have hp' : p ∈ [61, 3874204891] := hp
      fin_cases hp'
      · norm_num
      · exact prime_of_pow_checks 3874204891 (by norm_num) [(2, 1), (3, 18), (5, 1)]
          (by intro qe hqe; fin_cases hqe <;> norm_num)
          (by decide) (by decide) (by decide))
  exact ⟨h.1.2.1, h.1.2.2⟩

theorem lor_eq_add : ∀ (k a b : ℕ), a < 2 ^ k → a ||| b * 2 ^ k = a + b * 2 ^ k := by
  intro k
  induction k with
  | zero =>
    intro a b ha
    interval_cases a
    simp
  | succ k ih =>
    intro a b ha
    have hdiv : (a ||| b * 2 ^ (k + 1)) / 2 = a / 2 + b * 2 ^ k := by
      rw [Nat.or_div_two]
      have h2 : b * 2 ^ (k + 1) / 2 = b * 2 ^ k := by
        rw [pow_succ, ← mul_assoc]
        exact Nat.mul_div_cancel _ (by norm_num)
      rw [h2]
      apply ih
      have h3 : (2 : ℕ) ^ (k + 1) = 2 * 2 ^ k := by ring
      omega
    have hb0 : b * 2 ^ (k + 1) % 2 = 0 := by
      have : (2 : ℕ) ∣ b * 2 ^ (k + 1) := by
        apply Dvd.dvd.mul_left
        exact dvd_pow_self 2 (Nat.succ_ne_zero k)
      omega
    have hmod : (a ||| b * 2 ^ (k + 1)) % 2 = a % 2 := by
      rcases Nat.mod_two_eq_zero_or_one a with h | h
      · rw [h]
        by_contra hc
        have h1 : (a ||| b * 2 ^ (k + 1)) % 2 = 1 := by omega
        rcases Nat.or_mod_two_eq_one.mp h1 with h2 | h2 <;> omega
      · rw [h]
        have h1 : (a ||| b * 2 ^ (k + 1)) % 2 = 1 := Nat.or_mod_two_eq_one.mpr (Or.inl h)
        exact h1
    have hx := Nat.div_add_mod (a ||| b * 2 ^ (k + 1)) 2
    have hbb : b * 2 ^ (k + 1) = 2 * (b * 2 ^ k) := by ring
    omega

theorem den_append : ∀ (a b : List ℕ), den (a ++ b) = den a + 256 ^ a.length * den b := by
  intro a
  induction a with
  | nil => intro b; simp [den]
  | cons x xs ih =>
    intro b
    simp only [List.cons_append, den, List.foldr_cons, List.length_cons]
    have := ih b
    simp only [den] at this
    rw [this, pow_succ]
    ring

theorem den_lt : ∀ (l : List ℕ), (∀ b ∈ l, b < 256) → den l < 256 ^ l.length := by
  intro l
  induction l with
  | nil => intro _; simp [den]
  | cons x xs ih =>
    intro h
    have hx : x < 256 := h x (List.mem_cons_self _ _)
    have hxs := ih (fun b hb => h b (List.mem_cons_of_mem _ hb))
    simp only [den, List.foldr_cons, List.length_cons, pow_succ]
    simp only [den] at hxs
    have hp : 1 ≤ (256 : ℕ) ^ xs.length := Nat.one_le_pow _ _ (by norm_num)
    omega

theorem mod_mul_decomp (a M : ℕ) : a % (256 * M) = a % 256 + 256 * (a / 256 % M) := by
  have h1 : a % (256 * M) % 256 = a % 256 := Nat.mod_mod_of_dvd a ⟨M, rfl⟩
  have h2 : a % (256 * M) / 256 = a / 256 % M := Nat.mod_mul_right_div_self a 256 M
  have h3 := Nat.div_add_mod (a % (256 * M)) 256
  omega

theorem flushBytes_spec : ∀ fuel buf nbits, nbits ≤ fuel →
    ∃ out, flushBytes fuel buf nbits = (out, buf / 256 ^ (nbits / 8), nbits % 8) ∧
      den out = buf % 256 ^ (nbits / 8) ∧ out.length = nbits / 8 ∧ ∀ b ∈ out, b < 256 := by
  intro fuel
  induction fuel with
  | zero =>
    intro buf nbits h
    have h0 : nbits = 0 := by omega
    subst h0
    exact ⟨[], by simp [flushBytes], by simp [den, Nat.mod_one], by simp, by simp⟩
  | succ fuel ih =>
    intro buf nbits h
    by_cases h8 : 8 ≤ nbits
    · obtain ⟨out, heq, hden, hlen, hlt⟩ := ih (buf / 256) (nbits - 8) (by omega)
      have hs : (nbits - 8) / 8 + 1 = nbits / 8 := by omega
      refine ⟨buf % 256 :: out, ?_, ?_, ?_, ?_⟩
      · rw [flushBytes, if_pos h8, heq]
        have e1 : buf / 256 / 256 ^ ((nbits - 8) / 8) = buf / 256 ^ (nbits / 8) := by
          rw [Nat.div_div_eq_div_mul, ← pow_succ']
          rw [← hs]
        have e2 : (nbits - 8) % 8 = nbits % 8 := by omega
        rw [e1, e2]
      · simp only [den, List.foldr_cons]
        simp only [den] at hden
        rw [hden, ← hs, pow_succ', mod_mul_decomp]
      · simp only [List.length_cons, hlen]
        omega
      · intro b hb
        rcases List.mem_cons.mp hb with hh | ht
        · rw [hh]; exact Nat.mod_lt _ (by norm_num)
        · exact hlt b ht
    · have h0 : nbits / 8 = 0 := by omega
      refine ⟨[], ?_, ?_, by simp [h0], by simp⟩
      · rw [flushBytes, if_neg h8, h0]
        simp [Nat.mod_eq_of_lt (show nbits < 8 by omega)]
      · simp [den, h0, Nat.mod_one]

theorem pow256 (q : ℕ) : (256 : ℕ) ^ q = 2 ^ (8 * q) := by
  rw [show (256 : ℕ) = 2 ^ 8 by norm_num, ← pow_mul]

/-- Numeric specification of the _bitpack_es prime loop: from a bit
buffer state (buf, nbits) it emits bytes whose little-endian value is
buf + 2^nbits * code(fields), of the exact rounded-up byte length. -/
theorem bitpackGo_spec (byp : List (ℕ × ClockRec)) :
    ∀ cs : List ClockRec,
      (∀ c ∈ cs, assocGet byp c.p = some c) →
      (∀ c ∈ cs, c.z = false → 3 ≤ c.p ∧ ∃ e, c.e = some e) →
      ∀ buf nbits, buf < 2 ^ nbits → nbits < 8 →
        ∃ out, bitpackGo byp (cs.map (fun c => c.p)) buf nbits = some out ∧
          den out = buf + 2 ^ nbits * code (clockItems cs) ∧
          out.length = (nbits + totalBits (clockItems cs) + 7) / 8 ∧
          ∀ b ∈ out, b < 256 := by
  intro cs
  induction cs with
  | nil =>
    intro _ _ buf nbits hbuf hn
    by_cases h0 : nbits = 0
    · subst h0
      have hb0 : buf = 0 := by
        simp only [pow_zero] at hbuf
        omega
      subst hb0
      exact ⟨[], by simp [bitpackGo], by simp [den, code, clockItems],
        by simp [totalBits, clockItems], by simp⟩
    · have hblt : buf < 256 := by
        have : (2 : ℕ) ^ nbits ≤ 2 ^ 7 := Nat.pow_le_pow_right (by norm_num) (by omega)
        omega
      refine ⟨[buf % 256], ?_, ?_, ?_, ?_⟩
      · simp [bitpackGo, h0]
      · simp [den, code, clockItems, Nat.mod_eq_of_lt hblt]
      · simp only [List.length_singleton, totalBits, clockItems, List.map_nil, List.sum_nil]
        omega
      · intro b hb
        rw [List.mem_singleton.mp hb]
        exact Nat.mod_lt _ (by norm_num)
  | cons c cs ih =>
    intro hbyp hwf buf nbits hbuf hn
    have hc := hbyp c (List.mem_cons_self _ _)
    by_cases hz : c.z
    · obtain ⟨out, heq, hden, hlen, hbytes⟩ :=
        ih (fun x hx => hbyp x (List.mem_cons_of_mem _ hx))
          (fun x hx => hwf x (List.mem_cons_of_mem _ hx)) buf nbits hbuf hn
      refine ⟨out, ?_, ?_, ?_, hbytes⟩
      · simp only [List.map_cons, bitpackGo, hc, hz, if_true]
        exact heq
      · rw [hden]
        simp only [clockItems, hz, if_true]
      · rw [hlen]
        simp only [clockItems, hz, if_true]
    · have hzf : c.z = false := by
        revert hz
        cases c.z <;> simp
      obtain ⟨h3p, e, he⟩ := hwf c (List.mem_cons_self _ _) hzf
      have hwidth : e_bit_width_for_prime c.p = some (bit_length (c.p - 2)) := by
        rw [e_bit_width_for_prime, if_neg (by omega)]
      set w := bit_length (c.p - 2) with hw
      have hlor : buf ||| e % 2 ^ w * 2 ^ nbits = buf + e % 2 ^ w * 2 ^ nbits :=
        lor_eq_add nbits buf (e % 2 ^ w) hbuf
      obtain ⟨fl_out, hfl, hflden, hfllen, hflbytes⟩ :=
        flushBytes_spec (nbits + w) (buf + e % 2 ^ w * 2 ^ nbits) (nbits + w) (le_refl _)
      have hXlt : buf + e % 2 ^ w * 2 ^ nbits < 2 ^ (nbits + w) := by
        have h1 : e % 2 ^ w < 2 ^ w := Nat.mod_lt _ (Nat.pos_pow_of_pos _ (by norm_num))
        have h2 : e % 2 ^ w * 2 ^ nbits ≤ (2 ^ w - 1) * 2 ^ nbits :=
          Nat.mul_le_mul_right _ (by omega)
        have h3 : (2 : ℕ) ^ (nbits + w) = 2 ^ w * 2 ^ nbits := by
          rw [pow_add]
          ring
        have h4 : 1 ≤ (2 : ℕ) ^ w := Nat.one_le_pow _ _ (by norm_num)
        have h5 : (2 ^ w - 1) * 2 ^ nbits = 2 ^ w * 2 ^ nbits - 2 ^ nbits := by
          rw [Nat.sub_mul, one_mul]
        have h6 : (2 : ℕ) ^ nbits ≤ 2 ^ w * 2 ^ nbits :=
          Nat.le_mul_of_pos_left _ (by positivity)
        omega
      have hbuf' : (buf + e % 2 ^ w * 2 ^ nbits) / 256 ^ ((nbits + w) / 8) <
          2 ^ ((nbits + w) % 8) := by
        rw [Nat.div_lt_iff_lt_mul (by positivity), pow256, ← pow_add]
        have : (nbits + w) % 8 + 8 * ((nbits + w) / 8) = nbits + w := by omega
        rw [this]
        exact hXlt
      obtain ⟨out, heq, hden, hlen, hbytes⟩ :=
        ih (fun x hx => hbyp x (List.mem_cons_of_mem _ hx))
          (fun x hx => hwf x (List.mem_cons_of_mem _ hx))
          ((buf + e % 2 ^ w * 2 ^ nbits) / 256 ^ ((nbits + w) / 8)) ((nbits + w) % 8)
          hbuf' (by omega)
      refine ⟨fl_out ++ out, ?_, ?_, ?_, ?_⟩
      · simp only [List.map_cons, bitpackGo, hc, hz, if_false, he, hwidth, hlor, hfl, heq]
        simp
      · rw [den_append, hflden, hfllen, hden]
        have hdm := Nat.div_add_mod (buf + e % 2 ^ w * 2 ^ nbits) (256 ^ ((nbits + w) / 8))
        have hpw : (256 : ℕ) ^ ((nbits + w) / 8) * 2 ^ ((nbits + w) % 8) = 2 ^ (nbits + w) := by
          rw [pow256, ← pow_add]
          congr 1
          omega
        have hcode : code (clockItems (c :: cs)) =
            e % 2 ^ w + 2 ^ w * code (clockItems cs) := by
          simp only [clockItems, hz, if_false, he, code]
        rw [hcode]
        have hsplit : (2 : ℕ) ^ (nbits + w) = 2 ^ nbits * 2 ^ w := by
          rw [pow_add]
        set Q := (256 : ℕ) ^ ((nbits + w) / 8)
        set R := (2 : ℕ) ^ ((nbits + w) % 8)
        set X := buf + e % 2 ^ w * 2 ^ nbits
        set C := code (clockItems cs)
        -- goal: X % Q + Q * (X / Q + R * C) = buf + 2 ^ nbits * (e % 2 ^ w + 2 ^ w * C)
        have hQR : Q * R = 2 ^ nbits * 2 ^ w := by rw [hpw] at *; rw [← hsplit, ← hpw]
        calc X % Q + Q * (X / Q + R * C)
            = (X % Q + Q * (X / Q)) + Q * R * C := by ring
          _ = X + Q * R * C := by omega
          _ = buf + e % 2 ^ w * 2 ^ nbits + 2 ^ nbits * 2 ^ w * C := by rw [hQR]
          _ = buf + 2 ^ nbits * (e % 2 ^ w + 2 ^ w * C) := by ring
      · rw [List.length_append, hfllen, hlen]
        have htb : totalBits (clockItems (c :: cs)) = w + totalBits (clockItems cs) := by
          simp only [clockItems, hz, if_false, he, totalBits, List.map_cons, List.sum_cons]
          simp [← hw]
        rw [htb]
        omega
      · intro b hb
        rcases List.mem_append.mp hb with h1 | h2
        · exact hflbytes b h1
        · exact hbytes b h2

/-- Specification of the _bitunpack_es refill loop: it consumes just
enough whole bytes to hold w bits, accumulating them into the buffer. -/
theorem fillBits_spec (w : ℕ) : ∀ fuel stream buf nbits,
    (∀ b ∈ stream, b < 256) → buf < 2 ^ nbits →
    1 ≤ fuel → w ≤ nbits + 8 * (fuel - 1) → w ≤ nbits + 8 * stream.length →
    ∃ t, fillBits w fuel stream buf nbits =
        .ok (buf + 2 ^ nbits * den (stream.take t), nbits + 8 * t, stream.drop t) ∧
      w ≤ nbits + 8 * t ∧ (t = 0 ∨ nbits + 8 * (t - 1) < w) ∧ t ≤ stream.length := by
  intro fuel
  induction fuel with
  | zero =>
    intro _ _ _ _ _ h1 _ _
    omega
  | succ fuel ih =>
    intro stream buf nbits hbytes hbuf _ hfuel hav
    by_cases hlt : nbits < w
    · match stream with
      | [] =>
        simp only [List.length_nil, mul_zero, add_zero] at hav
        omega
      | b :: rest =>
        have hb : b < 256 := hbytes b (List.mem_cons_self _ _)
        have hlor : buf ||| b * 2 ^ nbits = buf + b * 2 ^ nbits := lor_eq_add nbits buf b hbuf
        have hbuf2 : buf + b * 2 ^ nbits < 2 ^ (nbits + 8) := by
          have h1 : b * 2 ^ nbits ≤ 255 * 2 ^ nbits := Nat.mul_le_mul_right _ (by omega)
          have h2 : (2 : ℕ) ^ (nbits + 8) = 256 * 2 ^ nbits := by
            rw [pow_add]
            ring
          omega
        have hfuel1 : 1 ≤ fuel := by
          rcases Nat.eq_zero_or_pos fuel with h | h
          · subst h
            simp only [Nat.sub_self, mul_zero, add_zero] at hfuel
            omega
          · omega
        obtain ⟨t', heq, hge, hbound, htlen⟩ := ih rest (buf + b * 2 ^ nbits) (nbits + 8)
          (fun x hx => hbytes x (List.mem_cons_of_mem _ hx)) hbuf2 hfuel1 (by omega)
          (by
            simp only [List.length_cons] at hav
            omega)
        refine ⟨t' + 1, ?_, by omega, Or.inr (by rcases hbound with h | h <;> omega),
          by simp only [List.length_cons]; omega⟩
        simp only [fillBits, if_pos hlt]
        rw [hlor, heq]
        have hA : buf + b * 2 ^ nbits + 2 ^ (nbits + 8) * den (rest.take t') =
            buf + 2 ^ nbits * den ((b :: rest).take (t' + 1)) := by
          simp only [List.take_succ_cons, den, List.foldr_cons]
          have hp : (2 : ℕ) ^ (nbits + 8) = 2 ^ nbits * 256 := by
            rw [pow_add]
            ring
          rw [hp]
          ring
        rw [hA]
        have hB : nbits + 8 + 8 * t' = nbits + 8 * (t' + 1) := by omega
        rw [hB, List.drop_succ_cons]
    · refine ⟨0, ?_, by omega, Or.inl rfl, by omega⟩
      simp only [fillBits, if_neg hlt, List.take_zero, List.drop_zero]
      simp [den]

/-- Numeric specification of the _bitunpack_es clock loop: from a
consistent buffer state it recovers exactly the packed field values. -/
theorem bitunpackGo_spec :
    ∀ cs : List ClockRec,
      (∀ c ∈ cs, c.z = false → 3 ≤ c.p ∧ ∃ e, c.e = some e) →
      ∀ stream buf nbits junk,
        (∀ b ∈ stream, b < 256) → buf < 2 ^ nbits → nbits < 8 →
        buf + 2 ^ nbits * den stream =
          code (clockItems cs) + 2 ^ totalBits (clockItems cs) * junk →
        totalBits (clockItems cs) ≤ nbits + 8 * stream.length →
        bitunpackGo (cs.map (fun c => (c.p, c.z))) stream buf nbits =
          .ok ((clockItems cs).map Prod.snd) := by
  intro cs
  induction cs with
  | nil =>
    intro _ stream buf nbits junk _ _ _ _ _
    simp [bitunpackGo, clockItems]
  | cons c cs ih =>
    intro hwf stream buf nbits junk hbytes hbuf hn hX htb
    by_cases hz : c.z
    · have hitems : clockItems (c :: cs) = clockItems cs := by
        simp only [clockItems, hz, if_true]
      rw [hitems] at hX htb
      have hrec := ih (fun x hx h => hwf x (List.mem_cons_of_mem _ hx) h)
        stream buf nbits junk hbytes hbuf hn hX htb
      simp only [List.map_cons, bitunpackGo, hz, if_true, hitems]
      exact hrec
    · have hzf : c.z = false := by
        revert hz
        cases c.z <;> simp
      obtain ⟨h3p, e, he⟩ := hwf c (List.mem_cons_self _ _) hzf
      have hwidth : e_bit_width_for_prime c.p = some (bit_length (c.p - 2)) := by
        rw [e_bit_width_for_prime, if_neg (by omega)]
      set w := bit_length (c.p - 2) with hw
      have hitems : clockItems (c :: cs) = (w, e % 2 ^ w) :: clockItems cs := by
        simp only [clockItems, hzf, he]
        simp [← hw]
      rw [hitems] at hX htb
      have hvlt : e % 2 ^ w < 2 ^ w := Nat.mod_lt _ (by positivity)
      have htbc : totalBits ((w, e % 2 ^ w) :: clockItems cs) =
          w + totalBits (clockItems cs) := by
        simp [totalBits]
      rw [htbc] at hX htb
      obtain ⟨t, hfill, hge, hbound, htlen⟩ := fillBits_spec w (w + 1) stream buf nbits
        hbytes hbuf (by omega) (by omega) (by omega)
      have htake : (stream.take t).length = t := by
        rw [List.length_take]
        omega
      have hdtake : den (stream.take t) < 256 ^ t := by
        have := den_lt (stream.take t) (fun b hb => hbytes b (List.mem_of_mem_take hb))
        rw [htake] at this
        exact this
      have hbuf' : buf + 2 ^ nbits * den (stream.take t) < 2 ^ (nbits + 8 * t) := by
        have h1 : (2 : ℕ) ^ (nbits + 8 * t) = 2 ^ nbits * 256 ^ t := by
          rw [pow256, ← pow_add]
        have h2 : 1 ≤ (2 : ℕ) ^ nbits := Nat.one_le_pow _ _ (by norm_num)
        have h3 : 2 ^ nbits * den (stream.take t) ≤ 2 ^ nbits * (256 ^ t - 1) :=
          Nat.mul_le_mul_left _ (by omega)
        have h4 : 1 ≤ (256 : ℕ) ^ t := Nat.one_le_pow _ _ (by norm_num)
        have h5 : 2 ^ nbits * (256 ^ t - 1) = 2 ^ nbits * 256 ^ t - 2 ^ nbits := by
          rw [Nat.mul_sub, mul_one]
        have h6 : (2 : ℕ) ^ nbits ≤ 2 ^ nbits * 256 ^ t :=
          Nat.le_mul_of_pos_right _ (by positivity)
        omega
      have hsplit : buf + 2 ^ nbits * den (stream.take t) +
          2 ^ (nbits + 8 * t) * den (stream.drop t) = buf + 2 ^ nbits * den stream := by
        conv_rhs => rw [← List.take_append_drop t stream]
        rw [den_append, htake]
        have h1 : (2 : ℕ) ^ (nbits + 8 * t) = 2 ^ nbits * 256 ^ t := by
          rw [pow256, ← pow_add]
        rw [h1]
        ring
      set buf' := buf + 2 ^ nbits * den (stream.take t) with hbufdef
      set nbits' := nbits + 8 * t with hnbitsdef
      have hwle : w ≤ nbits' := hge
      have hXeq : buf' + 2 ^ nbits' * den (stream.drop t) =
          e % 2 ^ w + 2 ^ w * (code (clockItems cs) +
            2 ^ totalBits (clockItems cs) * junk) := by
        rw [hsplit, hX]
        simp only [code]
        rw [pow_add]
        ring
      have hmod : buf' % 2 ^ w = e % 2 ^ w := by
        have h1 : (buf' + 2 ^ nbits' * den (stream.drop t)) % 2 ^ w = buf' % 2 ^ w := by
          obtain ⟨q, hq⟩ : (2 : ℕ) ^ w ∣ 2 ^ nbits' * den (stream.drop t) :=
            Dvd.dvd.mul_right (pow_dvd_pow 2 hwle) _
          rw [hq, show buf' + 2 ^ w * q = buf' + q * 2 ^ w by ring]
          exact Nat.add_mul_mod_self_right buf' q (2 ^ w)
        have h2 : (buf' + 2 ^ nbits' * den (stream.drop t)) % 2 ^ w = e % 2 ^ w := by
          rw [hXeq, show e % 2 ^ w + 2 ^ w * (code (clockItems cs) +
            2 ^ totalBits (clockItems cs) * junk) = e % 2 ^ w + (code (clockItems cs) +
            2 ^ totalBits (clockItems cs) * junk) * 2 ^ w by ring,
            Nat.add_mul_mod_self_right]
          exact Nat.mod_eq_of_lt hvlt
        rw [← h1, h2]
      have hnext : buf' / 2 ^ w + 2 ^ (nbits' - w) * den (stream.drop t) =
          code (clockItems cs) + 2 ^ totalBits (clockItems cs) * junk := by
        have hdam := Nat.div_add_mod buf' (2 ^ w)
        rw [hmod] at hdam
        have hpw : (2 : ℕ) ^ nbits' = 2 ^ w * 2 ^ (nbits' - w) := by
          rw [← pow_add]
          congr 1
          omega
        have key : 2 ^ w * (buf' / 2 ^ w + 2 ^ (nbits' - w) * den (stream.drop t)) +
            e % 2 ^ w = e % 2 ^ w + 2 ^ w * (code (clockItems cs) +
              2 ^ totalBits (clockItems cs) * junk) := by
          calc 2 ^ w * (buf' / 2 ^ w + 2 ^ (nbits' - w) * den (stream.drop t)) + e % 2 ^ w
              = (2 ^ w * (buf' / 2 ^ w) + e % 2 ^ w) +
                2 ^ w * 2 ^ (nbits' - w) * den (stream.drop t) := by ring
            _ = buf' + 2 ^ nbits' * den (stream.drop t) := by
                rw [hdam, hpw]
            _ = e % 2 ^ w + 2 ^ w * (code (clockItems cs) +
                2 ^ totalBits (clockItems cs) * junk) := hXeq
        have key2 : 2 ^ w * (buf' / 2 ^ w + 2 ^ (nbits' - w) * den (stream.drop t)) =
            2 ^ w * (code (clockItems cs) + 2 ^ totalBits (clockItems cs) * junk) := by
          omega
        exact Nat.eq_of_mul_eq_mul_left (by positivity) key2
      have hbuf2 : buf' / 2 ^ w < 2 ^ (nbits' - w) := by
        rw [Nat.div_lt_iff_lt_mul (by positivity : 0 < (2 : ℕ) ^ w), ← pow_add]
        have : nbits' - w + w = nbits' := by omega
        rw [this]
        exact hbuf'
      have hn2 : nbits' - w < 8 := by
        rcases hbound with h | h <;> omega
      have hdroplen : (stream.drop t).length = stream.length - t := List.length_drop t stream
      have htb2 : totalBits (clockItems cs) ≤ nbits' - w + 8 * (stream.drop t).length := by
        rw [hdroplen]
        omega
      have hrec := ih (fun x hx h => hwf x (List.mem_cons_of_mem _ hx) h)
        (stream.drop t) (buf' / 2 ^ w) (nbits' - w) junk
        (fun b hb => hbytes b (List.mem_of_mem_drop hb)) hbuf2 hn2 hnext htb2
      rw [hitems]
      simp only [List.map_cons, bitunpackGo, hzf, hwidth, hfill, hrec, hmod]
      simp

theorem div_mod_or (x y r : ℕ) :
    (x ||| y) / 2 ^ r % 2 = 1 ↔ x / 2 ^ r % 2 = 1 ∨ y / 2 ^ r % 2 = 1 := by
  constructor
  · intro h
    have ht : (x ||| y).testBit r = true := by
      rw [Nat.testBit_to_div_mod]
      exact decide_eq_true h
    rw [Nat.testBit_or, Bool.or_eq_true] at ht
    rcases ht with h1 | h1 <;> rw [Nat.testBit_to_div_mod] at h1
    · exact Or.inl (of_decide_eq_true h1)
    · exact Or.inr (of_decide_eq_true h1)
  · intro h
    have ht : (x ||| y).testBit r = true := by
      rw [Nat.testBit_or, Bool.or_eq_true]
      rcases h with h1 | h1
      · exact Or.inl (by rw [Nat.testBit_to_div_mod]; exact decide_eq_true h1)
      · exact Or.inr (by rw [Nat.testBit_to_div_mod]; exact decide_eq_true h1)
    rw [Nat.testBit_to_div_mod] at ht
    exact of_decide_eq_true ht

theorem div_mod_two_pow (n r : ℕ) : 2 ^ n / 2 ^ r % 2 = 1 ↔ n = r := by
  constructor
  · intro h
    by_contra hc
    have hf := Nat.testBit_two_pow_of_ne hc
    rw [Nat.testBit_to_div_mod] at hf
    rw [decide_eq_false_iff_not] at hf
    exact hf h
  · intro h
    subst h
    have ht := Nat.testBit_two_pow_self (n := n)
    rw [Nat.testBit_to_div_mod] at ht
    exact of_decide_eq_true ht

theorem bmBit_replicate (n i : ℕ) : bmBit (List.replicate n 0) i = false := by
  rw [bmBit]
  have hg : (List.replicate n 0).getD (i / 8) 0 = 0 := by
    rw [List.getD_eq_getElem?_getD, List.getElem?_replicate]
    by_cases h : i / 8 < n <;> simp [h]
  rw [hg]
  simp

/-- Setting bit i affects exactly bit i of the bitmap. -/
theorem bmBit_set (bm : List ℕ) (i j : ℕ) (hi : i / 8 < bm.length) :
    bmBit (bitmapSet bm i) j = true ↔ (bmBit bm j = true ∨ j = i) := by
  simp only [bmBit, bitmapSet, decide_eq_true_eq]
  by_cases hb : j / 8 = i / 8
  · rw [hb]
    have hg : (bm.set (i / 8) (bm.getD (i / 8) 0 ||| 2 ^ (i % 8))).getD (i / 8) 0 =
        bm.getD (i / 8) 0 ||| 2 ^ (i % 8) := by
      rw [List.getD_eq_getElem?_getD, List.getElem?_set_self hi]
      rfl
    rw [hg, div_mod_or, div_mod_two_pow]
    constructor
    · rintro (h | h)
      · exact Or.inl h
      · right
        omega
    · rintro (h | h)
      · exact Or.inl h
      · right
        omega
  · have hg : (bm.set (i / 8) (bm.getD (i / 8) 0 ||| 2 ^ (i % 8))).getD (j / 8) 0 =
        bm.getD (j / 8) 0 := by
      rw [List.getD_eq_getElem?_getD, List.getElem?_set_ne (fun hc => hb hc.symm),
        ← List.getD_eq_getElem?_getD]
    rw [hg]
    constructor
    · exact Or.inl
    · rintro (h | h)
      · exact h
      · subst h
        exact absurd rfl hb

/-- The _pack_z_bitmap clock loop: it succeeds when every clock's prime
has an index, keeps the bitmap length, and the final bit j is set exactly
when it was already set or some processed clock with z = true maps to
index j. -/
theorem packZGo_spec (idx : List (ℕ × ℕ)) :
    ∀ cs : List ClockRec, ∀ bm : List ℕ,
      (∀ c ∈ cs, ∃ i, assocGet idx c.p = some i ∧ i / 8 < bm.length) →
      ∃ bm', packZGo idx cs bm = some bm' ∧ bm'.length = bm.length ∧
        ∀ j, bmBit bm' j = true ↔
          (bmBit bm j = true ∨ ∃ c ∈ cs, c.z = true ∧ assocGet idx c.p = some j) := by
  intro cs
  induction cs with
  | nil =>
    intro bm _
    refine ⟨bm, by rw [packZGo], rfl, ?_⟩
    intro j
    simp
  | cons c cs ih =>
    intro bm hidx
    obtain ⟨i, hlook, hilt⟩ := hidx c (List.mem_cons_self _ _)
    by_cases hz : c.z
    · have hlen : (bitmapSet bm i).length = bm.length := by
        rw [bitmapSet, List.length_set]
      obtain ⟨bm', heq, hlen', hbit⟩ := ih (bitmapSet bm i)
        (fun x hx => by
          obtain ⟨ix, h1, h2⟩ := hidx x (List.mem_cons_of_mem _ hx)
          exact ⟨ix, h1, by rw [hlen]; exact h2⟩)
      refine ⟨bm', ?_, by rw [hlen', hlen], ?_⟩
      · rw [packZGo, hlook]
        simp only [hz, if_true]
        exact heq
      · intro j
        rw [hbit j, bmBit_set bm i j hilt]
        constructor
        · rintro ((h | h) | ⟨x, hx, hxz, hxl⟩)
          · exact Or.inl h
          · exact Or.inr ⟨c, List.mem_cons_self _ _, hz, by rw [hlook, h]⟩
          · exact Or.inr ⟨x, List.mem_cons_of_mem _ hx, hxz, hxl⟩
        · rintro (h | ⟨x, hx, hxz, hxl⟩)
          · exact Or.inl (Or.inl h)
          · rcases List.mem_cons.mp hx with hh | ht
            · subst hh
              rw [hlook] at hxl
              exact Or.inl (Or.inr (Option.some.inj hxl).symm)
            · exact Or.inr ⟨x, ht, hxz, hxl⟩
    · obtain ⟨bm', heq, hlen', hbit⟩ := ih bm
        (fun x hx => hidx x (List.mem_cons_of_mem _ hx))
      refine ⟨bm', ?_, hlen', ?_⟩
      · rw [packZGo, hlook]
        simp only [hz, if_false]
        simpa using heq
      · intro j
        rw [hbit j]
        constructor
        · rintro (h | ⟨x, hx, hxz, hxl⟩)
          · exact Or.inl h
          · exact Or.inr ⟨x, List.mem_cons_of_mem _ hx, hxz, hxl⟩
        · rintro (h | ⟨x, hx, hxz, hxl⟩)
          · exact Or.inl h
          · rcases List.mem_cons.mp hx with hh | ht
            · subst hh
              rw [hxz] at hz
              exact absurd rfl hz
            · exact Or.inr ⟨x, ht, hxz, hxl⟩

theorem assocUpd_fresh {β : Type} (m : List (ℕ × β)) (k : ℕ) (v : β)
    (h : ∀ kv ∈ m, kv.1 ≠ k) : assocUpd m k v = m ++ [(k, v)] := by
  rw [assocUpd, if_neg]
  intro hc
  obtain ⟨kv, hkv, hbeq⟩ := List.any_eq_true.mp hc
  exact h kv hkv (beq_iff_eq.mp hbeq)

theorem foldUpd_eq {α β : Type} (key : α → ℕ) (val : α → β) :
    ∀ (l : List α) (m : List (ℕ × β)),
      (∀ a ∈ l, ∀ kv ∈ m, kv.1 ≠ key a) → (l.map key).Nodup →
      l.foldl (fun m a => assocUpd m (key a) (val a)) m =
        m ++ l.map (fun a => (key a, val a)) := by
  intro l
  induction l with
  | nil =>
    intro m _ _
    simp
  | cons x l ih =>
    intro m hfresh hnd
    simp only [List.foldl_cons, List.map_cons]
    rw [assocUpd_fresh m (key x) (val x) (fun kv hkv => hfresh x (List.mem_cons_self _ _) kv hkv)]
    rw [ih (m ++ [(key x, val x)]) ?_ ?_]
    · rw [List.append_assoc]
      rfl
    · intro a ha kv hkv
      rcases List.mem_append.mp hkv with h1 | h2
      · exact hfresh a (List.mem_cons_of_mem _ ha) kv h1
      · rw [List.mem_singleton.mp h2]
        intro hc
        have : key a ∈ l.map key := List.mem_map_of_mem key ha
        rw [← hc] at this
        exact (List.nodup_cons.mp (by simpa using hnd)).1 this
    · exact (List.nodup_cons.mp (by simpa using hnd)).2

theorem assocGet_map_self {α β : Type} (key : α → ℕ) (val : α → β) :
    ∀ l : List α, (l.map key).Nodup → ∀ a ∈ l,
      assocGet (l.map (fun x => (key x, val x))) (key a) = some (val a) := by
  intro l
  induction l with
  | nil =>
    intro _ a ha
    exact absurd ha (List.not_mem_nil a)
  | cons x l ih =>
    intro hnd a ha
    rcases List.mem_cons.mp ha with hh | ht
    · subst hh
      rw [List.map_cons, assocGet, List.find?_cons_of_pos _ (by simp)]
      rfl
    · have hne : key x ≠ key a := by
        intro hc
        have : key a ∈ l.map key := List.mem_map_of_mem key ht
        rw [← hc] at this
        exact (List.nodup_cons.mp (by simpa using hnd)).1 this
      rw [List.map_cons, assocGet, List.find?_cons_of_neg _ (by simp [hne])]
      exact ih (List.nodup_cons.mp (by simpa using hnd)).2 a ht

theorem idxMap_eq (primes : List ℕ) (hnd : primes.Nodup) :
    idxMap primes = primes.enum.map (fun ip => (ip.2, ip.1)) := by
  rw [idxMap]
  have h := foldUpd_eq (Prod.snd : ℕ × ℕ → ℕ) (Prod.fst : ℕ × ℕ → ℕ) primes.enum []
    (by intro a _ kv hkv; exact absurd hkv (List.not_mem_nil kv))
    (by rw [List.enum_map_snd]; exact hnd)
  simpa using h

theorem assocGet_idxMap (primes : List ℕ) (hnd : primes.Nodup)
    (i : ℕ) (hi : i < primes.length) :
    assocGet (idxMap primes) (primes.get ⟨i, hi⟩) = some i := by
  rw [idxMap_eq primes hnd]
  have hmem : (i, primes.get ⟨i, hi⟩) ∈ primes.enum := by
    have hlen : i < primes.enum.length := by
      rw [List.enum_length]
      exact hi
    have hg := List.getElem_enum primes i hlen
    rw [← List.get_eq_getElem primes ⟨i, hi⟩] at hg
    rw [← hg]
    exact List.getElem_mem hlen
  have h := assocGet_map_self (Prod.snd : ℕ × ℕ → ℕ) (Prod.fst : ℕ × ℕ → ℕ) primes.enum
    (by rw [List.enum_map_snd]; exact hnd) (i, primes.get ⟨i, hi⟩) hmem
  simpa using h

theorem byp_get (cs : List ClockRec) (hnd : (cs.map (fun c => c.p)).Nodup) :
    ∀ c ∈ cs, assocGet (cs.foldl (fun m c => assocUpd m c.p c) []) c.p = some c := by
  intro c hc
  have h := foldUpd_eq (fun c : ClockRec => c.p) id cs []
    (by intro a _ kv hkv; exact absurd hkv (List.not_mem_nil kv))
    hnd
  rw [show (fun (m : List (ℕ × ClockRec)) (c : ClockRec) => assocUpd m c.p c) =
    (fun m a => assocUpd m a.p (id a)) by rfl, h]
  simpa using assocGet_map_self (fun c : ClockRec => c.p) id cs hnd c hc

/-- Round-trip of the z bitmap over clocks index-aligned with the dict
primes: packing succeeds and unpacking recovers exactly the z flags. -/
theorem pack_unpack_z (cs : List ClockRec) (hnd : (cs.map (fun c => c.p)).Nodup) :
    ∃ zb, _pack_z_bitmap (cs.map (fun c => c.p)) cs = some zb ∧
      zb.length = (cs.length + 7) / 8 ∧
      _unpack_z_bitmap (cs.map (fun c => c.p)) zb = .ok (cs.map (fun c => c.z)) := by
  set primes := cs.map (fun c => c.p) with hpr
  have hk : primes.length = cs.length := by rw [hpr, List.length_map]
  have hlook : ∀ i, ∀ hi : i < cs.length, assocGet (idxMap primes) (cs.get ⟨i, hi⟩).p = some i := by
    intro i hi
    have h := assocGet_idxMap primes hnd i (by omega)
    have hip : primes.get ⟨i, by omega⟩ = (cs.get ⟨i, hi⟩).p := by
      simp only [List.get_eq_getElem]
      exact List.getElem_map _
    rw [hip] at h
    exact h
  have hhyp : ∀ c ∈ cs, ∃ i, assocGet (idxMap primes) c.p = some i ∧
      i / 8 < (List.replicate ((primes.length + 7) / 8) 0).length := by
    intro c hc
    obtain ⟨i, hi, hceq⟩ := List.getElem_of_mem hc
    refine ⟨i, ?_, ?_⟩
    · have := hlook i hi
      rw [List.get_eq_getElem, hceq] at this
      exact this
    · rw [List.length_replicate]
      omega
  obtain ⟨bm', heq, hlen, hbit⟩ := packZGo_spec (idxMap primes) cs
    (List.replicate ((primes.length + 7) / 8) 0) hhyp
  refine ⟨bm', heq, by rw [hlen, List.length_replicate, hk], ?_⟩
  rw [_unpack_z_bitmap,
    if_neg (by rw [hlen, List.length_replicate]; exact fun hc => hc rfl)]
  congr 1
  apply List.ext_getElem
  · simp [hk]
  · intro j h1 h2
    rw [List.length_map, List.length_range] at h1
    rw [List.length_map] at h2
    rw [List.getElem_map, List.getElem_range, List.getElem_map]
    show bmBit bm' j = (cs.get ⟨j, h2⟩).z
    rw [Bool.eq_iff_iff]
    rw [hbit j, bmBit_replicate]
    constructor
    · rintro (h | ⟨c, hc, hcz, hclook⟩)
      · exact absurd h (by simp)
      · obtain ⟨i, hi, hceq⟩ := List.getElem_of_mem hc
        have hl := hlook i hi
        rw [List.get_eq_getElem, hceq] at hl
        rw [hclook] at hl
        have hij : j = i := Option.some.inj hl
        subst hij
        rw [List.get_eq_getElem, hceq]
        exact hcz
    · intro h
      refine Or.inr ⟨cs.get ⟨j, h2⟩, ?_, h, hlook j h2⟩
      rw [List.get_eq_getElem]
      exact List.getElem_mem h2

/-- Round-trip of the packed exponent stream over index-aligned clocks. -/
theorem pack_unpack_es (cs : List ClockRec)
    (hnd : (cs.map (fun c => c.p)).Nodup)
    (hwf : ∀ c ∈ cs, c.z = false → 3 ≤ c.p ∧ ∃ e, c.e = some e) :
    ∃ es, _bitpack_es (cs.map (fun c => c.p)) cs = some es ∧ (∀ b ∈ es, b < 256) ∧
      es.length = (totalBits (clockItems cs) + 7) / 8 ∧
      _bitunpack_es (cs.map (fun c => c.p)) (cs.map (fun c => c.z)) es =
        .ok ((clockItems cs).map Prod.snd) := by
  have hbyp := byp_get cs hnd
  obtain ⟨out, heq, hden, hlen, hbytes⟩ := bitpackGo_spec
    (cs.foldl (fun m c => assocUpd m c.p c) []) cs hbyp hwf 0 0 (by norm_num) (by norm_num)
  refine ⟨out, ?_, hbytes, by rw [hlen, Nat.zero_add], ?_⟩
  · rw [_bitpack_es]
    exact heq
  · rw [_bitunpack_es]
    have hzip : (cs.map (fun c => c.p)).zip (cs.map (fun c => c.z)) =
        cs.map (fun c => (c.p, c.z)) := List.zip_map' _ _ _
    rw [hzip]
    apply bitunpackGo_spec cs hwf out 0 0 0 hbytes (by norm_num) (by norm_num)
    · simp only [pow_zero, one_mul, zero_add, mul_zero, add_zero] at hden ⊢
      exact hden
    · simp only [pow_zero, zero_add]
      omega

/-- Rebuilding the clock list from z flags and unpacked exponents
recovers the original clocks when each exponent fits its width. -/
theorem buildClocks_roundtrip (cs : List ClockRec)
    (hwf : ∀ c ∈ cs, (c.z = true → c.e = none) ∧
      (c.z = false → 3 ≤ c.p ∧ ∃ e, c.e = some e ∧ e < 2 ^ bit_length (c.p - 2))) :
    buildClocks (cs.map (fun c => (c.p, c.z))) ((clockItems cs).map Prod.snd) = .ok cs := by
  induction cs with
  | nil => simp [buildClocks, clockItems]
  | cons c cs ih =>
    have hc := hwf c (List.mem_cons_self _ _)
    have hrest := fun x hx => hwf x (List.mem_cons_of_mem _ hx)
    by_cases hz : c.z
    · have hce : c.e = none := hc.1 hz
      have hitems : clockItems (c :: cs) = clockItems cs := by
        simp only [clockItems, hz, if_true]
      rw [hitems]
      simp only [List.map_cons, buildClocks, hz, if_true, ih hrest]
      have hcc : (⟨c.p, true, none⟩ : ClockRec) = c := by
        obtain ⟨p, z, e⟩ := c
        simp only [ClockRec.mk.injEq]
        exact ⟨trivial, by simpa using hz.symm, by simpa using hce.symm⟩
      rw [hcc]
    · have hzf : c.z = false := by
        revert hz
        cases c.z <;> simp
      obtain ⟨h3p, e, he, helt⟩ := hc.2 hzf
      have hwfrest : ∀ x ∈ cs, x.z = false → 3 ≤ x.p ∧ ∃ e, x.e = some e := by
        intro x hx hxz
        obtain ⟨h1, e', he', _⟩ := (hrest x hx).2 hxz
        exact ⟨h1, e', he'⟩
      have hitems : clockItems (c :: cs) =
          (bit_length (c.p - 2), e % 2 ^ bit_length (c.p - 2)) :: clockItems cs := by
        simp only [clockItems, hzf, he, Bool.false_eq_true, if_false]
      have hee : e % 2 ^ bit_length (c.p - 2) = e := Nat.mod_eq_of_lt helt
      rw [hitems]
      simp only [List.map_cons, buildClocks, hzf, hee, ih hrest]
      have hcc : (⟨c.p, false, some e⟩ : ClockRec) = c := by
        obtain ⟨p, z, e'⟩ := c
        simp only [ClockRec.mk.injEq]
        exact ⟨trivial, by simpa using hzf.symm, by simpa using he.symm⟩
      simp only [Bool.false_eq_true, if_false]
      rw [hcc]

theorem uleb_len_pos : ∀ fuel n, 0 < fuel → uleb128Go fuel n ≠ [] := by
  intro fuel n h
  match fuel with
  | f + 1 =>
    rw [uleb128Go]
    by_cases h0 : n / 128 = 0
    · rw [if_pos h0]
      exact List.cons_ne_nil _ _
    · rw [if_neg h0]
      exact List.cons_ne_nil _ _

theorem uleb_len_le : ∀ k fuel n, n < fuel → n < 128 ^ k → 0 < k →
    (uleb128Go fuel n).length ≤ k := by
  intro k
  induction k with
  | zero => omega
  | succ k ih =>
    intro fuel n hfuel hn _
    match fuel with
    | f + 1 =>
      rw [uleb128Go]
      by_cases h0 : n / 128 = 0
      · rw [if_pos h0]
        simp only [List.length_singleton]
        omega
      · rw [if_neg h0]
        simp only [List.length_cons]
        have hk0 : 0 < k := by
          rcases Nat.eq_zero_or_pos k with hk | hk
          · subst hk
            norm_num at hn
            omega
          · exact hk
        have hrec : n / 128 < 128 ^ k := by
          rw [Nat.div_lt_iff_lt_mul (by norm_num)]
          calc n < 128 ^ (k + 1) := hn
            _ = 128 ^ k * 128 := by rw [pow_succ]
        have hfuel' : n / 128 < f := by
          have h1 : n / 128 < n := Nat.div_lt_self (by omega) (by norm_num)
          omega
        have := ih f (n / 128) hfuel' hrec hk0
        omega

/-- Decoding a uleb128 encoding (with any suffix appended) returns the
encoded value and the suffix, provided the shift guard is not hit. -/
theorem uleb_decode_encode : ∀ fuel n, n < fuel → ∀ shift acc rest,
    7 * ((uleb128Go fuel n).length - 1) + shift ≤ 70 →
    acc < 2 ^ shift →
    uleb128_decode (uleb128Go fuel n ++ rest) shift acc =
      .ok (acc + n * 2 ^ shift, rest) := by
  intro fuel
  induction fuel with
  | zero => omega
  | succ fuel ih =>
    intro n hn shift acc rest hsh hacc
    rw [uleb128Go]
    by_cases h0 : n / 128 = 0
    · rw [if_pos h0]
      have hnlt : n < 128 := by omega
      have hmod : n % 128 = n := Nat.mod_eq_of_lt hnlt
      rw [hmod, List.cons_append, List.nil_append, uleb128_decode,
        if_pos (by omega : n / 128 % 2 = 0), hmod]
      rw [lor_eq_add shift acc n hacc]
    · rw [if_neg h0]
      rw [uleb128Go, if_neg h0, List.length_cons] at hsh
      have hb : n % 128 ||| 128 = n % 128 + 128 := by
        have h1 : n % 128 < 2 ^ 7 := Nat.mod_lt _ (by norm_num)
        have := lor_eq_add 7 (n % 128) 1 h1
        simpa using this
      have hlenrec : uleb128Go fuel (n / 128) ≠ [] := by
        apply uleb_len_pos
        have := Nat.div_lt_self (show 0 < n by omega) (show 1 < 128 by norm_num)
        omega
      have hlen1 : 1 ≤ (uleb128Go fuel (n / 128)).length := by
        rcases Nat.eq_zero_or_pos (uleb128Go fuel (n / 128)).length with h | h
        · exact absurd (List.eq_nil_of_length_eq_zero h) hlenrec
        · exact h
      have hshift7 : shift + 7 ≤ 70 := by
        omega
      rw [List.cons_append, uleb128_decode, hb,
        if_neg (by omega : ¬(n % 128 + 128) / 128 % 2 = 0),
        if_neg (by omega : ¬70 < shift + 7)]
      have hmod : (n % 128 + 128) % 128 = n % 128 := by omega
      rw [hmod]
      have hacc' : acc ||| n % 128 * 2 ^ shift = acc + n % 128 * 2 ^ shift :=
        lor_eq_add shift acc (n % 128) hacc
      rw [hacc']
      have hacclt : acc + n % 128 * 2 ^ shift < 2 ^ (shift + 7) := by
        have h1 : n % 128 ≤ 127 := by omega
        have h2 : n % 128 * 2 ^ shift ≤ 127 * 2 ^ shift := Nat.mul_le_mul_right _ h1
        have h3 : (2 : ℕ) ^ (shift + 7) = 128 * 2 ^ shift := by
          rw [pow_add]
          ring
        omega
      have hfuel' : n / 128 < fuel := by
        have := Nat.div_lt_self (show 0 < n by omega) (show 1 < 128 by norm_num)
        omega
      have hsh' : 7 * ((uleb128Go fuel (n / 128)).length - 1) + (shift + 7) ≤ 70 := by
        omega
      rw [ih (n / 128) hfuel' (shift + 7) (acc + n % 128 * 2 ^ shift) rest hsh' hacclt]
      have harith : acc + n % 128 * 2 ^ shift + n / 128 * 2 ^ (shift + 7) =
          acc + n * 2 ^ shift := by
        have h3 : (2 : ℕ) ^ (shift + 7) = 2 ^ shift * 128 := by
          rw [pow_add]
          ring
        have hdm := Nat.div_add_mod n 128
        calc acc + n % 128 * 2 ^ shift + n / 128 * 2 ^ (shift + 7)
            = acc + (128 * (n / 128) + n % 128) * 2 ^ shift := by
              rw [h3]
              ring
          _ = acc + n * 2 ^ shift := by rw [hdm]
      rw [harith]

/-- Top-level uleb128 round-trip for values below 2^70 (the decoder's
shift guard allows ten continuation steps). -/
theorem uleb_roundtrip (n : ℕ) (hn : n < 2 ^ 70) (rest : List ℕ) :
    uleb128_decode (uleb128_encode n ++ rest) 0 0 = .ok (n, rest) := by
  rw [uleb128_encode]
  have hlen : (uleb128Go (n + 1) n).length ≤ 11 := by
    apply uleb_len_le 11 (n + 1) n (by omega)
    · calc n < 2 ^ 70 := hn
        _ < 128 ^ 11 := by norm_num
    · norm_num
  have := uleb_decode_encode (n + 1) n (by omega) 0 0 rest (by omega) (by norm_num)
  simpa using this

theorem uleb_bytes_lt : ∀ fuel n, ∀ b ∈ uleb128Go fuel n, b < 256 := by
  intro fuel
  induction fuel with
  | zero =>
    intro n b hb
    exact absurd hb (List.not_mem_nil b)
  | succ fuel ih =>
    intro n b hb
    rw [uleb128Go] at hb
    by_cases h0 : n / 128 = 0
    · rw [if_pos h0] at hb
      rw [List.mem_singleton.mp hb]
      have := Nat.mod_lt n (show 0 < 128 by norm_num)
      omega
    · rw [if_neg h0] at hb
      rcases List.mem_cons.mp hb with hh | ht
      · rw [hh]
        apply Nat.or_lt_two_pow (n := 8)
        · have := Nat.mod_lt n (show 0 < 128 by norm_num)
          omega
        · norm_num
      · exact ih (n / 128) b ht

theorem readLenRaw_enc : ∀ fuel n, n < fuel → ∀ tail,
    readLenRaw (uleb128Go fuel n ++ tail) = .ok (uleb128Go fuel n, tail) := by
  intro fuel
  induction fuel with
  | zero => omega
  | succ fuel ih =>
    intro n hn tail
    rw [uleb128Go]
    by_cases h0 : n / 128 = 0
    · rw [if_pos h0, List.cons_append, List.nil_append, readLenRaw,
        if_pos (by omega : n % 128 / 128 % 2 = 0)]
    · rw [if_neg h0]
      have hb : n % 128 ||| 128 = n % 128 + 128 := by
        have h1 : n % 128 < 2 ^ 7 := Nat.mod_lt _ (by norm_num)
        have := lor_eq_add 7 (n % 128) 1 h1
        simpa using this
      have hfuel' : n / 128 < fuel := by
        have := Nat.div_lt_self (show 0 < n by omega) (show 1 < 128 by norm_num)
        omega
      rw [List.cons_append, readLenRaw, hb,
        if_neg (by omega : ¬(n % 128 + 128) / 128 % 2 = 0), ih (n / 128) hfuel' tail]

/-- One reader iteration over a well-formed written frame: the length
varint is re-read exactly, the payload and CRC are split off, the CRC
always matches, and control dispatches on the frame type. -/
theorem readFrames_frame (base fuel t : ℕ) (payload rest : List ℕ)
    (dicts : List (ℕ × TowerDict)) (sigs : List DecodedSignature)
    (hplen : payload.length < 2 ^ 70) :
    readFramesGo base (fuel + 1) (_write_frame t payload ++ rest) dicts sigs =
      (if t = 127 then .ok (dicts, sigs)
       else if t = 1 then
         match _decode_tower_dict_payload payload with
         | .error e => .error e
         | .ok td => readFramesGo base fuel rest (assocUpd dicts td.dict_id td) sigs
       else if t = 2 then
         match _decode_signature_payload payload base dicts with
         | .error e => .error e
         | .ok ds => readFramesGo base fuel rest dicts (sigs ++ [ds])
       else .error .unknownFrame) := by
  have hform : _write_frame t payload ++ rest =
      t :: (uleb128_encode payload.length ++ (payload ++
        (crc32_be (t :: uleb128_encode payload.length ++ payload) ++ rest))) := by
    simp [_write_frame, List.append_assoc]
  rw [hform]
  have h1 : ∀ tail : List ℕ, readLenRaw (uleb128_encode payload.length ++ tail) =
      .ok (uleb128_encode payload.length, tail) := by
    intro tail
    rw [uleb128_encode]
    exact readLenRaw_enc (payload.length + 1) payload.length (by omega) tail
  have h2 : uleb128_decode (uleb128_encode payload.length) 0 0 = .ok (payload.length, []) := by
    have := uleb_roundtrip payload.length hplen []
    simpa using this
  simp only [readFramesGo, h1, h2]
  have hlen1 : ¬ (payload ++ (crc32_be (t :: uleb128_encode payload.length ++ payload) ++
      rest)).length < payload.length := by
    rw [List.length_append]
    omega
  rw [if_neg hlen1]
  have htake : (payload ++ (crc32_be (t :: uleb128_encode payload.length ++ payload) ++
      rest)).take payload.length = payload := List.take_left payload _
  have hdrop : (payload ++ (crc32_be (t :: uleb128_encode payload.length ++ payload) ++
      rest)).drop payload.length = crc32_be (t :: uleb128_encode payload.length ++ payload) ++
      rest := List.drop_left payload _
  rw [htake, hdrop]
  have hcrclen : (crc32_be (t :: uleb128_encode payload.length ++ payload)).length = 4 := rfl
  have hlen2 : ¬ (crc32_be (t :: uleb128_encode payload.length ++ payload) ++ rest).length
      < 4 := by
    rw [List.length_append, hcrclen]
    omega
  rw [if_neg hlen2]
  have htake4 : (crc32_be (t :: uleb128_encode payload.length ++ payload) ++ rest).take 4 =
      crc32_be (t :: uleb128_encode payload.length ++ payload) := by
    rw [← hcrclen]
    exact List.take_left _ _
  have hdrop4 : (crc32_be (t :: uleb128_encode payload.length ++ payload) ++ rest).drop 4 =
      rest := by
    rw [← hcrclen]
    exact List.drop_left _ _
  rw [htake4, hdrop4, if_neg (by exact fun hc => hc rfl)]

/-- C10: the binary exponent packer silently truncates out-of-range
exponents: for every clock with z = false and exponent e at least
2 ^ bit_length (p - 2), _bitpack_es raises no error, and the packed
stream unpacks to e mod 2 ^ bit_length (p - 2), a value different from e,
so the codec round-trip precondition is never checked at pack time. -/
theorem C10_bitpack_truncates (p e : ℕ) (hp : 3 ≤ p)
    (he : 2 ^ bit_length (p - 2) ≤ e) :
    ∃ stream, _bitpack_es [p] [⟨p, false, some e⟩] = some stream ∧
      _bitunpack_es [p] [false] stream = .ok [e % 2 ^ bit_length (p - 2)] ∧
      e % 2 ^ bit_length (p - 2) ≠ e := by
  obtain ⟨es, h1, _, _, h3⟩ := pack_unpack_es [⟨p, false, some e⟩]
    (by simp) (by
      intro c hc
      simp only [List.mem_singleton] at hc
      subst hc
      intro _
      exact ⟨hp, e, rfl⟩)
  refine ⟨es, ?_, ?_, ?_⟩
  · simpa using h1
  · have hitems : clockItems [⟨p, false, some e⟩] =
        [(bit_length (p - 2), e % 2 ^ bit_length (p - 2))] := by
      simp [clockItems]
    rw [hitems] at h3
    simpa using h3
  · have hpos : 0 < 2 ^ bit_length (p - 2) := Nat.two_pow_pos _
    have := Nat.mod_lt e hpos
    omega

theorem C10_bitpack_truncates_witness :
    (3 ≤ 5 ∧ 2 ^ bit_length (5 - 2) ≤ 7) ∧
    (∃ stream, _bitpack_es [5] [⟨5, false, some 7⟩] = some stream ∧
      _bitunpack_es [5] [false] stream = .ok [7 % 2 ^ bit_length (5 - 2)] ∧
      7 % 2 ^ bit_length (5 - 2) ≠ 7) :=
  ⟨⟨by norm_num, by decide⟩, C10_bitpack_truncates 5 7 (by norm_num) (by decide)⟩

/-- Header acceptance of read_ptcbin with all four flag bits set: magic,
version and the three flag checks pass and control enters the frame
loop. -/
theorem read_ptcbin_header (base : ℕ) (hbase : base < 16) (rest : List ℕ) :
    read_ptcbin (80 :: 84 :: 67 :: (16 + base) :: 15 :: rest) =
      (match readFramesGo base (rest.length + 1) rest [] [] with
       | .error e => .error e
       | .ok (dicts, sigs) => .ok ⟨⟨1, base, 15⟩, dicts, sigs⟩) := by
  have e1 : (16 + base) / 16 % 16 = 1 := by omega
  have e2 : (16 + base) % 16 = base := by omega
  simp only [read_ptcbin, VERSION, e1, e2]
  norm_num

/-- C4 (amended): read_ptcbin hard-fails with the corresponding error
when the has-length-prefix flag bit, the has-CRC32 flag bit or the
bit-packed-exponents flag bit is clear; the delta-encoded-prime-lists
bit is never examined, so only three of the four feature flags are
validated. -/
theorem C4_flag_validation_three_of_four (base flags : ℕ) (rest : List ℕ)
    (hbase : base < 16)
    (hmiss : flags / 2 % 2 = 0 ∨ flags % 2 = 0 ∨ flags / 4 % 2 = 0) :
    read_ptcbin (80 :: 84 :: 67 :: (16 + base) :: flags :: rest) = .error .noLength ∨
    read_ptcbin (80 :: 84 :: 67 :: (16 + base) :: flags :: rest) = .error .noCRC32 ∨
    read_ptcbin (80 :: 84 :: 67 :: (16 + base) :: flags :: rest) = .error .noBitpackE := by
  have e1 : (16 + base) / 16 % 16 = 1 := by omega
  simp only [read_ptcbin, VERSION, e1]
  by_cases h1 : flags / 2 % 2 = 0
  · left
    rw [if_neg (by norm_num), if_neg (by norm_num), if_pos h1]
  · by_cases h2 : flags % 2 = 0
    · right; left
      rw [if_neg (by norm_num), if_neg (by norm_num), if_neg h1, if_pos h2]
    · right; right
      have h3 : flags / 4 % 2 = 0 := by tauto
      rw [if_neg (by norm_num), if_neg (by norm_num), if_neg h1, if_neg h2, if_pos h3]

theorem C4_flag_validation_three_of_four_witness :
    ((0 : ℕ) < 16 ∧ ((0 : ℕ) / 2 % 2 = 0 ∨ (0 : ℕ) % 2 = 0 ∨ (0 : ℕ) / 4 % 2 = 0)) ∧
    (read_ptcbin (80 :: 84 :: 67 :: (16 + 0) :: 0 :: []) = .error .noLength ∨
     read_ptcbin (80 :: 84 :: 67 :: (16 + 0) :: 0 :: []) = .error .noCRC32 ∨
     read_ptcbin (80 :: 84 :: 67 :: (16 + 0) :: 0 :: []) = .error .noBitpackE) :=
  ⟨⟨by norm_num, Or.inl (by norm_num)⟩,
    C4_flag_validation_three_of_four 0 0 [] (by norm_num) (Or.inl (by norm_num))⟩

/-- C4 counterexample: a file whose header clears the
delta-encoded-prime-lists flag bit (flags = 7, bit 3 = 0) is decoded
successfully, refuting the claim that all four feature flags are
required. -/
theorem C4_counterexample_delta_flag_unchecked :
    7 / 8 % 2 = 0 ∧
    read_ptcbin ([80, 84, 67, 16, 7] ++ _write_frame 127 []) =
      .ok ⟨⟨1, 0, 7⟩, [], []⟩ :=
  ⟨by decide, by rfl⟩

theorem crc32Bit_lt (c : ℕ) (hc : c < 2 ^ 32) : crc32Bit c < 2 ^ 32 := by
  rw [crc32Bit]
  by_cases h : c % 2 = 1
  · rw [if_pos h]
    exact Nat.xor_lt_two_pow (by omega) (by norm_num)
  · rw [if_neg h]
    omega

theorem crc32Bit_inj (c1 c2 : ℕ) (h1 : c1 < 2 ^ 32) (h2 : c2 < 2 ^ 32)
    (heq : crc32Bit c1 = crc32Bit c2) : c1 = c2 := by
  have hodd : ∀ c : ℕ, c < 2 ^ 32 → c % 2 = 1 → 2 ^ 31 ≤ crc32Bit c := by
    intro c hc hco
    rw [crc32Bit, if_pos hco]
    apply Nat.testBit_implies_ge
    rw [Nat.testBit_xor]
    rw [Nat.testBit_lt_two_pow (show c / 2 < 2 ^ 31 by omega)]
    decide
  have heven : ∀ c : ℕ, c < 2 ^ 32 → ¬ c % 2 = 1 → crc32Bit c < 2 ^ 31 := by
    intro c hc hco
    rw [crc32Bit, if_neg hco]
    omega
  by_cases ho1 : c1 % 2 = 1 <;> by_cases ho2 : c2 % 2 = 1
  · rw [crc32Bit, if_pos ho1, crc32Bit, if_pos ho2] at heq
    have := Nat.xor_left_inj.mp heq
    omega
  · have ha := hodd c1 h1 ho1
    have hb := heven c2 h2 ho2
    rw [heq] at ha
    omega
  · have ha := hodd c2 h2 ho2
    have hb := heven c1 h1 ho1
    rw [← heq] at ha
    omega
  · rw [crc32Bit, if_neg ho1, crc32Bit, if_neg ho2] at heq
    omega

theorem crc32Bit8_inj (x y : ℕ) (hx : x < 2 ^ 32) (hy : y < 2 ^ 32)
    (heq :
      crc32Bit (crc32Bit (crc32Bit (crc32Bit (crc32Bit (crc32Bit (crc32Bit (crc32Bit x))))))) =
      crc32Bit (crc32Bit (crc32Bit (crc32Bit (crc32Bit (crc32Bit (crc32Bit (crc32Bit y)))))))) :
    x = y := by
  apply crc32Bit_inj x y hx hy
  apply crc32Bit_inj _ _ (crc32Bit_lt _ hx) (crc32Bit_lt _ hy)
  apply crc32Bit_inj _ _ (crc32Bit_lt _ (crc32Bit_lt _ hx)) (crc32Bit_lt _ (crc32Bit_lt _ hy))
  apply crc32Bit_inj _ _ (crc32Bit_lt _ (crc32Bit_lt _ (crc32Bit_lt _ hx)))
    (crc32Bit_lt _ (crc32Bit_lt _ (crc32Bit_lt _ hy)))
  apply crc32Bit_inj _ _ (crc32Bit_lt _ (crc32Bit_lt _ (crc32Bit_lt _ (crc32Bit_lt _ hx))))
    (crc32Bit_lt _ (crc32Bit_lt _ (crc32Bit_lt _ (crc32Bit_lt _ hy))))
  apply crc32Bit_inj _ _
    (crc32Bit_lt _ (crc32Bit_lt _ (crc32Bit_lt _ (crc32Bit_lt _ (crc32Bit_lt _ hx)))))
    (crc32Bit_lt _ (crc32Bit_lt _ (crc32Bit_lt _ (crc32Bit_lt _ (crc32Bit_lt _ hy)))))
  apply crc32Bit_inj _ _
    (crc32Bit_lt _ (crc32Bit_lt _ (crc32Bit_lt _ (crc32Bit_lt _ (crc32Bit_lt _
      (crc32Bit_lt _ hx))))))
    (crc32Bit_lt _ (crc32Bit_lt _ (crc32Bit_lt _ (crc32Bit_lt _ (crc32Bit_lt _
      (crc32Bit_lt _ hy))))))
  apply crc32Bit_inj _ _
    (crc32Bit_lt _ (crc32Bit_lt _ (crc32Bit_lt _ (crc32Bit_lt _ (crc32Bit_lt _
      (crc32Bit_lt _ (crc32Bit_lt _ hx)))))))
    (crc32Bit_lt _ (crc32Bit_lt _ (crc32Bit_lt _ (crc32Bit_lt _ (crc32Bit_lt _
      (crc32Bit_lt _ (crc32Bit_lt _ hy)))))))
  exact heq

theorem crc32Byte_lt (c b : ℕ) (hc : c < 2 ^ 32) (hb : b < 2 ^ 32) :
    crc32Byte c b < 2 ^ 32 := by
  rw [crc32Byte]
  have h0 : c ^^^ b < 2 ^ 32 := Nat.xor_lt_two_pow hc hb
  exact crc32Bit_lt _ (crc32Bit_lt _ (crc32Bit_lt _ (crc32Bit_lt _ (crc32Bit_lt _
    (crc32Bit_lt _ (crc32Bit_lt _ (crc32Bit_lt _ h0)))))))

theorem crc32Byte_inj (c1 c2 b1 b2 : ℕ) (h1 : c1 < 2 ^ 32) (h2 : c2 < 2 ^ 32)
    (hb1 : b1 < 2 ^ 32) (hb2 : b2 < 2 ^ 32)
    (heq : crc32Byte c1 b1 = crc32Byte c2 b2) : c1 ^^^ b1 = c2 ^^^ b2 := by
  rw [crc32Byte, crc32Byte] at heq
  exact crc32Bit8_inj _ _ (Nat.xor_lt_two_pow h1 hb1) (Nat.xor_lt_two_pow h2 hb2) heq

theorem foldl_crc_lt : ∀ l : List ℕ, (∀ b ∈ l, b < 2 ^ 32) → ∀ c, c < 2 ^ 32 →
    l.foldl crc32Byte c < 2 ^ 32 := by
  intro l
  induction l with
  | nil => intro _ c hc; simpa using hc
  | cons b l ih =>
    intro hl c hc
    rw [List.foldl_cons]
    exact ih (fun x hx => hl x (List.mem_cons_of_mem _ hx))
      _ (crc32Byte_lt c b hc (hl b (List.mem_cons_self _ _)))

theorem foldl_crc_state_inj : ∀ l : List ℕ, (∀ b ∈ l, b < 2 ^ 32) →
    ∀ c1 c2, c1 < 2 ^ 32 → c2 < 2 ^ 32 → c1 ≠ c2 →
    l.foldl crc32Byte c1 ≠ l.foldl crc32Byte c2 := by
  intro l
  induction l with
  | nil => intro _ c1 c2 _ _ hne; simpa using hne
  | cons b l ih =>
    intro hl c1 c2 h1 h2 hne
    rw [List.foldl_cons, List.foldl_cons]
    have hb : b < 2 ^ 32 := hl b (List.mem_cons_self _ _)
    apply ih (fun x hx => hl x (List.mem_cons_of_mem _ hx))
      _ _ (crc32Byte_lt c1 b h1 hb) (crc32Byte_lt c2 b h2 hb)
    intro hcc
    exact hne (Nat.xor_left_inj.mp (crc32Byte_inj _ _ _ _ h1 h2 hb hb hcc))

/-- CRC32 detects every single-byte change: two equal-length byte lists
that differ in exactly one position have different CRC32 values. -/
theorem crc32_single_byte_ne (pre post : List ℕ) (b1 b2 : ℕ)
    (hpre : ∀ x ∈ pre, x < 2 ^ 32) (hpost : ∀ x ∈ post, x < 2 ^ 32)
    (hb1 : b1 < 2 ^ 32) (hb2 : b2 < 2 ^ 32) (hne : b1 ≠ b2) :
    crc32 (pre ++ b1 :: post) ≠ crc32 (pre ++ b2 :: post) := by
  rw [crc32, crc32]
  intro h
  have h2 : (pre ++ b1 :: post).foldl crc32Byte 0xFFFFFFFF =
      (pre ++ b2 :: post).foldl crc32Byte 0xFFFFFFFF := Nat.xor_left_inj.mp h
  rw [List.foldl_append, List.foldl_append, List.foldl_cons, List.foldl_cons] at h2
  have hs : pre.foldl crc32Byte 0xFFFFFFFF < 2 ^ 32 :=
    foldl_crc_lt pre hpre _ (by norm_num)
  exact foldl_crc_state_inj post hpost _ _ (crc32Byte_lt _ _ hs hb1)
    (crc32Byte_lt _ _ hs hb2)
    (fun hcc => hne (Nat.xor_right_inj.mp (crc32Byte_inj _ _ _ _ hs hs hb1 hb2 hcc))) h2

theorem crc32_lt (l : List ℕ) (hl : ∀ b ∈ l, b < 2 ^ 32) : crc32 l < 2 ^ 32 :=
  Nat.xor_lt_two_pow (foldl_crc_lt l hl _ (by norm_num)) (by norm_num)

/-- Different CRC32 values give different big-endian CRC byte strings. -/
theorem crc32_be_ne (x y : List ℕ) (hx : ∀ b ∈ x, b < 2 ^ 32)
    (hy : ∀ b ∈ y, b < 2 ^ 32) (hne : crc32 x ≠ crc32 y) :
    crc32_be x ≠ crc32_be y := by
  intro h
  rw [crc32_be, crc32_be] at h
  have hx' := crc32_lt x hx
  have hy' := crc32_lt y hy
  simp only [List.cons.injEq, and_true] at h
  obtain ⟨e1, e2, e3, e4⟩ := h
  exact hne (by omega)

/-- A single-byte change in a written frame's type byte or in its payload
(with the length varint and the CRC trailer intact) makes the frame loop
fail with the CRC-mismatch error. -/
theorem frame_corrupt_crcMismatch (base fuel t t' b1 b2 : ℕ)
    (pre post rest : List ℕ) (dicts : List (ℕ × TowerDict))
    (sigs : List DecodedSignature)
    (hplen : (pre ++ b1 :: post).length < 2 ^ 70)
    (ht : t < 2 ^ 32) (ht' : t' < 2 ^ 32) (hb1 : b1 < 2 ^ 32) (hb2 : b2 < 2 ^ 32)
    (hpre : ∀ x ∈ pre, x < 2 ^ 32) (hpost : ∀ x ∈ post, x < 2 ^ 32)
    (hone : (t' ≠ t ∧ b1 = b2) ∨ (t' = t ∧ b1 ≠ b2)) :
    readFramesGo base (fuel + 1)
      (t' :: (uleb128_encode (pre ++ b1 :: post).length ++ ((pre ++ b2 :: post) ++
        (crc32_be (t :: uleb128_encode (pre ++ b1 :: post).length ++ (pre ++ b1 :: post)) ++
          rest)))) dicts sigs = .error .crcMismatch := by
  have h1 : ∀ tail : List ℕ,
      readLenRaw (uleb128_encode (pre ++ b1 :: post).length ++ tail) =
      .ok (uleb128_encode (pre ++ b1 :: post).length, tail) := by
    intro tail
    rw [uleb128_encode]
    exact readLenRaw_enc ((pre ++ b1 :: post).length + 1) (pre ++ b1 :: post).length
      (by omega) tail
  have h2 : uleb128_decode (uleb128_encode (pre ++ b1 :: post).length) 0 0 =
      .ok ((pre ++ b1 :: post).length, []) := by
    have := uleb_roundtrip (pre ++ b1 :: post).length hplen []
    simpa using this
  simp only [readFramesGo, h1, h2]
  have hlen12 : (pre ++ b2 :: post).length = (pre ++ b1 :: post).length := by
    simp
  have hlen1 : ¬ ((pre ++ b2 :: post) ++
      (crc32_be (t :: uleb128_encode (pre ++ b1 :: post).length ++ (pre ++ b1 :: post)) ++
        rest)).length < (pre ++ b1 :: post).length := by
    rw [List.length_append, hlen12]
    omega
  rw [if_neg hlen1]
  have htake : ((pre ++ b2 :: post) ++
      (crc32_be (t :: uleb128_encode (pre ++ b1 :: post).length ++ (pre ++ b1 :: post)) ++
        rest)).take (pre ++ b1 :: post).length = pre ++ b2 :: post := by
    rw [← hlen12]
    exact List.take_left _ _
  have hdrop : ((pre ++ b2 :: post) ++
      (crc32_be (t :: uleb128_encode (pre ++ b1 :: post).length ++ (pre ++ b1 :: post)) ++
        rest)).drop (pre ++ b1 :: post).length =
      crc32_be (t :: uleb128_encode (pre ++ b1 :: post).length ++ (pre ++ b1 :: post)) ++
        rest := by
    rw [← hlen12]
    exact List.drop_left _ _
  rw [htake, hdrop]
  have hcrclen : (crc32_be (t :: uleb128_encode (pre ++ b1 :: post).length ++
      (pre ++ b1 :: post))).length = 4 := rfl
  rw [if_neg (by rw [List.length_append, hcrclen]; omega)]
  have htake4 : (crc32_be (t :: uleb128_encode (pre ++ b1 :: post).length ++
      (pre ++ b1 :: post)) ++ rest).take 4 =
      crc32_be (t :: uleb128_encode (pre ++ b1 :: post).length ++ (pre ++ b1 :: post)) := by
    rw [← hcrclen]
    exact List.take_left _ _
  rw [htake4]
  have hencb : ∀ x ∈ uleb128_encode (pre ++ b1 :: post).length, x < 2 ^ 32 := by
    intro x hx
    have := uleb_bytes_lt _ _ x hx
    omega
  have hmem : ∀ (h0 pb : ℕ), h0 < 2 ^ 32 → pb < 2 ^ 32 →
      ∀ x ∈ h0 :: uleb128_encode (pre ++ b1 :: post).length ++ (pre ++ pb :: post),
        x < 2 ^ 32 := by
    intro h0 pb hh hpb x hx
    rcases List.mem_cons.mp hx with h | h
    · rw [h]; exact hh
    rcases List.mem_append.mp h with h | h
    · exact hencb x h
    rcases List.mem_append.mp h with h | h
    · exact hpre x h
    rcases List.mem_cons.mp h with h | h
    · rw [h]; exact hpb
    · exact hpost x h
  have hcond : crc32_be (t' :: uleb128_encode (pre ++ b1 :: post).length ++
      (pre ++ b2 :: post)) ≠
      crc32_be (t :: uleb128_encode (pre ++ b1 :: post).length ++ (pre ++ b1 :: post)) := by
    rcases hone with ⟨hne, hbb⟩ | ⟨heq, hbb⟩
    · subst hbb
      apply crc32_be_ne _ _ (hmem t' b1 ht' hb1) (hmem t b1 ht hb1)
      have := crc32_single_byte_ne []
        (uleb128_encode (pre ++ b1 :: post).length ++ (pre ++ b1 :: post)) t' t
        (by simp)
        (by intro x hx; exact hmem t b1 ht hb1 x (List.mem_cons_of_mem _ hx))
        ht' ht hne
      simpa using this
    · subst heq
      have hre : ∀ b : ℕ,
          t' :: uleb128_encode (pre ++ b1 :: post).length ++ (pre ++ b :: post) =
          (t' :: uleb128_encode (pre ++ b1 :: post).length ++ pre) ++ b :: post := by
        intro b
        simp [List.append_assoc]
      have hcr : crc32 ((t' :: uleb128_encode (pre ++ b1 :: post).length ++ pre) ++
          b2 :: post) ≠
          crc32 ((t' :: uleb128_encode (pre ++ b1 :: post).length ++ pre) ++
          b1 :: post) := by
        apply crc32_single_byte_ne _ post b2 b1 ?_ hpost hb2 hb1 (fun h => hbb h.symm)
        intro x hx
        rcases List.mem_cons.mp hx with h | h
        · rw [h]; exact ht'
        rcases List.mem_append.mp h with h | h
        · exact hencb x h
        · exact hpre x h
      rw [← hre b2, ← hre b1] at hcr
      exact crc32_be_ne _ _ (hmem t' b2 ht' hb2) (hmem t' b1 ht' hb1) hcr
  rw [if_pos hcond]

/-- C5 (amended): a file with a well-formed header whose first frame
suffered a single-byte change in its type byte or in a payload byte (the
length varint and the 4 CRC trailer bytes intact) is rejected by
read_ptcbin with the CRC-mismatch error.  A change inside the length
varint can fail differently (see the counterexample). -/
theorem C5_single_byte_corruption_detected (base t t' b1 b2 : ℕ)
    (pre post rest : List ℕ)
    (hbase : base < 16)
    (hplen : (pre ++ b1 :: post).length < 2 ^ 70)
    (ht : t < 2 ^ 32) (ht' : t' < 2 ^ 32) (hb1 : b1 < 2 ^ 32) (hb2 : b2 < 2 ^ 32)
    (hpre : ∀ x ∈ pre, x < 2 ^ 32) (hpost : ∀ x ∈ post, x < 2 ^ 32)
    (hone : (t' ≠ t ∧ b1 = b2) ∨ (t' = t ∧ b1 ≠ b2)) :
    read_ptcbin (80 :: 84 :: 67 :: (16 + base) :: 15 ::
      (t' :: (uleb128_encode (pre ++ b1 :: post).length ++ ((pre ++ b2 :: post) ++
        (crc32_be (t :: uleb128_encode (pre ++ b1 :: post).length ++ (pre ++ b1 :: post)) ++
          rest))))) = .error .crcMismatch := by
  rw [read_ptcbin_header base hbase,
    frame_corrupt_crcMismatch base
      ((t' :: (uleb128_encode (pre ++ b1 :: post).length ++ ((pre ++ b2 :: post) ++
        (crc32_be (t :: uleb128_encode (pre ++ b1 :: post).length ++ (pre ++ b1 :: post)) ++
          rest)))).length) t t' b1 b2 pre post rest [] []
      hplen ht ht' hb1 hb2 hpre hpost hone]

theorem C5_single_byte_corruption_detected_witness :
    ((0 : ℕ) < 16 ∧ (([] : List ℕ) ++ 5 :: []).length < 2 ^ 70 ∧
      (2 : ℕ) < 2 ^ 32 ∧ (3 : ℕ) < 2 ^ 32 ∧ (5 : ℕ) < 2 ^ 32 ∧
      ((3 : ℕ) ≠ 2 ∧ (5 : ℕ) = 5)) ∧
    read_ptcbin (80 :: 84 :: 67 :: (16 + 0) :: 15 ::
      (3 :: (uleb128_encode (([] : List ℕ) ++ 5 :: []).length ++ ((([] : List ℕ) ++ 5 :: []) ++
        (crc32_be (2 :: uleb128_encode (([] : List ℕ) ++ 5 :: []).length ++
          (([] : List ℕ) ++ 5 :: [])) ++ ([] : List ℕ)))))) = .error .crcMismatch :=
  ⟨⟨by norm_num, by norm_num, by norm_num, by norm_num, by norm_num, by norm_num, rfl⟩,
    C5_single_byte_corruption_detected 0 2 3 5 5 [] [] [] (by norm_num) (by norm_num)
      (by norm_num) (by norm_num) (by norm_num) (by norm_num)
      (by simp) (by simp) (Or.inl ⟨by norm_num, rfl⟩)⟩

/-- C5 counterexample: corrupting the length-varint byte of the END frame
(0 -> 4) makes read_ptcbin fail with the end-of-file error, not the
CRC-mismatch error, refuting the claim for single-byte changes inside a
frame's length varint. -/
theorem C5_counterexample_length_byte_not_crc :
    read_ptcbin ([80, 84, 67, 16, 15] ++ _write_frame 127 []) = .ok ⟨⟨1, 0, 15⟩, [], []⟩ ∧
    _write_frame 127 [] = [127, 0] ++ crc32_be [127, 0] ∧
    read_ptcbin ([80, 84, 67, 16, 15] ++ [127, 4] ++ crc32_be [127, 0]) = .error .eof ∧
    PTCBinError.eof ≠ PTCBinError.crcMismatch :=
  ⟨by rfl, by rfl, by rfl, by decide⟩

theorem bitLenGo_le : ∀ fuel n k, n < fuel → n < 2 ^ k → bitLenGo fuel n ≤ k := by
  intro fuel
  induction fuel with
  | zero => intro n k h _; omega
  | succ fuel ih =>
    intro n k hf hn
    rw [bitLenGo]
    by_cases h0 : n = 0
    · rw [if_pos h0]
      omega
    · rw [if_neg h0]
      have hk : k ≠ 0 := by
        intro hc
        subst hc
        norm_num at hn
        omega
      have hpow : 2 ^ k = 2 ^ (k - 1) * 2 := by
        rw [← pow_succ]
        congr 1
        omega
      have h2 : n / 2 < 2 ^ (k - 1) := by
        rw [hpow] at hn
        omega
      have := ih (n / 2) (k - 1) (by omega) h2
      omega

theorem bit_length_le (n k : ℕ) (h : n < 2 ^ k) : bit_length n ≤ k :=
  bitLenGo_le (n + 1) n k (by omega) h

theorem totalBits_le (w : ℕ) : ∀ cs : List ClockRec, (∀ c ∈ cs, c.p < 2 ^ w) →
    totalBits (clockItems cs) ≤ w * cs.length := by
  intro cs
  induction cs with
  | nil => intro _; simp [clockItems, totalBits]
  | cons c cs ih =>
    intro h
    have hc := h c (List.mem_cons_self _ _)
    have hrest := ih (fun x hx => h x (List.mem_cons_of_mem _ hx))
    rw [clockItems]
    by_cases hz : c.z
    · rw [if_pos hz]
      calc totalBits (clockItems cs) ≤ w * cs.length := hrest
        _ ≤ w * (c :: cs).length := Nat.mul_le_mul_left w (by simp [List.length_cons])
    · rw [if_neg hz]
      cases he : c.e with
      | none =>
        calc totalBits (clockItems cs) ≤ w * cs.length := hrest
          _ ≤ w * (c :: cs).length := Nat.mul_le_mul_left w (by simp [List.length_cons])
      | some e =>
        have hbl : bit_length (c.p - 2) ≤ w := bit_length_le _ _ (by omega)
        have hsum : totalBits ((bit_length (c.p - 2), e % 2 ^ bit_length (c.p - 2)) ::
            clockItems cs) = bit_length (c.p - 2) + totalBits (clockItems cs) := by
          simp [totalBits]
        rw [hsum, List.length_cons, Nat.mul_succ]
        omega

theorem mkTowerDict_ok (td : TowerDict) (h0 : td.dict_id ≠ 0)
    (hne : td.primes ≠ []) (hsort : td.primes.Sorted (· ≤ ·))
    (h3 : ∀ p ∈ td.primes, 3 ≤ p) :
    mkTowerDict td.dict_id td.primes = some td := by
  rw [mkTowerDict, if_neg h0, if_neg hne,
    if_neg (by
      rw [List.Sorted.insertionSort_eq hsort]
      exact fun h => h rfl),
    if_neg (by
      simp only [List.any_eq_true, decide_eq_true_eq]
      rintro ⟨p, hp, hlt⟩
      have := h3 p hp
      omega)]

theorem zip_chain_le : ∀ (ps : List ℕ) (cur : ℕ), List.Chain (· ≤ ·) cur ps →
    ∀ ab ∈ ps.zip (cur :: ps), ab.2 ≤ ab.1 := by
  intro ps
  induction ps with
  | nil => intro cur _ ab hab; exact absurd hab (List.not_mem_nil _)
  | cons q ps ih =>
    intro cur hch ab hab
    cases hch with
    | cons hle hch' =>
      rw [List.zip_cons_cons] at hab
      rcases List.mem_cons.mp hab with h | h
      · rw [h]
        exact hle
      · exact ih q hch' ab h

theorem deltaDecGo_zip : ∀ (ps : List ℕ) (cur : ℕ), List.Chain (· ≤ ·) cur ps →
    deltaDecGo cur ((ps.zip (cur :: ps)).map (fun ab => ab.1 - ab.2)) = ps := by
  intro ps
  induction ps with
  | nil => intro cur _; rfl
  | cons q ps ih =>
    intro cur hch
    cases hch with
    | cons hle hch' =>
      rw [List.zip_cons_cons, List.map_cons]
      simp only [deltaDecGo]
      rw [show cur + (q - cur) = q by omega]
      rw [ih q hch']

theorem int_deltas_toNat (ps : List ℕ) (cur : ℕ) :
    ((ps.zip (cur :: ps)).map (fun ab => (ab.1 : ℤ) - (ab.2 : ℤ))).map Int.toNat =
    (ps.zip (cur :: ps)).map (fun ab => ab.1 - ab.2) := by
  rw [List.map_map]
  apply List.map_congr_left
  intro ab _
  simp [Int.toNat_sub]

theorem uleb_encode_len_le (n : ℕ) (hn : n < 2 ^ 70) :
    (uleb128_encode n).length ≤ 10 := by
  rw [uleb128_encode]
  apply uleb_len_le 10 (n + 1) n (by omega)
  · calc n < 2 ^ 70 := hn
      _ ≤ 128 ^ 10 := by norm_num
  · norm_num

theorem encodeDeltas_some : ∀ xs : List ℤ, (∀ x ∈ xs, 0 ≤ x ∧ x.toNat < 2 ^ 70) →
    ∃ out, encodeDeltas xs = some out ∧ out.length ≤ 10 * xs.length := by
  intro xs
  induction xs with
  | nil => intro _; exact ⟨[], rfl, by simp⟩
  | cons x xs ih =>
    intro h
    obtain ⟨out, hout, hlen⟩ := ih (fun y hy => h y (List.mem_cons_of_mem _ hy))
    have hx := h x (List.mem_cons_self _ _)
    refine ⟨uleb128_encode x.toNat ++ out, ?_, ?_⟩
    · simp only [encodeDeltas, if_neg (show ¬ x < 0 by omega), hout]
    · rw [List.length_append, List.length_cons]
      have hu : (uleb128_encode x.toNat).length ≤ 10 := uleb_encode_len_le _ hx.2
      rw [Nat.mul_succ]
      omega

theorem readKVarints_encodeDeltas : ∀ xs : List ℤ,
    (∀ x ∈ xs, 0 ≤ x ∧ x.toNat < 2 ^ 70) →
    ∀ dbytes, encodeDeltas xs = some dbytes →
    ∀ tail, readKVarints xs.length (dbytes ++ tail) = .ok (xs.map Int.toNat, tail) := by
  intro xs
  induction xs with
  | nil =>
    intro _ dbytes hd tail
    have hdb : dbytes = [] := by
      simp only [encodeDeltas] at hd
      exact (Option.some.inj hd).symm
    subst hdb
    rfl
  | cons x xs ih =>
    intro h dbytes hd tail
    simp only [encodeDeltas,
      if_neg (show ¬ x < 0 by have := (h x (List.mem_cons_self _ _)).1; omega)] at hd
    cases hrec : encodeDeltas xs with
    | none =>
      rw [hrec] at hd
      exact Option.noConfusion hd
    | some rest =>
      rw [hrec] at hd
      have hdb : dbytes = uleb128_encode x.toNat ++ rest := (Option.some.inj hd).symm
      subst hdb
      have huleb : uleb128_decode (uleb128_encode x.toNat ++ (rest ++ tail)) 0 0 =
          .ok (x.toNat, rest ++ tail) :=
        uleb_roundtrip x.toNat (h x (List.mem_cons_self _ _)).2 (rest ++ tail)
      have hih := ih (fun y hy => h y (List.mem_cons_of_mem _ hy)) rest hrec tail
      simp only [List.length_cons, readKVarints, List.append_assoc, huleb, hih,
        List.map_cons]

/-- Round-trip of a TOWER_DICT frame payload: encoding a well-formed dict
succeeds, the payload is bounded, and decoding recovers the dict. -/
theorem dict_payload_roundtrip (td : TowerDict)
    (h0 : td.dict_id ≠ 0) (hid : td.dict_id < 2 ^ 60)
    (hne : td.primes ≠ []) (hk : td.primes.length < 2 ^ 60)
    (hp3 : ∀ p ∈ td.primes, 3 ≤ p) (hplt : ∀ p ∈ td.primes, p < 2 ^ 60)
    (hsort : td.primes.Sorted (· ≤ ·)) :
    ∃ payload, encodeDictPayload td = some payload ∧ payload.length < 2 ^ 70 ∧
      _decode_tower_dict_payload payload = .ok td := by
  obtain ⟨p0, ps, hps⟩ : ∃ p0 ps, td.primes = p0 :: ps := by
    cases hpr : td.primes with
    | nil => exact absurd hpr hne
    | cons a l => exact ⟨a, l, rfl⟩
  have hchain : List.Chain (· ≤ ·) p0 ps := by
    have hs := hsort
    rw [hps] at hs
    exact List.chain_iff_pairwise.mpr hs
  set xs : List ℤ :=
    (p0 : ℤ) :: (ps.zip (p0 :: ps)).map (fun ab => (ab.1 : ℤ) - (ab.2 : ℤ)) with hxs
  have hdel : delta_encode_primes td.primes = some xs := by
    rw [hps]
    rfl
  have hp0lt : p0 < 2 ^ 60 := hplt p0 (by rw [hps]; exact List.mem_cons_self _ _)
  have hxsb : ∀ x ∈ xs, 0 ≤ x ∧ x.toNat < 2 ^ 70 := by
    intro x hx
    rw [hxs] at hx
    rcases List.mem_cons.mp hx with h | h
    · subst h
      constructor
      · omega
      · omega
    · obtain ⟨ab, hab, habe⟩ := List.mem_map.mp h
      have hle : ab.2 ≤ ab.1 := zip_chain_le ps p0 hchain ab hab
      have hmem : ab.1 ∈ ps := (List.of_mem_zip hab).1
      have hlt : ab.1 < 2 ^ 60 :=
        hplt ab.1 (by rw [hps]; exact List.mem_cons_of_mem _ hmem)
      rw [← habe]
      constructor
      · omega
      · omega
  obtain ⟨dbytes, hdb, hdblen⟩ := encodeDeltas_some xs hxsb
  have hxslen : xs.length = td.primes.length := by
    rw [hxs, hps]
    simp [List.length_zip]
  have hkv := readKVarints_encodeDeltas xs hxsb dbytes hdb []
  rw [List.append_nil, hxslen] at hkv
  have hkne : td.primes.length ≠ 0 := by
    rw [hps]
    simp
  refine ⟨uleb128_encode td.dict_id ++ uleb128_encode td.primes.length ++ dbytes,
    ?_, ?_, ?_⟩
  · simp only [encodeDictPayload, hdel, hdb]
  · have h1 : (uleb128_encode td.dict_id).length ≤ 10 :=
      uleb_encode_len_le _ (by omega)
    have h2 : (uleb128_encode td.primes.length).length ≤ 10 :=
      uleb_encode_len_le _ (by omega)
    simp only [List.length_append]
    omega
  · have hu1 : uleb128_decode (uleb128_encode td.dict_id ++
        (uleb128_encode td.primes.length ++ dbytes)) 0 0 =
        .ok (td.dict_id, uleb128_encode td.primes.length ++ dbytes) :=
      uleb_roundtrip _ (by omega) _
    have hu2 : uleb128_decode (uleb128_encode td.primes.length ++ dbytes) 0 0 =
        .ok (td.primes.length, dbytes) :=
      uleb_roundtrip _ (by omega) _
    have hmap : xs.map Int.toNat =
        p0 :: (ps.zip (p0 :: ps)).map (fun ab => ab.1 - ab.2) := by
      rw [hxs, List.map_cons, int_deltas_toNat]
      congr 1
    have hdde : delta_decode_primes (xs.map Int.toNat) = some td.primes := by
      rw [hmap]
      simp only [delta_decode_primes]
      rw [deltaDecGo_zip ps p0 hchain, hps]
    have hmk := mkTowerDict_ok td h0 hne hsort hp3
    simp only [_decode_tower_dict_payload, List.append_assoc, hu1, hu2,
      if_neg hkne, hkv, hdde,
      if_neg (show ¬ td.primes.length ≠ td.primes.length from fun h => h rfl), hmk]

theorem encodeFrames_some {α : Type} (enc : α → Option (List ℕ)) (ftype : ℕ) :
    ∀ l : List α, (∀ a ∈ l, ∃ p, enc a = some p) →
    ∃ out, encodeFrames enc ftype l = some out ∧ l.length ≤ out.length := by
  intro l
  induction l with
  | nil => intro _; exact ⟨[], rfl, by simp⟩
  | cons a l ih =>
    intro h
    obtain ⟨p, hp⟩ := h a (List.mem_cons_self _ _)
    obtain ⟨out, hout, hlen⟩ := ih (fun y hy => h y (List.mem_cons_of_mem _ hy))
    refine ⟨_write_frame ftype p ++ out, ?_, ?_⟩
    · simp only [encodeFrames, hp, hout]
    · simp only [List.length_append, List.length_cons, _write_frame]
      omega

/-- Reading the concatenated TOWER_DICT frames accumulates the dicts into
the reader map and then continues with the remaining stream. -/
theorem readFrames_dict_seq : ∀ (tds : List TowerDict) (dframes : List ℕ),
    encodeFrames encodeDictPayload 1 tds = some dframes →
    (∀ td ∈ tds, ∀ payload, encodeDictPayload td = some payload →
      payload.length < 2 ^ 70 ∧ _decode_tower_dict_payload payload = .ok td) →
    ∀ (base fuel : ℕ) (rest : List ℕ) (dm : List (ℕ × TowerDict))
      (sigs : List DecodedSignature),
      readFramesGo base (tds.length + fuel + 1) (dframes ++ rest) dm sigs =
      readFramesGo base (fuel + 1) rest
        (tds.foldl (fun m d => assocUpd m d.dict_id d) dm) sigs := by
  intro tds
  induction tds with
  | nil =>
    intro dframes henc _ base fuel rest dm sigs
    have hdf : dframes = [] := by
      simp only [encodeFrames] at henc
      exact (Option.some.inj henc).symm
    subst hdf
    simp
  | cons td tds ih =>
    intro dframes henc hdec base fuel rest dm sigs
    simp only [encodeFrames] at henc
    cases hpl : encodeDictPayload td with
    | none => rw [hpl] at henc; exact Option.noConfusion henc
    | some payload =>
      rw [hpl] at henc
      cases hrest : encodeFrames encodeDictPayload 1 tds with
      | none => rw [hrest] at henc; exact Option.noConfusion henc
      | some dfr =>
        rw [hrest] at henc
        have hdf : dframes = _write_frame 1 payload ++ dfr := (Option.some.inj henc).symm
        subst hdf
        obtain ⟨hlen, hdec1⟩ := hdec td (List.mem_cons_self _ _) payload hpl
        rw [List.append_assoc]
        have hfe : (td :: tds).length + fuel + 1 = (tds.length + fuel + 1) + 1 := by
          simp only [List.length_cons]
          omega
        rw [hfe, readFrames_frame base (tds.length + fuel + 1) 1 payload (dfr ++ rest)
          dm sigs hlen]
        rw [if_neg (by norm_num : ¬ (1 : ℕ) = 127), if_pos rfl]
        simp only [hdec1]
        rw [ih dfr hrest (fun td' h => hdec td' (List.mem_cons_of_mem _ h)) base fuel rest
          (assocUpd dm td.dict_id td) sigs, List.foldl_cons]

/-- Reading the concatenated SIGNATURE frames appends the decoded
signatures in order and then continues with the remaining stream. -/
theorem readFrames_sig_seq (wmap dm : List (ℕ × TowerDict)) (base : ℕ)
    (f : DecodedSignature → DecodedSignature) :
    ∀ (sigs_in : List DecodedSignature) (sframes : List ℕ),
    encodeFrames (encodeSigPayload wmap) 2 sigs_in = some sframes →
    (∀ ds ∈ sigs_in, ∀ payload, encodeSigPayload wmap ds = some payload →
      payload.length < 2 ^ 70 ∧ _decode_signature_payload payload base dm = .ok (f ds)) →
    ∀ (fuel : ℕ) (rest : List ℕ) (sacc : List DecodedSignature),
      readFramesGo base (sigs_in.length + fuel + 1) (sframes ++ rest) dm sacc =
      readFramesGo base (fuel + 1) rest dm (sacc ++ sigs_in.map f) := by
  intro sigs_in
  induction sigs_in with
  | nil =>
    intro sframes henc _ fuel rest sacc
    have hsf : sframes = [] := by
      simp only [encodeFrames] at henc
      exact (Option.some.inj henc).symm
    subst hsf
    simp
  | cons ds sigs_in ih =>
    intro sframes henc hdec fuel rest sacc
    simp only [encodeFrames] at henc
    cases hpl : encodeSigPayload wmap ds with
    | none => rw [hpl] at henc; exact Option.noConfusion henc
    | some payload =>
      rw [hpl] at henc
      cases hrest : encodeFrames (encodeSigPayload wmap) 2 sigs_in with
      | none => rw [hrest] at henc; exact Option.noConfusion henc
      | some sfr =>
        rw [hrest] at henc
        have hsf : sframes = _write_frame 2 payload ++ sfr := (Option.some.inj henc).symm
        subst hsf
        obtain ⟨hlen, hdec1⟩ := hdec ds (List.mem_cons_self _ _) payload hpl
        rw [List.append_assoc]
        have hfe : (ds :: sigs_in).length + fuel + 1 = (sigs_in.length + fuel + 1) + 1 := by
          simp only [List.length_cons]
          omega
        rw [hfe, readFrames_frame base (sigs_in.length + fuel + 1) 2 payload (sfr ++ rest)
          dm sacc hlen]
        rw [if_neg (by norm_num : ¬ (2 : ℕ) = 127), if_neg (by norm_num : ¬ (2 : ℕ) = 1),
          if_pos rfl]
        simp only [hdec1]
        rw [ih sfr hrest (fun ds' h => hdec ds' (List.mem_cons_of_mem _ h)) fuel rest
          (sacc ++ [f ds])]
        have hl : sacc ++ [f ds] ++ sigs_in.map f = sacc ++ (ds :: sigs_in).map f := by
          simp
        rw [hl]

/-- Round-trip of a SIGNATURE frame payload: encoding succeeds, the
payload is bounded, and decoding (against a reader dict map that contains
the same dict) returns the clocks sorted by ascending prime. -/
theorem sig_payload_roundtrip (dict_map rdicts : List (ℕ × TowerDict)) (td : TowerDict)
    (ds : DecodedSignature) (base : ℕ)
    (hid : ds.dict_id < 2 ^ 60)
    (hw : assocGet dict_map ds.dict_id = some td)
    (hr : assocGet rdicts ds.dict_id = some td)
    (hk : td.primes.length < 2 ^ 60)
    (hplt : ∀ p ∈ td.primes, p < 2 ^ 60)
    (hmatch : (List.insertionSort (fun a b => a.p ≤ b.p) ds.sig.clocks).map
      (fun c => c.p) = td.primes)
    (hnd : td.primes.Nodup)
    (hwf : ∀ c ∈ ds.sig.clocks, (c.z = true → c.e = none) ∧
      (c.z = false → 3 ≤ c.p ∧ ∃ e, c.e = some e ∧ e < 2 ^ bit_length (c.p - 2))) :
    ∃ payload, encodeSigPayload dict_map ds = some payload ∧ payload.length < 2 ^ 70 ∧
      _decode_signature_payload payload base rdicts =
        .ok ⟨ds.dict_id, ⟨base, List.insertionSort (fun a b => a.p ≤ b.p)
          ds.sig.clocks⟩⟩ := by
  set sc := List.insertionSort (fun a b => a.p ≤ b.p) ds.sig.clocks with hsc
  have hscwf : ∀ c ∈ sc, (c.z = true → c.e = none) ∧
      (c.z = false → 3 ≤ c.p ∧ ∃ e, c.e = some e ∧ e < 2 ^ bit_length (c.p - 2)) := by
    intro c hc
    exact hwf c ((List.perm_insertionSort _ _).mem_iff.mp hc)
  have hscwf' : ∀ c ∈ sc, c.z = false → 3 ≤ c.p ∧ ∃ e, c.e = some e := by
    intro c hc hz
    obtain ⟨h3, e, he, _⟩ := (hscwf c hc).2 hz
    exact ⟨h3, e, he⟩
  have hndsc : (sc.map (fun c => c.p)).Nodup := by
    rw [hmatch]
    exact hnd
  have hsclen : sc.length = td.primes.length := by
    rw [← hmatch, List.length_map]
  have hsclt : ∀ c ∈ sc, c.p < 2 ^ 60 := by
    intro c hc
    apply hplt
    rw [← hmatch]
    exact List.mem_map_of_mem _ hc
  obtain ⟨zb, hzb, hzblen, hzunp⟩ := pack_unpack_z sc hndsc
  obtain ⟨es, hes, hesb, heslen, hesunp⟩ := pack_unpack_es sc hndsc hscwf'
  have hbuild : buildClocks (sc.map (fun c => (c.p, c.z)))
      ((clockItems sc).map Prod.snd) = .ok sc := buildClocks_roundtrip sc hscwf
  refine ⟨uleb128_encode ds.dict_id ++ zb ++ es, ?_, ?_, ?_⟩
  · simp only [encodeSigPayload, hw, ← hsc]
    rw [← hmatch]
    simp only [hzb, hes]
  · have h1 : (uleb128_encode ds.dict_id).length ≤ 10 :=
      uleb_encode_len_le _ (by omega)
    have htb : totalBits (clockItems sc) ≤ 60 * sc.length := totalBits_le 60 sc hsclt
    have hkk : sc.length < 2 ^ 60 := by
      rw [hsclen]
      exact hk
    simp only [List.length_append]
    rw [hzblen, heslen]
    omega
  · have hu : uleb128_decode (uleb128_encode ds.dict_id ++ (zb ++ es)) 0 0 =
        .ok (ds.dict_id, zb ++ es) := uleb_roundtrip _ (by omega) _
    have hlen8 : (td.primes.length + 7) / 8 = zb.length := by
      rw [hzblen, hsclen]
    simp only [_decode_signature_payload, List.append_assoc, hu, hr]
    rw [hlen8, if_neg (by rw [List.length_append]; omega), List.take_left, List.drop_left]
    rw [← hmatch]
    simp only [hzunp, hesunp]
    rw [List.zip_map']
    simp only [hbuild]

/-- C3: codec round-trip.  For every base, every list of well-formed
tower dicts with distinct ids (strictly ascending primes all at least 3,
within the size range the format's own varint guard admits), and every
list of signatures - each referencing a listed dict, with clocks whose
sorted primes equal the dict primes and whose exponents fit their bit
widths - write_ptcbin succeeds and read_ptcbin returns the same dicts
and, for each signature, the same clocks sorted by ascending p with
identical p, z and e values. -/
theorem C3_codec_roundtrip (base : ℕ) (dicts : List TowerDict)
    (sigs : List DecodedSignature)
    (hbase : base < 16)
    (hnd : (dicts.map (fun d => d.dict_id)).Nodup)
    (hdict : ∀ td ∈ dicts, td.dict_id ≠ 0 ∧ td.dict_id < 2 ^ 60 ∧ td.primes ≠ [] ∧
      td.primes.length < 2 ^ 60 ∧ (∀ p ∈ td.primes, 3 ≤ p ∧ p < 2 ^ 60) ∧
      td.primes.Sorted (· < ·))
    (hsig : ∀ ds ∈ sigs, ds.sig.base = base ∧
      ∃ td ∈ dicts, ds.dict_id = td.dict_id ∧
        (List.insertionSort (fun a b => a.p ≤ b.p) ds.sig.clocks).map (fun c => c.p) =
          td.primes ∧
        ∀ c ∈ ds.sig.clocks, (c.z = true → c.e = none) ∧
          (c.z = false → ∃ e, c.e = some e ∧ e < 2 ^ bit_length (c.p - 2))) :
    ∃ data, write_ptcbin base dicts sigs = some data ∧
      read_ptcbin data = .ok ⟨⟨1, base, 15⟩,
        dicts.map (fun d => (d.dict_id, d)),
        sigs.map (fun ds => ⟨ds.dict_id,
          ⟨base, List.insertionSort (fun a b => a.p ≤ b.p) ds.sig.clocks⟩⟩)⟩ := by
  have hwmap : dicts.foldl (fun m d => assocUpd m d.dict_id d) [] =
      dicts.map (fun d => (d.dict_id, d)) := by
    have h := foldUpd_eq (fun d : TowerDict => d.dict_id) id dicts []
      (fun a _ kv hkv => absurd hkv (List.not_mem_nil kv)) hnd
    rw [show (fun (m : List (ℕ × TowerDict)) (d : TowerDict) => assocUpd m d.dict_id d) =
      (fun m a => assocUpd m ((fun d : TowerDict => d.dict_id) a) (id a)) from rfl, h]
    simp
  have hget : ∀ td ∈ dicts, assocGet (dicts.map (fun d => (d.dict_id, d))) td.dict_id =
      some td := by
    intro td htd
    have h := assocGet_map_self (fun d : TowerDict => d.dict_id) id dicts hnd td htd
    simpa using h
  have hcheck1 : sigs.any (fun ds =>
      (assocGet (dicts.foldl (fun m d => assocUpd m d.dict_id d) []) ds.dict_id).isNone)
      = false := by
    simp only [List.any_eq_false]
    intro ds hds
    obtain ⟨_, td, htd, hdid, _, _⟩ := hsig ds hds
    rw [hwmap, hdid, hget td htd]
    simp
  have hcheck2 : sigs.any (fun ds => ds.sig.base != base) = false := by
    simp only [List.any_eq_false]
    intro ds hds
    have hb := (hsig ds hds).1
    simp [hb]
  have hdrt : ∀ td ∈ dicts, ∃ payload, encodeDictPayload td = some payload ∧
      payload.length < 2 ^ 70 ∧ _decode_tower_dict_payload payload = .ok td := by
    intro td htd
    obtain ⟨h0, hid, hne, hk, hp, hsortlt⟩ := hdict td htd
    exact dict_payload_roundtrip td h0 hid hne hk (fun p hp' => (hp p hp').1)
      (fun p hp' => (hp p hp').2) (hsortlt.imp (fun h => le_of_lt h))
  have hsrt : ∀ ds ∈ sigs, ∃ payload,
      encodeSigPayload (dicts.foldl (fun m d => assocUpd m d.dict_id d) []) ds =
        some payload ∧
      payload.length < 2 ^ 70 ∧
      _decode_signature_payload payload base (dicts.map (fun d => (d.dict_id, d))) =
        .ok ⟨ds.dict_id, ⟨base, List.insertionSort (fun a b => a.p ≤ b.p)
          ds.sig.clocks⟩⟩ := by
    intro ds hds
    obtain ⟨hb, td, htd, hdid, hmt, hcwf⟩ := hsig ds hds
    obtain ⟨h0, hid, hne, hk, hp, hsortlt⟩ := hdict td htd
    have hndp : td.primes.Nodup := hsortlt.nodup
    have hcwf3 : ∀ c ∈ ds.sig.clocks, (c.z = true → c.e = none) ∧
        (c.z = false → 3 ≤ c.p ∧ ∃ e, c.e = some e ∧ e < 2 ^ bit_length (c.p - 2)) := by
      intro c hc
      refine ⟨(hcwf c hc).1, fun hz => ⟨?_, (hcwf c hc).2 hz⟩⟩
      have hcm : c ∈ List.insertionSort (fun a b => a.p ≤ b.p) ds.sig.clocks :=
        (List.perm_insertionSort _ _).mem_iff.mpr hc
      have hcp : c.p ∈ td.primes := by
        rw [← hmt]
        exact List.mem_map_of_mem _ hcm
      exact (hp c.p hcp).1
    have h60 : ds.dict_id < 2 ^ 60 := by
      rw [hdid]
      exact hid
    apply sig_payload_roundtrip _ _ td ds base h60 ?_ ?_ hk
      (fun p hp' => (hp p hp').2) hmt hndp hcwf3
    · rw [hwmap, hdid]
      exact hget td htd
    · rw [hdid]
      exact hget td htd
  have hddec : ∀ td ∈ dicts, ∀ payload, encodeDictPayload td = some payload →
      payload.length < 2 ^ 70 ∧ _decode_tower_dict_payload payload = .ok td := by
    intro td htd payload hpl
    obtain ⟨pl, hpl', hlen, hdec⟩ := hdrt td htd
    rw [hpl'] at hpl
    obtain rfl := Option.some.inj hpl
    exact ⟨hlen, hdec⟩
  have hsdec : ∀ ds ∈ sigs, ∀ payload,
      encodeSigPayload (dicts.foldl (fun m d => assocUpd m d.dict_id d) []) ds =
        some payload →
      payload.length < 2 ^ 70 ∧
      _decode_signature_payload payload base (dicts.map (fun d => (d.dict_id, d))) =
        .ok ((fun ds : DecodedSignature => (⟨ds.dict_id, ⟨base,
          List.insertionSort (fun a b => a.p ≤ b.p) ds.sig.clocks⟩⟩ :
            DecodedSignature)) ds) := by
    intro ds hds payload hpl
    obtain ⟨pl, hpl', hlen, hdec⟩ := hsrt ds hds
    rw [hpl'] at hpl
    obtain rfl := Option.some.inj hpl
    exact ⟨hlen, hdec⟩
  obtain ⟨dframes, hdfr, hdflen⟩ := encodeFrames_some encodeDictPayload 1 dicts
    (fun td htd => (hdrt td htd).elim (fun p hp => ⟨p, hp.1⟩))
  obtain ⟨sframes, hsfr, hsflen⟩ := encodeFrames_some
    (encodeSigPayload (dicts.foldl (fun m d => assocUpd m d.dict_id d) [])) 2 sigs
    (fun ds hds => (hsrt ds hds).elim (fun p hp => ⟨p, hp.1⟩))
  refine ⟨[80, 84, 67] ++ [16 * VERSION + base, 15] ++ dframes ++ sframes ++
    _write_frame 127 [], ?_, ?_⟩
  · rw [write_ptcbin, if_neg (show ¬ 15 < base by omega)]
    simp only [hcheck1, hcheck2, Bool.false_eq_true, if_false, hdfr, hsfr]
  · have hVb : 16 * VERSION + base = 16 + base := by
      norm_num [VERSION]
    have hdata : [80, 84, 67] ++ [16 * VERSION + base, 15] ++ dframes ++ sframes ++
        _write_frame 127 [] = 80 :: 84 :: 67 :: (16 + base) :: 15 ::
        (dframes ++ (sframes ++ _write_frame 127 [])) := by
      rw [hVb]
      simp [List.append_assoc]
    rw [hdata, read_ptcbin_header base hbase]
    have hwflen : 1 ≤ (_write_frame 127 []).length := by
      rw [_write_frame]
      simp
    obtain ⟨extra, hextra⟩ : ∃ extra,
        (dframes ++ (sframes ++ _write_frame 127 [])).length =
          dicts.length + (sigs.length + extra) := by
      refine ⟨(dframes ++ (sframes ++ _write_frame 127 [])).length -
        dicts.length - sigs.length, ?_⟩
      simp only [List.length_append]
      omega
    rw [hextra]
    rw [readFrames_dict_seq dicts dframes hdfr hddec base (sigs.length + extra)
      (sframes ++ _write_frame 127 []) [] []]
    rw [hwmap]
    rw [readFrames_sig_seq (dicts.foldl (fun m d => assocUpd m d.dict_id d) [])
      (dicts.map (fun d => (d.dict_id, d))) base
      (fun ds : DecodedSignature => (⟨ds.dict_id, ⟨base,
        List.insertionSort (fun a b => a.p ≤ b.p) ds.sig.clocks⟩⟩ : DecodedSignature))
      sigs sframes hsfr hsdec extra (_write_frame 127 []) []]
    rw [show _write_frame 127 [] = _write_frame 127 [] ++ [] from (List.append_nil _).symm,
      readFrames_frame base extra 127 [] [] _ _ (by norm_num)]
    rw [if_pos rfl]
    simp

theorem C3_codec_roundtrip_witness :
    ((10 : ℕ) < 16 ∧
      (([⟨1, [3, 5]⟩] : List TowerDict).map (fun d => d.dict_id)).Nodup) ∧
    ∃ data, write_ptcbin 10 [⟨1, [3, 5]⟩]
        [⟨1, ⟨10, [⟨5, false, some 2⟩, ⟨3, true, none⟩]⟩⟩] = some data ∧
      read_ptcbin data = .ok ⟨⟨1, 10, 15⟩,
        ([⟨1, [3, 5]⟩] : List TowerDict).map (fun d => (d.dict_id, d)),
        ([⟨1, ⟨10, [⟨5, false, some 2⟩, ⟨3, true, none⟩]⟩⟩] :
          List DecodedSignature).map (fun ds => ⟨ds.dict_id,
            ⟨10, List.insertionSort (fun a b => a.p ≤ b.p) ds.sig.clocks⟩⟩)⟩ :=
  ⟨⟨by norm_num, by decide⟩,
    C3_codec_roundtrip 10 [⟨1, [3, 5]⟩]
      [⟨1, ⟨10, [⟨5, false, some 2⟩, ⟨3, true, none⟩]⟩⟩]
      (by norm_num) (by decide)
      (by
        intro td htd
        simp only [List.mem_singleton] at htd
        subst htd
        exact ⟨by decide, by decide, by simp, by decide, by decide, by decide⟩)
      (by
        intro ds hds
        simp only [List.mem_singleton] at hds
        subst hds
        refine ⟨rfl, ⟨1, [3, 5]⟩, List.mem_singleton.mpr rfl, rfl, by decide, ?_⟩
        intro c hc
        rcases List.mem_cons.mp hc with h | h
        · subst h
          exact ⟨fun h => Bool.noConfusion h, fun _ => ⟨2, ⟨rfl, by decide⟩⟩⟩
        · rcases List.mem_cons.mp h with h | h
          · subst h
            exact ⟨fun _ => rfl, fun h => Bool.noConfusion h⟩
          · exact absurd h (List.not_mem_nil _))⟩

end PTC
